import Mathlib

/-!
Verification of audio_sync: ring buffer, fill-level tracker, rate controller and resampler

A shallow embedding of `src/audio_sync.cpp` and `src/resampler.hpp`.

Conventions of the embedding.
* C `int` values are `Int`.  Where the source operands are non-negative the
  C operators `/` and `%` coincide with the Lean operators used here.
  The 32-bit accumulators of `calc_slope` wrap explicitly (`wrap32`), and the
  conversion of a scaled sample to `int` has the 32-bit range (`float_to_int32`).
* C `float` values are rationals (`ℚ`).  Each float computation of the source
  is embedded twice.  The definitions with the source's plain names compute
  in exact arithmetic; they carry the properties that rounding cannot touch
  (signs, clamps, counts, data movement, bounds over real taps).  The
  definitions named `..._f32` round every operation to single precision
  (`f32`, round to nearest, ties to even) and convert to `int` with the
  32-bit range of the x86 target; they carry the properties that are about
  the values the program computes.
* Arrays are total maps from an index to a value; bounds are stated and
  proved as theorems where a claim is about them.
* `memcpy` works on bytes.  An `int16_t` occupies two bytes, low byte first
  (the x86 target of the program).
-/

namespace AudioSync

/-! ## Single-precision arithmetic

The definitions so far take a `float` for an exact rational.  The definitions
named `..._f32` below repeat the float computations of the source with every
operation rounded to the nearest single-precision value, ties to even.
Values beyond the largest float (no overflow to infinity), infinities and NaN
are not modelled. -/

/-- Round to the nearest integer, ties to the even one. -/
def round_half_even (x : ℚ) : Int :=
  if 2 * (x - ⌊x⌋) < 1 then ⌊x⌋
  else if 1 < 2 * (x - ⌊x⌋) then ⌊x⌋ + 1
  else if ⌊x⌋ % 2 = 0 then ⌊x⌋ else ⌊x⌋ + 1

/-- Search for the binade of `a`: the largest `e` in `-125 .. n - 126` with
`2^e ≤ a`, or `-126` when there is none. -/
def f32_exp_aux (a : ℚ) : Nat → Int
  | 0 => -126
  | n + 1 => if (2 : ℚ) ^ ((n : Int) - 125) ≤ a then (n : Int) - 125 else f32_exp_aux a n

/-- The exponent of the binade of `a ≥ 0` in single precision: the largest
`e ≤ 127` with `2^e ≤ a`, and `-126` for the smallest normal binade and the
subnormal values below it. -/
def f32_exp (a : ℚ) : Int := f32_exp_aux a 253

/-- Rounding of `a ≥ 0` to single precision: to the nearest multiple of
`2^(e - 23)`, the spacing of the floats in the binade `e` of `a`. -/
def f32_mag (a : ℚ) : ℚ :=
  (round_half_even (a / 2 ^ (f32_exp a - 23)) : ℚ) * 2 ^ (f32_exp a - 23)

/-- Rounding to the nearest single-precision value, ties to even: the result
of one float operation whose exact result is `x`. -/
def f32 (x : ℚ) : ℚ := if 0 ≤ x then f32_mag x else -f32_mag (-x)

/-- The rational `x` is a single-precision value. -/
def is_f32 (x : ℚ) : Prop := f32 x = x

instance (x : ℚ) : Decidable (is_f32 x) := by
  unfold is_f32
  infer_instance

/-- The rational `x` is an integer multiple of `2^g`. -/
def on_grid (g : Int) (x : ℚ) : Prop := ∃ k : Int, x = (k : ℚ) * 2 ^ g

/-! ## Ring buffer (`src/audio_sync.cpp`, lines 44-67, 101-116, 228-237) -/

/-- Source constant `static const int BUF_LEN = 4096;` -/
def BUF_LEN : Int := 4096

/-- Source type `struct s_buffer { int write; int play; int16_t data[BUF_LEN]; }`. -/
structure s_buffer where
  write : Int
  play : Int
  data : Int → Int

/-- Reduce an integer to the signed 16-bit range (two's complement). -/
def to_int16 (v : Int) : Int := (v + 32768) % 65536 - 32768

/-- Byte number `k` (0 = low, 1 = high) of the 16-bit sample `v`. -/
def int16_byte (v : Int) (k : Int) : Int :=
  if k % 2 = 0 then v % 256 else (v / 256) % 256

/-- The byte view `(uint8_t*)(data + p)`: byte `t` counted from sample `p`. -/
def data_bytes (data : Int → Int) (p : Int) (t : Int) : Int :=
  int16_byte (data (p + t / 2)) t

/-- The library call `memcpy(dst + off, src, n)` on byte maps: `n` bytes of `src` land at
byte offset `off` of `dst`. -/
def memcpy (dst : Int → Int) (off : Int) (src : Int → Int) (n : Int) : Int → Int :=
  fun k => if off ≤ k ∧ k < off + n then src (k - off) else dst k

/-- The 16-bit sample number `i` of a byte stream handed to the consumer. -/
def stream_sample (stream : Int → Int) (i : Int) : Int :=
  to_int16 (stream (2 * i) + 256 * stream (2 * i + 1))

/-- The first `n` samples of a byte stream, in order. -/
def stream_samples (stream : Int → Int) (n : Nat) : List Int :=
  (List.range n).map (fun i => stream_sample stream i)

/-- Source function `void callback(void *udata, uint8_t *stream, int len)`: the consumer drain.
`stream` is a byte pointer, so `stream + first` is a byte offset. -/
def callback (b : s_buffer) (stream : Int → Int) (len : Int) : (Int → Int) × s_buffer :=
  let first0 := len / 2
  let wraps := b.play + first0 ≥ BUF_LEN
  let first := if wraps then BUF_LEN - b.play else first0
  let second := if wraps then len / 2 - first else 0
  let stream1 := memcpy stream 0 (data_bytes b.data b.play) (first * 2)
  let stream2 := if second ≠ 0 then memcpy stream1 first (data_bytes b.data 0) (second * 2)
                 else stream1
  (stream2, { b with play := (b.play + len / 2) % BUF_LEN })

/-- Source function `int get_writeable()`. -/
def get_writeable (b : s_buffer) : Int :=
  let pos := if b.write ≤ b.play then b.play - b.write else BUF_LEN - b.write + b.play
  pos * 2

/-- The cursor and data initialisation of `init_sound` together with the
zero initialiser of `buffer.data`. -/
def init_sound : s_buffer :=
  { play := 0, write := BUF_LEN / 2, data := fun _ => 0 }

/-- The driver's write loop (lines 232-236):
`for (i < sample_count) { data[write] = *resampled++; write = (write + 1) % BUF_LEN; }`. -/
def write_loop (b : s_buffer) : List Int → s_buffer
  | [] => b
  | x :: xs =>
    write_loop { b with data := Function.update b.data b.write x,
                         write := (b.write + 1) % BUF_LEN } xs

/-- One step of either side of the ring buffer. -/
inductive ring_op where
  | produce (samples : List Int)
  | drain (len : Int)

/-- A ring buffer together with the number of buffered samples that the
consumer has not yet drained (a ghost counter, not a program variable). -/
structure ring_state where
  buffer : s_buffer
  unread : Int

/-- The state after `init_sound`: `BUF_LEN / 2` samples of silence are buffered. -/
def ring_init : ring_state := { buffer := init_sound, unread := BUF_LEN / 2 }

/-- One guarded step.  A write happens once the spin loop
`while (get_writeable() < sample_count*2);` has exited; a drain of `len`
bytes is admitted when it asks for no more than the unread samples. -/
def ring_step (s : ring_state) : ring_op → Option ring_state
  | .produce samples =>
    if (samples.length : Int) * 2 ≤ get_writeable s.buffer then
      some { buffer := write_loop s.buffer samples, unread := s.unread + samples.length }
    else none
  | .drain len =>
    if 0 ≤ len ∧ len % 2 = 0 ∧ len / 2 ≤ s.unread then
      some { buffer := (callback s.buffer (fun _ => 0) len).2, unread := s.unread - len / 2 }
    else none

/-- Run a sequence of guarded steps; `none` when a guard fails. -/
def ring_run (s : ring_state) : List ring_op → Option ring_state
  | [] => some s
  | op :: ops => (ring_step s op).bind (fun s1 => ring_run s1 ops)

/-- The relation between the cursors and the ghost count of unread samples. -/
def ring_inv (s : ring_state) : Prop :=
  0 ≤ s.buffer.play ∧ s.buffer.play < BUF_LEN ∧
  0 ≤ s.buffer.write ∧ s.buffer.write < BUF_LEN ∧
  0 ≤ s.unread ∧ s.unread ≤ BUF_LEN ∧
  s.buffer.write = (s.buffer.play + s.unread) % BUF_LEN

/-- A buffer with one unread sample, 1, in slot 4094, and the write cursor on
the last slot of the backing array: the next writes wrap to slot 0. -/
def wrap_start_buffer : s_buffer :=
  { write := 4095, play := 4094, data := fun i => if i = 4094 then 1 else 0 }

/-! ## Fill-level tracker (`src/audio_sync.cpp`, lines 70-99, 128) -/

/-- Source constant `static const int NUM_W_VALUES = 60;` -/
def NUM_W_VALUES : Nat := 60

/-- Wrap an integer to the signed 32-bit range of a C `int`. -/
def wrap32 (x : Int) : Int := (x + 2147483648) % 4294967296 - 2147483648

/-- The five `int` accumulators of `calc_slope`. -/
structure slope_sums where
  valid_values : Int
  sx : Int
  sy : Int
  sxx : Int
  sxy : Int
deriving DecidableEq

/-- The body of the `if (w_values[i] != -1)` statement of `calc_slope` for the
history value `v = w_values[i]`; every `int` operation wraps. -/
def slope_body (v : Int) (a : slope_sums) : slope_sums :=
  if v ≠ -1 then
    let k := a.valid_values
    { valid_values := wrap32 (a.valid_values + 1),
      sx := wrap32 (a.sx + k),
      sy := wrap32 (a.sy + v),
      sxx := wrap32 (a.sxx + wrap32 (k * k)),
      sxy := wrap32 (a.sxy + wrap32 (k * v)) }
  else a

/-- The loop `for (int i = w_value_index, j = 0; j < NUM_W_VALUES; j++)` of
`calc_slope`, with `n` iterations left to run from index `i`. -/
def slope_loop (w_values : Nat → Int) : Nat → Nat → slope_sums → slope_sums
  | 0, _, a => a
  | n + 1, i, a =>
    slope_loop w_values n ((i + 1) % NUM_W_VALUES) (slope_body (w_values i) a)

/-- Source function `float calc_slope()` on the history `w_values` with write index
`w_value_index`, with the quotient of the two `int` results exact. -/
def calc_slope (w_values : Nat → Int) (w_value_index : Nat) : ℚ :=
  let a := slope_loop w_values NUM_W_VALUES w_value_index ⟨0, 0, 0, 0, 0⟩
  let num : ℚ := (wrap32 (wrap32 (a.valid_values * a.sxy) - wrap32 (a.sx * a.sy)) : Int)
  let den : ℚ := (wrap32 (wrap32 (a.valid_values * a.sxx) - wrap32 (a.sx * a.sx)) : Int)
  if den = 0 then 0 else num / den

/-- Source function `float calc_slope()` in single precision: the two `int` results are
converted to float (rounded when they have more than 24 significant bits) and
the quotient is a float division. -/
def calc_slope_f32 (w_values : Nat → Int) (w_value_index : Nat) : ℚ :=
  let a := slope_loop w_values NUM_W_VALUES w_value_index ⟨0, 0, 0, 0, 0⟩
  let num : ℚ := f32 (wrap32 (wrap32 (a.valid_values * a.sxy) - wrap32 (a.sx * a.sy)) : Int)
  let den : ℚ := f32 (wrap32 (wrap32 (a.valid_values * a.sxx) - wrap32 (a.sx * a.sx)) : Int)
  if den = 0 then 0 else f32 (num / den)

/-- The body of the loop of `calc_slope` computed on mathematical integers:
the values the accumulators would take if an `int` never wrapped. -/
def slope_body_exact (v : Int) (a : slope_sums) : slope_sums :=
  if v ≠ -1 then
    let k := a.valid_values
    { valid_values := a.valid_values + 1,
      sx := a.sx + k,
      sy := a.sy + v,
      sxx := a.sxx + k * k,
      sxy := a.sxy + k * v }
  else a

/-- The loop of `calc_slope` on mathematical integers, with `n` iterations
left to run from index `i`. -/
def slope_loop_exact (w_values : Nat → Int) : Nat → Nat → slope_sums → slope_sums
  | 0, _, a => a
  | n + 1, i, a =>
    slope_loop_exact w_values n ((i + 1) % NUM_W_VALUES) (slope_body_exact (w_values i) a)

/-- An integer fits a 32-bit `int` with room to spare: `|v| < 2^31`. -/
def fits_int32 (v : Int) : Prop := |v| < 2147483648

/-- The valid entries among the first `n` slots visited from the write index. -/
def visited_entries (w_values : Nat → Int) (w_value_index n : Nat) : List Int :=
  ((List.range n).map (fun j => w_values ((w_value_index + j) % NUM_W_VALUES))).filter
    (fun v => v ≠ -1)

/-- The low-pass filter of the driver (lines 247-250):
`y = prev_y * (1.0f - a) + w * a` with `a = .05f`, every operation rounded to
single precision and the integer `w` converted to float. -/
def smooth (prev_y : ℚ) (w : Int) : ℚ :=
  f32 (f32 (prev_y * f32 (1 - f32 (5 / 100))) + f32 (f32 (w : ℚ) * f32 (5 / 100)))

/-- The history write of the driver (lines 250-254): the smoothed reading
`(int)y` goes to slot `w_value_index`. -/
def record_reading (w_values : Nat → Int) (w_value_index : Nat) (y : ℚ) : Nat → Int :=
  Function.update w_values w_value_index (if 0 ≤ y then ⌊y⌋ else ⌈y⌉)

/-- The history after `memset(w_values, -1, sizeof(w_values))`. -/
def init_w_values : Nat → Int := fun _ => -1

/-- The largest smoothed reading: `get_writeable()` never exceeds `2 * BUF_LEN`. -/
def W_MAX : Int := 2 * BUF_LEN

/-- Every slot of the history is the sentinel or a smoothed reading. -/
def history_ok (w_values : Nat → Int) : Prop :=
  ∀ i, i < NUM_W_VALUES → w_values i = -1 ∨ (0 ≤ w_values i ∧ w_values i ≤ W_MAX)

instance (w_values : Nat → Int) : Decidable (history_ok w_values) := by
  unfold history_ok
  infer_instance

/-- Every value of a list is a smoothed reading: between 0 and `W_MAX`. -/
def readings_ok (ys : List Int) : Prop := ∀ v ∈ ys, 0 ≤ v ∧ v ≤ W_MAX

/-- The 60 slots in circular order starting at the write index, which holds
the oldest entry. -/
def history_entries (w_values : Nat → Int) (w_value_index : Nat) : List Int :=
  (List.range NUM_W_VALUES).map (fun j => w_values ((w_value_index + j) % NUM_W_VALUES))

/-- The valid entries of the history, oldest first. -/
def valid_entries (w_values : Nat → Int) (w_value_index : Nat) : List Int :=
  (history_entries w_values w_value_index).filter (fun v => v ≠ -1)

/-- Sum of the time indices `0 .. n-1`. -/
def ols_sx (n : Nat) : Int := ∑ k in Finset.range n, (k : Int)

/-- Sum of the squared time indices `0 .. n-1`. -/
def ols_sxx (n : Nat) : Int := ∑ k in Finset.range n, (k : Int) * k

/-- Sum of the values. -/
def ols_sy (ys : List Int) : Int := ∑ k in Finset.range ys.length, ys.getD k 0

/-- Sum of the products time index times value. -/
def ols_sxy (ys : List Int) : Int := ∑ k in Finset.range ys.length, (k : Int) * ys.getD k 0

/-- Numerator `n*Sxy - Sx*Sy` of the least-squares slope. -/
def ols_num (ys : List Int) : Int :=
  ys.length * ols_sxy ys - ols_sx ys.length * ols_sy ys

/-- Denominator `n*Sxx - Sx^2` of the least-squares slope. -/
def ols_den (n : Nat) : Int := n * ols_sxx n - ols_sx n * ols_sx n

/-- The ordinary least-squares slope of the values `ys` against the time
index `0 .. n-1`, as the specification words it:
`(n*Sxy - Sx*Sy) / (n*Sxx - Sx^2)`. -/
def ols_slope (ys : List Int) : ℚ := (ols_num ys : ℚ) / (ols_den ys.length : ℚ)

/-- A history with two valid entries 10, 20 written at slots 58 and 59. -/
def rising_history : Nat → Int := fun i => if i = 58 then 10 else if i = 59 then 20 else -1

/-- A history with two valid entries 20, 10 written at slots 0 and 1. -/
def falling_history : Nat → Int := fun i => if i = 0 then 20 else if i = 1 then 10 else -1

/-- A full history of the constant reading 5000. -/
def flat_history : Nat → Int := fun _ => 5000

/-- A history with four valid entries 0, 0, 0, 1 written at slots 0 to 3. -/
def step_history : Nat → Int := fun i => if i < 3 then 0 else if i = 3 then 1 else -1
/-! ## Rate controller (`src/audio_sync.cpp`, lines 40-42, 256-289) -/

/-- Source constant `static const int SAMPLE_RATE = 48000;` -/
def SAMPLE_RATE : Int := 48000

/-- Source constant `static const float MIN_RATE = SAMPLE_RATE * .98f;` in exact
arithmetic; the float constant `MIN_RATE_f32` has the same value, 47040. -/
def MIN_RATE : ℚ := SAMPLE_RATE * (98 / 100)

/-- Source constant `static const float MAX_RATE = SAMPLE_RATE * 1.02f;` in exact
arithmetic; the float constant `MAX_RATE_f32` has the same value, 48960. -/
def MAX_RATE : ℚ := SAMPLE_RATE * (102 / 100)

/-- Source constant `static const int TARGET = 5000;` -/
def TARGET : Int := 5000

/-- The value of `new_adj` after `new_adj *= dir` (lines 261-282) in exact
arithmetic, for the smoothed reading `w` and the slope returned by
`calc_slope`.  `abs(slope)` is the float absolute value, `abs(diff)` the
integer one. -/
def rate_adjustment (w : Int) (slope : ℚ) : ℚ :=
  let diff : Int := w - TARGET
  let dir : Int := (if diff > 0 then 1 else 0) - (if diff < 0 then 1 else 0)
  let new_adj : ℚ :=
    if (dir : ℚ) * slope < -1 then
      let a : ℚ := |slope| / 4
      if a > 1 then 1 else a
    else if (dir : ℚ) * slope > 0 ∨ w = 0 then
      let skew : ℚ := ((|diff| : Int) : ℚ) / 1600 * 10
      let a : ℚ := -((|slope| + skew) / 2)
      if a < -2 then -2 else a
    else 0
  new_adj * (dir : ℚ)

/-- The output rate passed to `set_output_rate` (lines 283-288) in exact
arithmetic: the old rate plus `-new_adj`, clamped to `[MIN_RATE, MAX_RATE]`. -/
def adjust_output_rate (w : Int) (slope : ℚ) (output_rate : ℚ) : ℚ :=
  let r : ℚ := output_rate + -(rate_adjustment w slope)
  if r < MIN_RATE then MIN_RATE
  else if r > MAX_RATE then MAX_RATE
  else r


/-- Source constant `static const float MIN_RATE = SAMPLE_RATE * .98f;` in single
precision: the float literal, the conversion of `SAMPLE_RATE` and the product
are rounded. -/
def MIN_RATE_f32 : ℚ := f32 (f32 (SAMPLE_RATE : ℚ) * f32 (98 / 100))

/-- Source constant `static const float MAX_RATE = SAMPLE_RATE * 1.02f;` in single
precision. -/
def MAX_RATE_f32 : ℚ := f32 (f32 (SAMPLE_RATE : ℚ) * f32 (102 / 100))

/-- The value of `skew` (line 273) in single precision:
`(abs(diff) / 1600.0f) * 10.0f`, the integer `abs(diff)` converted to float. -/
def skew_f32 (diff : Int) : ℚ := f32 (f32 (f32 ((|diff| : Int) : ℚ) / 1600) * 10)

/-- The value of `new_adj` after `new_adj *= dir` (lines 261-282) in single
precision, for the smoothed reading `w` and the float `slope`.  The products
with the converted `dir`, the quotients and the sum are float operations; the
comparisons and the negation are exact. -/
def rate_adjustment_f32 (w : Int) (slope : ℚ) : ℚ :=
  let diff : Int := w - TARGET
  let dir : Int := (if diff > 0 then 1 else 0) - (if diff < 0 then 1 else 0)
  let new_adj : ℚ :=
    if f32 (f32 (dir : ℚ) * slope) < -1 then
      let a : ℚ := f32 (|slope| / 4)
      if a > 1 then 1 else a
    else if f32 (f32 (dir : ℚ) * slope) > 0 ∨ w = 0 then
      let a : ℚ := -(f32 (f32 (|slope| + skew_f32 diff) / 2))
      if a < -2 then -2 else a
    else 0
  f32 (new_adj * f32 (dir : ℚ))

/-- The output rate passed to `set_output_rate` (lines 283-288) in single
precision: the float sum `output_rate + -new_adj`, clamped to
`[MIN_RATE, MAX_RATE]`. -/
def adjust_output_rate_f32 (w : Int) (slope : ℚ) (output_rate : ℚ) : ℚ :=
  let r : ℚ := f32 (output_rate + -(rate_adjustment_f32 w slope))
  if r < MIN_RATE_f32 then MIN_RATE_f32
  else if r > MAX_RATE_f32 then MAX_RATE_f32
  else r
/-! ## Resampler (`src/resampler.hpp`) -/

/-- Source constant `static const int OUTPUT_BUF_LEN = 1024;` -/
def OUTPUT_BUF_LEN : Int := 1024

/-- Source constant `static const int INPUT_BUF_LEN = 4;` -/
def INPUT_BUF_LEN : Int := 4

/-- The fields of `class c_resampler`.  `output_buf` and `input_buf` are the
stores behind the two pointers, indexed from 0. -/
structure c_resampler where
  input_rate : ℚ
  output_rate : ℚ
  m : ℚ
  mf : ℚ
  samples_required : Int
  output_buf_index : Int
  input_buf_index : Int
  output_buf : Int → Int
  input_buf : Int → ℚ

/-- Truncation toward zero, the value of the conversion `(int)x` when it
fits an `int`.  The 32-bit range of the conversion is added by
`float_to_int32`; `cast_int` is the conversion with its range. -/
def float_to_int (x : ℚ) : Int := if 0 ≤ x then ⌊x⌋ else ⌈x⌉

/-- The C library function `round`: nearest integer, halves away from zero. -/
def c_round (x : ℚ) : Int := if 0 ≤ x then ⌊x + 1 / 2⌋ else ⌈x - 1 / 2⌉

/-- The constructor `c_resampler::c_resampler(float input_rate, float output_rate)` in
exact arithmetic: the quotient is not rounded and its integer part is taken
to fit an `int` (`c_resampler.ctor_f32` is the constructor with float
rounding and the 32-bit conversion).
The output store is left uninitialised by `new short[...]` apart from the
first bytes cleared by `memset`; no entry is read before `process` has
written it, and the initial contents are taken to be 0. -/
def c_resampler.ctor (input_rate output_rate : ℚ) : c_resampler :=
  let m : ℚ := input_rate / output_rate
  { input_rate := input_rate,
    output_rate := output_rate,
    m := m,
    mf := m - float_to_int m,
    samples_required := float_to_int m + 2,
    output_buf_index := 0,
    input_buf_index := INPUT_BUF_LEN - 1,
    output_buf := fun _ => 0,
    input_buf := fun _ => 0 }

/-- Source function `void c_resampler::set_output_rate(float output_rate)` in exact
arithmetic. -/
def c_resampler.set_output_rate (r : c_resampler) (output_rate : ℚ) : c_resampler :=
  { r with output_rate := output_rate, m := r.input_rate / output_rate }

/-- Source function `int c_resampler::get_output_buf(const int16_t **out)`: the returned count
and the object afterwards; `*out` is the `output_buf` store of the object. -/
def c_resampler.get_output_buf (r : c_resampler) : Int × c_resampler :=
  (r.output_buf_index, { r with output_buf_index := 0 })

/-- The 4-point, 3rd-order B-spline of `process` (lines 107-112) on the taps
`ym, y0, y1, y2` at the fractional phase `mf`, in exact arithmetic: the
polynomial the float code approximates. -/
def bspline (ym y0 y1 y2 mf : ℚ) : ℚ :=
  let ym1py1 : ℚ := ym + y1
  let c0 : ℚ := 1 / 6 * ym1py1 + 2 / 3 * y0
  let c1 : ℚ := 1 / 2 * (y1 - ym)
  let c2 : ℚ := 1 / 2 * ym1py1 - y0
  let c3 : ℚ := 1 / 2 * (y0 - y1) + 1 / 6 * (y2 - ym)
  ((c3 * mf + c2) * mf + c1) * mf + c0

/-- The conversion `(int)v` of a float that holds the integer `v` to a 32-bit
`int`.  It is exact when `v` fits.  For a value out of range the conversion is
undefined in C++; the x86 conversion instruction of the program's target
returns `INT_MIN`, which is what is modelled. -/
def float_to_int32 (v : Int) : Int :=
  if -2147483648 ≤ v ∧ v ≤ 2147483647 then v else -2147483648

/-- Scaling of an interpolated value to a 16-bit sample (lines 118-125):
`s = (int)round(j * 32767)`, then the clamp to `[-32768, 32767]`, with the
product `j * 32767` exact. -/
def scale_sample (j : ℚ) : Int :=
  let s : Int := float_to_int32 (c_round (j * 32767))
  if s > 32767 then 32767
  else if s < -32768 then -32768
  else s

/-- Source function `void c_resampler::process(float sample)` in exact arithmetic
(`c_resampler.process_f32` is the function with float rounding).  The index
rotation `(input_buf_index - 1) & 0x3` is the residue modulo 4. -/
def c_resampler.process (r : c_resampler) (sample : ℚ) : c_resampler :=
  let input_buf : Int → ℚ :=
    Function.update (Function.update r.input_buf (r.input_buf_index + INPUT_BUF_LEN) sample)
      r.input_buf_index sample
  let samples_required : Int := r.samples_required - 1
  if samples_required = 0 then
    let y2 : ℚ := input_buf r.input_buf_index
    let y1 : ℚ := input_buf (r.input_buf_index + 1)
    let y0 : ℚ := input_buf (r.input_buf_index + 2)
    let ym : ℚ := input_buf (r.input_buf_index + 3)
    let j : ℚ := bspline ym y0 y1 y2 r.mf
    let extra : ℚ := 2 - r.mf
    let n : ℚ := r.m - extra
    { r with
      input_buf := input_buf,
      mf := n - float_to_int n,
      samples_required := float_to_int n + 2,
      output_buf := Function.update r.output_buf r.output_buf_index (scale_sample j),
      output_buf_index := r.output_buf_index + 1,
      input_buf_index := (r.input_buf_index - 1) % 4 }
  else
    { r with
      input_buf := input_buf,
      samples_required := samples_required,
      input_buf_index := (r.input_buf_index - 1) % 4 }

/-- Consecutive `process` calls on a list of input samples. -/
def c_resampler.process_all (r : c_resampler) (samples : List ℚ) : c_resampler :=
  samples.foldl c_resampler.process r

/-- In the steady state of equal rates every call emits one sample. -/
def unit_steady (c : ℚ) (r : c_resampler) : Prop :=
  r.m = 1 ∧ r.mf = 0 ∧ r.samples_required = 1 ∧
  0 ≤ r.input_buf_index ∧ r.input_buf_index ≤ 3 ∧
  ∀ i, 0 ≤ i → i < 8 → r.input_buf i = c

/-- The start-up states of equal rates: the slots `i` with `t ≤ i % 4` of the
doubled input window hold `c`, the others still hold the initial 0. -/
def unit_warm (t : Int) (c : ℚ) (r : c_resampler) : Prop :=
  r.m = 1 ∧ r.mf = 0 ∧ r.input_buf_index = t - 1 ∧
  ∀ i, 0 ≤ i → i < 8 → r.input_buf i = if t ≤ i % 4 then c else 0

/-- The calls the driver makes on the resampler. -/
inductive resampler_op where
  | process (sample : ℚ)
  | set_output_rate (output_rate : ℚ)
  | get_output_buf

/-- The effect of one call on the object. -/
def resampler_step (r : c_resampler) : resampler_op → c_resampler
  | .process sample => r.process sample
  | .set_output_rate output_rate => r.set_output_rate output_rate
  | .get_output_buf => r.get_output_buf.2

/-- A sequence of calls. -/
def resampler_run (r : c_resampler) (ops : List resampler_op) : c_resampler :=
  ops.foldl resampler_step r

/-- Every rate passed to `set_output_rate` lies in `[MIN_RATE, MAX_RATE]`,
as the controller's clamp guarantees. -/
def rates_in_band (ops : List resampler_op) : Prop :=
  ∀ op ∈ ops, ∀ rate, op = resampler_op.set_output_rate rate →
    MIN_RATE ≤ rate ∧ rate ≤ MAX_RATE

/-- What the driver's use keeps true of the resampler: the input rate is
`8 * 48000`, the step ratio is at least 7, the phase is not negative and the
countdown is pending. -/
def drain_inv (r : c_resampler) : Prop :=
  r.input_rate = 8 * 48000 ∧ 7 ≤ r.m ∧ 0 ≤ r.mf ∧ 1 ≤ r.samples_required

/-- Bookkeeping for `k` `process` calls made since the output buffer was
empty: outputs are at least 7 calls apart. -/
def count_inv (k : Int) (r : c_resampler) : Prop :=
  drain_inv r ∧ 0 ≤ r.output_buf_index ∧
  7 * r.output_buf_index + 1 ≤ k + r.samples_required ∧
  7 * r.output_buf_index ≤ k + 6

/-- The number of output samples emitted since the last `get_output_buf` (or
since the start, from the count `acc`), following the calls one by one: a
`process` call emits when it brings the countdown to zero. -/
def count_outputs (r : c_resampler) : List resampler_op → Int → Int
  | [], acc => acc
  | .process sample :: ops, acc =>
    count_outputs (r.process sample) ops (if r.samples_required - 1 = 0 then acc + 1 else acc)
  | .set_output_rate output_rate :: ops, acc =>
    count_outputs (r.set_output_rate output_rate) ops acc
  | .get_output_buf :: ops, _ => count_outputs r.get_output_buf.2 ops 0

/-- The object after the calls `process(x 1)`, ..., `process(x t)` on the
input sequence `x 1, x 2, ...`. -/
def c_resampler.process_seq (r : c_resampler) (x : Nat → ℚ) : Nat → c_resampler
  | 0 => r
  | t + 1 => (c_resampler.process_seq r x t).process (x (t + 1))

/-- What the doubled input window holds after `t` calls: counted from the
read index, slot `j` of either half (for `j = 1 .. 4`, as far as `t` calls
reach back) holds the input of `j - 1` calls ago. -/
def window_inv (x : Nat → ℚ) (t : Nat) (r : c_resampler) : Prop :=
  0 ≤ r.input_buf_index ∧ r.input_buf_index ≤ 3 ∧
  ∀ j : Nat, 1 ≤ j → j ≤ 4 → j ≤ t →
    r.input_buf ((r.input_buf_index + j) % 4) = x (t + 1 - j) ∧
    r.input_buf ((r.input_buf_index + j) % 4 + 4) = x (t + 1 - j)

/-- The number of the call that emits output sample `k` (`k ≥ 1`) at the
constant step ratio `m`, as the specification words it: `floor(k*m) + 2`. -/
def emit_call (m : ℚ) (k : Nat) : Nat := (⌊(k : ℚ) * m⌋ + 2).toNat

/-- The call number of output `k`, with 0 for `k = 0` (construction). -/
def emit_time (m : ℚ) (k : Nat) : Nat := if k = 0 then 0 else emit_call m k

/-- The state between two outputs at the constant step ratio `m`: after `t`
calls, `k` outputs have been emitted, the phase is that of output `k + 1` and
the countdown runs to the call that emits it. -/
def countdown_inv (m : ℚ) (t : Nat) (r : c_resampler) : Prop :=
  ∃ k : Nat,
    r.m = m ∧ r.output_buf_index = k ∧
    r.mf = Int.fract (((k + 1 : Nat) : ℚ) * m) ∧
    r.samples_required = (emit_time m (k + 1) : Int) - t ∧
    emit_time m k ≤ t ∧ t < emit_time m (k + 1)

/-- The driver's tone buffer (lines 185-191): 6400 samples of a square wave of
amplitude 0.25 that changes sign every 800 samples, starting negative. -/
def tone : List ℚ :=
  (List.range 6400).map (fun i => if (i / 800) % 2 = 0 then -(1 / 4) else 1 / 4)


/-! ### The resampler in single precision -/

/-- The conversion `(int)x` of a float to a 32-bit `int`: truncation toward
zero, and `INT_MIN` for a value out of range (the x86 conversion instruction
of the program's target; undefined in C++). -/
def cast_int (x : ℚ) : Int := float_to_int32 (float_to_int x)

/-- The state the constructor
`c_resampler::c_resampler(float input_rate, float output_rate)` leaves when both
allocations succeed, in single precision: the quotient `m` is a float
division, `(int)m` is a 32-bit conversion and is converted back to float for
the float subtraction, the `int` sum wraps.  A zero `output_rate` makes the
source's quotient an infinity or NaN, which is not modelled. -/
def c_resampler.ctor_f32 (input_rate output_rate : ℚ) : c_resampler :=
  let m : ℚ := f32 (input_rate / output_rate)
  { input_rate := input_rate,
    output_rate := output_rate,
    m := m,
    mf := f32 (m - f32 (cast_int m)),
    samples_required := wrap32 (cast_int m + 2),
    output_buf_index := 0,
    input_buf_index := INPUT_BUF_LEN - 1,
    output_buf := fun _ => 0,
    input_buf := fun _ => 0 }

/-- Source function `void c_resampler::set_output_rate(float output_rate)` in single
precision. -/
def c_resampler.set_output_rate_f32 (r : c_resampler) (output_rate : ℚ) : c_resampler :=
  { r with output_rate := output_rate, m := f32 (r.input_rate / output_rate) }

/-- The B-spline of `process` (lines 107-112) in single precision.  Every
sum, difference and product is rounded; `1.0f / 6.0f` and `2.0f / 3.0f` are
float quotients, `1.0f / 2.0f` is exact. -/
def bspline_f32 (ym y0 y1 y2 mf : ℚ) : ℚ :=
  let ym1py1 : ℚ := f32 (ym + y1)
  let c0 : ℚ := f32 (f32 (f32 (1 / 6) * ym1py1) + f32 (f32 (2 / 3) * y0))
  let c1 : ℚ := f32 (f32 (1 / 2) * f32 (y1 - ym))
  let c2 : ℚ := f32 (f32 (f32 (1 / 2) * ym1py1) - y0)
  let c3 : ℚ := f32 (f32 (f32 (1 / 2) * f32 (y0 - y1)) + f32 (f32 (1 / 6) * f32 (y2 - ym)))
  f32 (f32 (f32 (f32 (f32 (f32 (c3 * mf) + c2) * mf) + c1) * mf) + c0)

/-- Scaling of an interpolated value to a 16-bit sample (lines 118-125) in
single precision: `s = (int)round(j * max_out)` rounds the float product. -/
def scale_sample_f32 (j : ℚ) : Int :=
  let s : Int := float_to_int32 (c_round (f32 (j * 32767)))
  if s > 32767 then 32767
  else if s < -32768 then -32768
  else s

/-- Source function `void c_resampler::process(float sample)` in single precision, with
the 32-bit `int` operations of the countdown. -/
def c_resampler.process_f32 (r : c_resampler) (sample : ℚ) : c_resampler :=
  let input_buf : Int → ℚ :=
    Function.update (Function.update r.input_buf (r.input_buf_index + INPUT_BUF_LEN) sample)
      r.input_buf_index sample
  let samples_required : Int := wrap32 (r.samples_required - 1)
  if samples_required = 0 then
    let y2 : ℚ := input_buf r.input_buf_index
    let y1 : ℚ := input_buf (r.input_buf_index + 1)
    let y0 : ℚ := input_buf (r.input_buf_index + 2)
    let ym : ℚ := input_buf (r.input_buf_index + 3)
    let j : ℚ := bspline_f32 ym y0 y1 y2 r.mf
    let extra : ℚ := f32 (2 - r.mf)
    let n : ℚ := f32 (r.m - extra)
    { r with
      input_buf := input_buf,
      mf := f32 (n - f32 (cast_int n)),
      samples_required := wrap32 (cast_int n + 2),
      output_buf := Function.update r.output_buf r.output_buf_index (scale_sample_f32 j),
      output_buf_index := r.output_buf_index + 1,
      input_buf_index := (r.input_buf_index - 1) % 4 }
  else
    { r with
      input_buf := input_buf,
      samples_required := samples_required,
      input_buf_index := (r.input_buf_index - 1) % 4 }

/-- Consecutive `process` calls on a list of input samples, in single
precision. -/
def c_resampler.process_all_f32 (r : c_resampler) (samples : List ℚ) : c_resampler :=
  samples.foldl c_resampler.process_f32 r

/-- The object after the calls `process(x 1)`, ..., `process(x t)`, in single
precision. -/
def c_resampler.process_seq_f32 (r : c_resampler) (x : Nat → ℚ) : Nat → c_resampler
  | 0 => r
  | t + 1 => (c_resampler.process_seq_f32 r x t).process_f32 (x (t + 1))

/-- The effect of one call on the object, in single precision. -/
def resampler_step_f32 (r : c_resampler) : resampler_op → c_resampler
  | .process sample => r.process_f32 sample
  | .set_output_rate output_rate => r.set_output_rate_f32 output_rate
  | .get_output_buf => r.get_output_buf.2

/-- A sequence of calls, in single precision. -/
def resampler_run_f32 (r : c_resampler) (ops : List resampler_op) : c_resampler :=
  ops.foldl resampler_step_f32 r

/-- The step ratio stored for every rate passed to `set_output_rate`, the
float quotient `input_rate / rate`, is at least 2 and fits an `int`. -/
def ratios_in_range (input_rate : ℚ) (ops : List resampler_op) : Prop :=
  ∀ op ∈ ops, ∀ rate, op = resampler_op.set_output_rate rate →
    2 ≤ f32 (input_rate / rate) ∧ f32 (input_rate / rate) < 2147483648

/-- The phase is a fraction while the stored step ratio is a float that is at
least 2 and fits an `int`. -/
def phase_inv_f32 (input_rate : ℚ) (r : c_resampler) : Prop :=
  r.input_rate = input_rate ∧ is_f32 r.m ∧ 2 ≤ r.m ∧ r.m < 2147483648 ∧
  0 ≤ r.mf ∧ r.mf < 1

/-- The relation kept between the object `a` run in single precision and the
object `b` run in exact arithmetic at the float step ratio `m`: the step
ratio, the phase, the countdown and the output cursor agree, and the phase is
a fraction on the float grid of `m`. -/
def exact_phase_inv (m : ℚ) (a b : c_resampler) : Prop :=
  a.m = m ∧ b.m = m ∧ a.mf = b.mf ∧ a.samples_required = b.samples_required ∧
  a.output_buf_index = b.output_buf_index ∧
  on_grid (f32_exp m - 23) b.mf ∧ 0 ≤ b.mf ∧ b.mf < 1 ∧
  1 ≤ b.samples_required ∧ b.samples_required ≤ 16777218 ∧ is_f32 m
/-! ## Lemmas: single-precision rounding -/

theorem round_half_even_intCast (n : Int) : round_half_even (n : ℚ) = n := by
  simp [round_half_even]

theorem round_half_even_floor_le (x : ℚ) : ⌊x⌋ ≤ round_half_even x := by
  unfold round_half_even
  split
  · exact le_refl _
  · split
    · omega
    · split <;> omega

theorem round_half_even_le_floor_succ (x : ℚ) : round_half_even x ≤ ⌊x⌋ + 1 := by
  unfold round_half_even
  split
  · omega
  · split
    · omega
    · split <;> omega

/-- The rounded integer is within one half of the argument. -/
theorem round_half_even_near (x : ℚ) :
    x - 1 / 2 ≤ (round_half_even x : ℚ) ∧ (round_half_even x : ℚ) ≤ x + 1 / 2 := by
  have h1 := Int.floor_le x
  have h2 := Int.lt_floor_add_one x
  unfold round_half_even
  split
  · rename_i h
    constructor <;> linarith
  · rename_i h
    split
    · rename_i h'
      push_cast
      constructor <;> linarith
    · rename_i h'
      have he : 2 * (x - ⌊x⌋) = 1 := le_antisymm (not_lt.mp h') (not_lt.mp h)
      split
      · constructor <;> linarith
      · push_cast
        constructor <;> linarith

theorem round_half_even_mono {x y : ℚ} (h : x ≤ y) : round_half_even x ≤ round_half_even y := by
  have hf : ⌊x⌋ ≤ ⌊y⌋ := Int.floor_mono h
  rcases lt_or_eq_of_le hf with hlt | heq
  · have := round_half_even_le_floor_succ x
    have := round_half_even_floor_le y
    omega
  · have hy := round_half_even_floor_le y
    have hx := round_half_even_le_floor_succ x
    unfold round_half_even at *
    rw [← heq] at hy ⊢
    by_cases c1 : 2 * (x - ⌊x⌋) < 1
    · rw [if_pos c1]
      rw [if_pos c1] at hx
      exact hy
    · rw [if_neg c1]
      have c1y : ¬ 2 * (y - ⌊x⌋) < 1 := by
        intro hc
        apply c1
        linarith
      rw [if_neg c1y]
      by_cases c2 : 1 < 2 * (x - ⌊x⌋)
      · have c2y : 1 < 2 * (y - ⌊x⌋) := by linarith
        rw [if_pos c2, if_pos c2y]
      · rw [if_neg c2]
        by_cases c2y : 1 < 2 * (y - ⌊x⌋)
        · rw [if_pos c2y]
          split <;> omega
        · rw [if_neg c2y]


/-! ### The binade search -/

theorem two_zpow_pos (e : Int) : (0 : ℚ) < 2 ^ e := zpow_pos (by norm_num) e

theorem two_zpow_le {m n : Int} (h : m ≤ n) : (2 : ℚ) ^ m ≤ 2 ^ n :=
  zpow_le_zpow_right₀ (by norm_num) h

theorem two_zpow_succ (e : Int) : (2 : ℚ) ^ (e + 1) = 2 * 2 ^ e := by
  rw [zpow_add_one₀ (by norm_num : (2 : ℚ) ≠ 0)]
  ring

theorem f32_exp_aux_range (a : ℚ) (n : Nat) :
    -126 ≤ f32_exp_aux a n ∧ f32_exp_aux a n ≤ (n : Int) - 126 := by
  induction n with
  | zero => simp [f32_exp_aux]
  | succ n ih =>
    unfold f32_exp_aux
    split
    · constructor
      · omega
      · push_cast
        omega
    · constructor
      · exact ih.1
      · push_cast
        omega

theorem f32_exp_aux_le (a : ℚ) (n : Nat) :
    f32_exp_aux a n = -126 ∨ (2 : ℚ) ^ f32_exp_aux a n ≤ a := by
  induction n with
  | zero => simp [f32_exp_aux]
  | succ n ih =>
    unfold f32_exp_aux
    split
    · rename_i h
      exact Or.inr h
    · exact ih

theorem f32_exp_aux_max (a : ℚ) (n : Nat) (e : Int) (h1 : -125 ≤ e)
    (h2 : e ≤ (n : Int) - 126) (h : (2 : ℚ) ^ e ≤ a) : e ≤ f32_exp_aux a n := by
  induction n with
  | zero =>
    simp at h2
    omega
  | succ n ih =>
    unfold f32_exp_aux
    split
    · push_cast at h2
      omega
    · rename_i hn
      have hne : e ≠ (n : Int) - 125 := by
        intro he
        rw [he] at h
        exact hn h
      push_cast at h2
      exact ih (by omega)

theorem f32_exp_range (a : ℚ) : -126 ≤ f32_exp a ∧ f32_exp a ≤ 127 := by
  have := f32_exp_aux_range a 253
  unfold f32_exp
  constructor
  · exact this.1
  · have h2 := this.2
    norm_num at h2
    exact h2

theorem f32_exp_le (a : ℚ) : f32_exp a = -126 ∨ (2 : ℚ) ^ f32_exp a ≤ a :=
  f32_exp_aux_le a 253

theorem f32_exp_max (a : ℚ) (e : Int) (h1 : -125 ≤ e) (h2 : e ≤ 127)
    (h : (2 : ℚ) ^ e ≤ a) : e ≤ f32_exp a :=
  f32_exp_aux_max a 253 e h1 (by norm_num; exact h2) h

theorem f32_exp_lt (a : ℚ) (h : f32_exp a < 127) : a < 2 ^ (f32_exp a + 1) := by
  by_contra hc
  have := f32_exp_max a (f32_exp a + 1) (by have := (f32_exp_range a).1; omega) (by omega)
    (not_lt.mp hc)
  omega

theorem f32_exp_eq (a : ℚ) (e : Int) (h1 : -125 ≤ e) (h2 : e ≤ 127)
    (hl : (2 : ℚ) ^ e ≤ a) (hu : a < 2 ^ (e + 1)) : f32_exp a = e := by
  have hmax := f32_exp_max a e h1 h2 hl
  rcases f32_exp_le a with h | h
  · omega
  · by_contra hne
    have hlt : e + 1 ≤ f32_exp a := by omega
    have := two_zpow_le hlt
    linarith

theorem f32_exp_mono {a b : ℚ} (h : a ≤ b) : f32_exp a ≤ f32_exp b := by
  rcases f32_exp_le a with ha | ha
  · rw [ha]
    exact (f32_exp_range b).1
  · by_cases hm : f32_exp a = -126
    · rw [hm]
      exact (f32_exp_range b).1
    · have hr := f32_exp_range a
      exact f32_exp_max b _ (by omega) hr.2 (le_trans ha h)

/-! ### Rounding of magnitudes -/

theorem f32_mag_zero : f32_mag 0 = 0 := by
  simp [f32_mag, round_half_even]

theorem f32_mag_nonneg {a : ℚ} (h : 0 ≤ a) : 0 ≤ f32_mag a := by
  unfold f32_mag
  have hp := two_zpow_pos (f32_exp a - 23)
  have h0 : (0 : Int) ≤ round_half_even (a / 2 ^ (f32_exp a - 23)) := by
    have := round_half_even_mono (div_nonneg h (le_of_lt hp))
    rw [show round_half_even (0 : ℚ) = 0 by simp [round_half_even]] at this
    exact this
  have : (0 : ℚ) ≤ (round_half_even (a / 2 ^ (f32_exp a - 23)) : ℚ) := by exact_mod_cast h0
  positivity

/-- A non-negative multiple `k * 2^g` of a power of two with `k < 2^24` and
`g ≥ -149` is a float: rounding leaves it unchanged. -/
theorem f32_mag_grid (k : Nat) (g : Int) (hk : k < 2 ^ 24) (hg : -149 ≤ g) :
    f32_mag ((k : ℚ) * 2 ^ g) = (k : ℚ) * 2 ^ g := by
  have hr := f32_exp_range ((k : ℚ) * 2 ^ g)
  have hge : f32_exp ((k : ℚ) * 2 ^ g) - 23 ≤ g := by
    rcases f32_exp_le ((k : ℚ) * 2 ^ g) with h | h
    · omega
    · by_contra hc
      have hlt : g + 24 ≤ f32_exp ((k : ℚ) * 2 ^ g) := by omega
      have h1 := two_zpow_le hlt
      have h2 : (k : ℚ) * 2 ^ g < 2 ^ (g + 24) := by
        rw [show g + 24 = (24 : Int) + g by ring, zpow_add₀ (by norm_num : (2 : ℚ) ≠ 0)]
        have hp := two_zpow_pos g
        have hk2 : (k : ℚ) < 2 ^ (24 : Int) := by
          have : (k : ℚ) < ((2 ^ 24 : Nat) : ℚ) := by exact_mod_cast hk
          norm_num at this ⊢
          exact this
        exact mul_lt_mul_of_pos_right hk2 hp
      linarith
  unfold f32_mag
  generalize f32_exp ((k : ℚ) * 2 ^ g) = e at hge ⊢
  obtain ⟨d, hd⟩ : ∃ d : Nat, g = e - 23 + d := ⟨(g - (e - 23)).toNat, by omega⟩
  have hq : (k : ℚ) * 2 ^ g / 2 ^ (e - 23) = (((k * 2 ^ d : Nat) : Int) : ℚ) := by
    rw [hd, zpow_add₀ (by norm_num : (2 : ℚ) ≠ 0)]
    have hp := two_zpow_pos (e - 23)
    field_simp
    ring
  rw [hq, round_half_even_intCast, ← hq]
  have hp := two_zpow_pos (e - 23)
  field_simp


theorem two_zpow_split (e : Int) : (2 : ℚ) ^ e = 2 ^ (23 : Nat) * 2 ^ (e - 23) := by
  rw [← zpow_natCast, ← zpow_add₀ (by norm_num : (2 : ℚ) ≠ 0)]
  congr 1
  norm_num

theorem two_zpow_split_succ (e : Int) : (2 : ℚ) ^ (e + 1) = 2 ^ (24 : Nat) * 2 ^ (e - 23) := by
  rw [← zpow_natCast, ← zpow_add₀ (by norm_num : (2 : ℚ) ≠ 0)]
  congr 1
  norm_num
  ring

theorem f32_exp_lt_of_lt (a : ℚ) (h : a < 2 ^ (128 : Int)) : a < 2 ^ (f32_exp a + 1) := by
  by_cases he : f32_exp a < 127
  · exact f32_exp_lt a he
  · have hr := (f32_exp_range a).2
    have : f32_exp a = 127 := by omega
    rw [this]
    exact h

/-- The significand of the rounded magnitude is at most `2^24`. -/
theorem f32_mag_signif_le (a : ℚ) (h : a < 2 ^ (128 : Int)) :
    round_half_even (a / 2 ^ (f32_exp a - 23)) ≤ 2 ^ 24 := by
  have hlt := f32_exp_lt_of_lt a h
  rw [two_zpow_split_succ] at hlt
  have hp := two_zpow_pos (f32_exp a - 23)
  have hq : a / 2 ^ (f32_exp a - 23) ≤ (((2 ^ 24 : Int)) : ℚ) := by
    rw [div_le_iff₀ hp]
    push_cast
    linarith
  have := round_half_even_mono hq
  rw [round_half_even_intCast] at this
  exact this

/-- The significand of the rounded magnitude of a normal number is at least
`2^23`. -/
theorem f32_mag_signif_ge (a : ℚ) (h : (2 : ℚ) ^ f32_exp a ≤ a) :
    2 ^ 23 ≤ round_half_even (a / 2 ^ (f32_exp a - 23)) := by
  rw [two_zpow_split] at h
  have hp := two_zpow_pos (f32_exp a - 23)
  have hq : (((2 ^ 23 : Int)) : ℚ) ≤ a / 2 ^ (f32_exp a - 23) := by
    rw [le_div_iff₀ hp]
    push_cast
    linarith
  have := round_half_even_mono hq
  rw [round_half_even_intCast] at this
  exact this

theorem f32_mag_le_pow (a : ℚ) (h : a < 2 ^ (128 : Int)) :
    f32_mag a ≤ 2 ^ (f32_exp a + 1) := by
  have hs := f32_mag_signif_le a h
  have hp := two_zpow_pos (f32_exp a - 23)
  unfold f32_mag
  rw [two_zpow_split_succ]
  have : (round_half_even (a / 2 ^ (f32_exp a - 23)) : ℚ) ≤ 2 ^ (24 : Nat) := by
    exact_mod_cast hs
  exact mul_le_mul_of_nonneg_right this (le_of_lt hp)

theorem f32_mag_ge_pow (a : ℚ) (h : (2 : ℚ) ^ f32_exp a ≤ a) :
    (2 : ℚ) ^ f32_exp a ≤ f32_mag a := by
  have hs := f32_mag_signif_ge a h
  have hp := two_zpow_pos (f32_exp a - 23)
  unfold f32_mag
  rw [two_zpow_split]
  have : (2 : ℚ) ^ (23 : Nat) ≤ (round_half_even (a / 2 ^ (f32_exp a - 23)) : ℚ) := by
    exact_mod_cast hs
  exact mul_le_mul_of_nonneg_right this (le_of_lt hp)

/-- Rounding of magnitudes is monotone. -/
theorem f32_mag_mono {a b : ℚ} (h : a ≤ b) : f32_mag a ≤ f32_mag b := by
  have he := f32_exp_mono h
  rcases lt_or_eq_of_le he with hlt | heq
  · have hra := f32_exp_range a
    have hrb := f32_exp_range b
    have hb : (2 : ℚ) ^ f32_exp b ≤ b := by
      rcases f32_exp_le b with h1 | h1
      · omega
      · exact h1
    have ha : a < 2 ^ (128 : Int) := by
      have h1 := f32_exp_lt a (by omega)
      have h2 : (2 : ℚ) ^ (f32_exp a + 1) ≤ 2 ^ (128 : Int) := two_zpow_le (by omega)
      linarith
    have h1 := f32_mag_le_pow a ha
    have h2 := f32_mag_ge_pow b hb
    have h3 : (2 : ℚ) ^ (f32_exp a + 1) ≤ 2 ^ f32_exp b := two_zpow_le (by omega)
    linarith
  · unfold f32_mag
    rw [heq]
    have hp := two_zpow_pos (f32_exp b - 23)
    have hq : a / 2 ^ (f32_exp b - 23) ≤ b / 2 ^ (f32_exp b - 23) :=
      div_le_div_of_nonneg_right h (le_of_lt hp)
    have := round_half_even_mono hq
    have hc : (round_half_even (a / 2 ^ (f32_exp b - 23)) : ℚ) ≤
        (round_half_even (b / 2 ^ (f32_exp b - 23)) : ℚ) := by exact_mod_cast this
    exact mul_le_mul_of_nonneg_right hc (le_of_lt hp)

/-- The rounded magnitude is within half a unit in the last place. -/
theorem f32_mag_near (a : ℚ) :
    a - 2 ^ (f32_exp a - 24) ≤ f32_mag a ∧ f32_mag a ≤ a + 2 ^ (f32_exp a - 24) := by
  have hn := round_half_even_near (a / 2 ^ (f32_exp a - 23))
  have hp := two_zpow_pos (f32_exp a - 23)
  have hu : (2 : ℚ) ^ (f32_exp a - 23) = 2 * 2 ^ (f32_exp a - 24) := by
    rw [← two_zpow_succ]
    congr 1
    ring
  have hd : a / 2 ^ (f32_exp a - 23) * 2 ^ (f32_exp a - 23) = a := by
    field_simp
  unfold f32_mag
  constructor
  · have := mul_le_mul_of_nonneg_right hn.1 (le_of_lt hp)
    rw [sub_mul, hd] at this
    linarith
  · have := mul_le_mul_of_nonneg_right hn.2 (le_of_lt hp)
    rw [add_mul, hd] at this
    linarith

/-! ### Rounding of signed values -/

theorem f32_zero : f32 0 = 0 := by
  simp [f32, f32_mag_zero]

theorem f32_of_nonneg {x : ℚ} (h : 0 ≤ x) : f32 x = f32_mag x := by
  simp [f32, h]

theorem f32_neg (x : ℚ) : f32 (-x) = -f32 x := by
  unfold f32
  rcases lt_trichotomy x 0 with h | h | h
  · rw [if_pos (by linarith), if_neg (by linarith)]
    simp
  · subst h
    simp [f32_mag_zero]
  · rw [if_neg (by linarith), if_pos (by linarith), neg_neg]

theorem f32_nonneg {x : ℚ} (h : 0 ≤ x) : 0 ≤ f32 x := by
  rw [f32_of_nonneg h]
  exact f32_mag_nonneg h

theorem f32_nonpos {x : ℚ} (h : x ≤ 0) : f32 x ≤ 0 := by
  have := f32_nonneg (show 0 ≤ -x by linarith)
  rw [f32_neg] at this
  linarith

/-- Rounding to single precision is monotone. -/
theorem f32_mono {x y : ℚ} (h : x ≤ y) : f32 x ≤ f32 y := by
  by_cases hx : 0 ≤ x
  · rw [f32_of_nonneg hx, f32_of_nonneg (le_trans hx h)]
    exact f32_mag_mono h
  · by_cases hy : 0 ≤ y
    · have := f32_nonpos (le_of_lt (not_le.mp hx))
      have := f32_nonneg hy
      linarith
    · have h1 : f32 x = -f32_mag (-x) := by simp [f32, hx]
      have h2 : f32 y = -f32_mag (-y) := by simp [f32, hy]
      rw [h1, h2]
      have := f32_mag_mono (show -y ≤ -x by linarith)
      linarith

/-- An integer multiple `k * 2^g` of a power of two with `|k| < 2^24` and
`g ≥ -149` is a float. -/
theorem f32_grid (k : Int) (g : Int) (hk : |k| < 2 ^ 24) (hg : -149 ≤ g) :
    f32 ((k : ℚ) * 2 ^ g) = (k : ℚ) * 2 ^ g := by
  have hp := two_zpow_pos g
  rcases le_or_lt 0 k with h | h
  · have hk2 : k.toNat < 2 ^ 24 := by
      rw [abs_of_nonneg h] at hk
      omega
    have hc : (k : ℚ) = ((k.toNat : Nat) : ℚ) := by
      have : ((k.toNat : Nat) : Int) = k := Int.toNat_of_nonneg h
      exact_mod_cast this.symm
    rw [hc, f32_of_nonneg (by positivity)]
    exact f32_mag_grid _ g hk2 hg
  · have hk2 : (-k).toNat < 2 ^ 24 := by
      rw [abs_of_neg h] at hk
      omega
    have hc : (k : ℚ) = -((((-k).toNat : Nat)) : ℚ) := by
      have : ((((-k).toNat : Nat)) : Int) = -k := Int.toNat_of_nonneg (by omega)
      have h2 : (((((-k).toNat : Nat)) : Int) : ℚ) = ((-k : Int) : ℚ) := by rw [this]
      push_cast at h2
      linarith
    rw [hc, neg_mul, f32_neg, f32_of_nonneg (by positivity)]
    rw [f32_mag_grid _ g hk2 hg]

theorem f32_intCast (n : Int) (h : |n| < 2 ^ 24) : f32 (n : ℚ) = n := by
  have := f32_grid n 0 h (by norm_num)
  simpa using this

theorem f32_mag_idem (a : ℚ) (h0 : 0 ≤ a) (h : a < 2 ^ (128 : Int)) :
    f32_mag (f32_mag a) = f32_mag a := by
  have hs := f32_mag_signif_le a h
  have hr := f32_exp_range a
  have hp := two_zpow_pos (f32_exp a - 23)
  have h0s : (0 : Int) ≤ round_half_even (a / 2 ^ (f32_exp a - 23)) := by
    have := round_half_even_mono (div_nonneg h0 (le_of_lt hp))
    rw [show round_half_even (0 : ℚ) = 0 by simp [round_half_even]] at this
    exact this
  unfold f32_mag
  generalize f32_exp a = e at hs hr h0s ⊢
  generalize round_half_even (a / 2 ^ (e - 23)) = K at hs h0s ⊢
  rcases lt_or_eq_of_le hs with hlt | heq
  · have hc : (K : ℚ) = ((K.toNat : Nat) : ℚ) := by
      have : ((K.toNat : Nat) : Int) = K := Int.toNat_of_nonneg h0s
      exact_mod_cast this.symm
    rw [hc]
    exact f32_mag_grid _ _ (by omega) (by omega)
  · have hv : (K : ℚ) * 2 ^ (e - 23) = ((2 ^ 23 : Nat) : ℚ) * 2 ^ (e - 22) := by
      rw [heq, show e - 22 = (e - 23) + 1 by ring, two_zpow_succ]
      push_cast
      ring
    rw [hv]
    exact f32_mag_grid _ _ (by norm_num) (by omega)

/-- Rounding is idempotent: the result of a float operation is a float. -/
theorem f32_idem (x : ℚ) (h : |x| < 2 ^ (128 : Int)) : f32 (f32 x) = f32 x := by
  rcases le_or_lt 0 x with h0 | h0
  · rw [abs_of_nonneg h0] at h
    rw [f32_of_nonneg h0, f32_of_nonneg (f32_mag_nonneg h0)]
    exact f32_mag_idem x h0 h
  · rw [abs_of_neg h0] at h
    have hx : x = -(-x) := by ring
    rw [hx, f32_neg, f32_neg, f32_of_nonneg (by linarith : (0 : ℚ) ≤ -x),
      f32_of_nonneg (f32_mag_nonneg (by linarith : (0 : ℚ) ≤ -x))]
    rw [f32_mag_idem (-x) (by linarith) h]

/-- In a binade `[2^e, 2^(e+1))` the floats are the multiples of `2^(e-23)`. -/
theorem f32_binade (x : ℚ) (e : Int) (h1 : -125 ≤ e) (h2 : e ≤ 127)
    (hl : (2 : ℚ) ^ e ≤ x) (hu : x < 2 ^ (e + 1)) :
    f32 x = (round_half_even (x / 2 ^ (e - 23)) : ℚ) * 2 ^ (e - 23) := by
  have hp := two_zpow_pos e
  rw [f32_of_nonneg (by linarith)]
  unfold f32_mag
  rw [f32_exp_eq x e h1 h2 hl hu]

/-- Between 32768 and 65536 the floats are the multiples of 1/256. -/
theorem f32_binade_15 (x : ℚ) (hl : 32768 ≤ x) (hu : x < 65536) :
    f32 x = (round_half_even (x * 256) : ℚ) / 256 := by
  have := f32_binade x 15 (by norm_num) (by norm_num) (by norm_num; exact hl)
    (by norm_num; exact hu)
  rw [this]
  have e1 : (2 : ℚ) ^ ((15 : Int) - 23) = 1 / 256 := by norm_num [zpow_neg]
  rw [e1, div_eq_mul_one_div (x) (1 / 256)]
  norm_num
  ring


theorem f32_two_zpow_128 : f32 (2 ^ (128 : Int)) = 2 ^ (128 : Int) := by
  have h := f32_grid (2 ^ 23) 105 (by norm_num) (by norm_num)
  have e : (((2 ^ 23 : Int)) : ℚ) * 2 ^ (105 : Int) = 2 ^ (128 : Int) := by norm_num
  rw [e] at h
  exact h

/-- A rounded value below `2^128` is a float. -/
theorem f32_idem_of_lt (y : ℚ) (h : |f32 y| < 2 ^ (128 : Int)) : f32 (f32 y) = f32 y := by
  by_cases hy : |y| < 2 ^ (128 : Int)
  · exact f32_idem y hy
  · exfalso
    push_neg at hy
    rcases le_or_lt 0 y with h0 | h0
    · rw [abs_of_nonneg h0] at hy
      have := f32_mono hy
      rw [f32_two_zpow_128] at this
      rw [abs_of_nonneg (f32_nonneg h0)] at h
      linarith
    · rw [abs_of_neg h0] at hy
      have := f32_mono hy
      rw [f32_two_zpow_128, f32_neg] at this
      have hn := f32_nonpos (le_of_lt h0)
      rw [abs_of_nonpos hn] at h
      linarith

/-- The floats between 32768 and 65536 are the multiples of 1/256. -/
theorem f32_grid_256 (K : Int) (h1 : 32768 * 256 ≤ K) (h2 : K < 65536 * 256) :
    f32 ((K : ℚ) / 256) = (K : ℚ) / 256 := by
  have hl : (32768 : ℚ) ≤ (K : ℚ) / 256 := by
    rw [le_div_iff₀ (by norm_num)]
    exact_mod_cast h1
  have hu : (K : ℚ) / 256 < 65536 := by
    rw [div_lt_iff₀ (by norm_num)]
    exact_mod_cast h2
  rw [f32_binade_15 _ hl hu]
  rw [show (K : ℚ) / 256 * 256 = ((K : Int) : ℚ) by field_simp, round_half_even_intCast]

theorem is_f32_grid_256 (x : ℚ) (h : is_f32 x) (hl : 32768 ≤ x) (hu : x < 65536) :
    ∃ K : Int, x = (K : ℚ) / 256 ∧ 32768 * 256 ≤ K ∧ K < 65536 * 256 := by
  unfold is_f32 at h
  have hb := f32_binade_15 x hl hu
  rw [h] at hb
  refine ⟨round_half_even (x * 256), hb, ?_, ?_⟩
  · have : (32768 : ℚ) * 256 ≤ (round_half_even (x * 256) : ℚ) := by
      rw [hb] at hl
      rw [le_div_iff₀ (by norm_num)] at hl
      exact hl
    exact_mod_cast this
  · have : (round_half_even (x * 256) : ℚ) < 65536 * 256 := by
      rw [hb] at hu
      rw [div_lt_iff₀ (by norm_num)] at hu
      exact hu
    exact_mod_cast this

/-- Adding more than half a float step to a float between 32768 and 65536
gives a sum that rounds to a larger float. -/
theorem f32_add_ge_step (x s : ℚ) (h : is_f32 x) (hl : 32768 ≤ x) (hs : 1 / 512 < s)
    (hu : x + s < 65536) : x + 1 / 256 ≤ f32 (x + s) := by
  obtain ⟨K, hK, _, _⟩ := is_f32_grid_256 x h hl (by linarith)
  rw [f32_binade_15 _ (by linarith) hu]
  have e : (x + s) * 256 = K + s * 256 := by
    rw [hK]
    field_simp
  rw [e]
  have hn := (round_half_even_near ((K : ℚ) + s * 256)).1
  have hlt : (K : ℚ) < (round_half_even ((K : ℚ) + s * 256) : ℚ) := by linarith
  have hle : K + 1 ≤ round_half_even ((K : ℚ) + s * 256) := by
    have : K < round_half_even ((K : ℚ) + s * 256) := by exact_mod_cast hlt
    omega
  have hq : ((K : ℚ) + 1) ≤ (round_half_even ((K : ℚ) + s * 256) : ℚ) := by
    exact_mod_cast hle
  rw [hK, le_div_iff₀ (by norm_num)]
  have e2 : ((K : ℚ) / 256 + 1 / 256) * 256 = K + 1 := by field_simp
  rw [e2]
  exact hq

/-- Adding a multiple of 1/256 to a float between 32768 and 65536 is exact
while the sum stays in that range. -/
theorem f32_add_grid_256 (x : ℚ) (j : Int) (h : is_f32 x) (hl : 32768 ≤ x) (hu : x < 65536)
    (hl2 : 32768 ≤ x + (j : ℚ) / 256) (hu2 : x + (j : ℚ) / 256 < 65536) :
    f32 (x + (j : ℚ) / 256) = x + (j : ℚ) / 256 := by
  obtain ⟨K, hK, _, _⟩ := is_f32_grid_256 x h hl hu
  have e : x + (j : ℚ) / 256 = ((K + j : Int) : ℚ) / 256 := by
    rw [hK]
    push_cast
    ring
  rw [e] at hl2 hu2 ⊢
  apply f32_grid_256
  · have : (32768 : ℚ) * 256 ≤ ((K + j : Int) : ℚ) := by
      rw [le_div_iff₀ (by norm_num)] at hl2
      exact hl2
    exact_mod_cast this
  · have : ((K + j : Int) : ℚ) < 65536 * 256 := by
      rw [div_lt_iff₀ (by norm_num)] at hu2
      exact hu2
    exact_mod_cast this


/-- Rounding a normal number changes it by at most the fraction `2^-24` of
its magnitude. -/
theorem f32_mag_rel_err (a : ℚ) (h : (2 : ℚ) ^ (-126 : Int) ≤ a) :
    |f32_mag a - a| ≤ a / 16777216 := by
  have hn := f32_mag_near a
  have hle : (2 : ℚ) ^ f32_exp a ≤ a := by
    rcases f32_exp_le a with he | he
    · rw [he]
      exact h
    · exact he
  have hu : (2 : ℚ) ^ (f32_exp a - 24) = 2 ^ f32_exp a / 16777216 := by
    rw [zpow_sub₀ (by norm_num : (2 : ℚ) ≠ 0)]
    norm_num
  rw [hu] at hn
  have : (2 : ℚ) ^ f32_exp a / 16777216 ≤ a / 16777216 :=
    div_le_div_of_nonneg_right hle (by norm_num)
  rw [abs_le]
  constructor <;> linarith [hn.1, hn.2]

theorem f32_rel_err (x : ℚ) (h : (2 : ℚ) ^ (-126 : Int) ≤ |x|) :
    |f32 x - x| ≤ |x| / 16777216 := by
  rcases le_or_lt 0 x with h0 | h0
  · rw [abs_of_nonneg h0] at h ⊢
    rw [f32_of_nonneg h0]
    exact f32_mag_rel_err x h
  · rw [abs_of_neg h0] at h ⊢
    have := f32_mag_rel_err (-x) h
    have e : f32 x = -f32_mag (-x) := by simp [f32, not_le.mpr h0]
    rw [e, show -f32_mag (-x) - x = -(f32_mag (-x) - -x) by ring, abs_neg]
    exact this


/-- A non-negative float is an integer multiple of the spacing of its
binade. -/
theorem is_f32_repr (x : ℚ) (h : is_f32 x) (h0 : 0 ≤ x) :
    ∃ K : Int, 0 ≤ K ∧ x = (K : ℚ) * 2 ^ (f32_exp x - 23) := by
  unfold is_f32 at h
  rw [f32_of_nonneg h0] at h
  have hp := two_zpow_pos (f32_exp x - 23)
  refine ⟨round_half_even (x / 2 ^ (f32_exp x - 23)), ?_, ?_⟩
  · have := round_half_even_mono (div_nonneg h0 (le_of_lt hp))
    rw [show round_half_even (0 : ℚ) = 0 by simp [round_half_even]] at this
    exact this
  · unfold f32_mag at h
    exact h.symm

/-- The integer part and the fractional part of a non-negative float are
floats. -/
theorem is_f32_floor_fract (x : ℚ) (h : is_f32 x) (h0 : 0 ≤ x) :
    is_f32 (⌊x⌋ : ℚ) ∧ is_f32 (x - ⌊x⌋) := by
  by_cases h1 : x < 1
  · have hf : ⌊x⌋ = 0 := Int.floor_eq_zero_iff.mpr ⟨h0, h1⟩
    rw [hf]
    simp only [Int.cast_zero, sub_zero]
    exact ⟨f32_zero, h⟩
  · push_neg at h1
    obtain ⟨K, hK0, hK⟩ := is_f32_repr x h h0
    have he0 : 0 ≤ f32_exp x :=
      f32_exp_max x 0 (by norm_num) (by norm_num) (by simpa using h1)
    by_cases hg : 23 ≤ f32_exp x
    · obtain ⟨d, hd⟩ : ∃ d : Nat, f32_exp x - 23 = (d : Int) :=
        ⟨(f32_exp x - 23).toNat, by omega⟩
      rw [hd, zpow_natCast] at hK
      have hx : x = ((K * 2 ^ d : Int) : ℚ) := by
        rw [hK]
        push_cast
        ring
      have hf : (⌊x⌋ : ℚ) = x := by
        have : ⌊x⌋ = K * 2 ^ d := by
          rw [hx]
          exact Int.floor_intCast _
        rw [this]
        exact hx.symm
      rw [hf]
      simp only [sub_self]
      exact ⟨h, f32_zero⟩
    · push_neg at hg
      obtain ⟨d, hd⟩ : ∃ d : Nat, f32_exp x - 23 = -(d : Int) :=
        ⟨(23 - f32_exp x).toNat, by omega⟩
      have hd1 : d ≤ 23 := by omega
      have hlt := f32_exp_lt x (by omega)
      have hx23 : x < 8388608 := by
        have h2 : (2 : ℚ) ^ (f32_exp x + 1) ≤ 2 ^ (23 : Int) := two_zpow_le (by omega)
        have h3 : (2 : ℚ) ^ (23 : Int) = 8388608 := by norm_num
        linarith
      have hfl0 : 0 ≤ ⌊x⌋ := Int.floor_nonneg.mpr h0
      have hfl1 : ⌊x⌋ < 8388608 := Int.floor_lt.mpr (by push_cast; exact hx23)
      constructor
      · apply f32_intCast
        rw [abs_of_nonneg hfl0]
        omega
      · have hpd : (0 : ℚ) < 2 ^ d := by positivity
        have hKd : (K : ℚ) = x * 2 ^ d := by
          rw [hd, zpow_neg, zpow_natCast] at hK
          rw [hK]
          field_simp
        have hfr0 : 0 ≤ x - ⌊x⌋ := by linarith [Int.floor_le x]
        have hfr1 : x - ⌊x⌋ < 1 := by linarith [Int.lt_floor_add_one x]
        have hk : ((K - ⌊x⌋ * 2 ^ d : Int) : ℚ) = (x - ⌊x⌋) * 2 ^ d := by
          push_cast
          rw [hKd]
          ring
        have e : x - ⌊x⌋ = ((K - ⌊x⌋ * 2 ^ d : Int) : ℚ) * 2 ^ (-(d : Int)) := by
          rw [zpow_neg, zpow_natCast, hk, mul_assoc, mul_inv_cancel₀ hpd.ne.symm, mul_one]
        have hd2 : (2 : ℚ) ^ d ≤ 2 ^ 23 := pow_le_pow_right₀ (by norm_num) hd1
        have hk0 : (0 : ℚ) ≤ ((K - ⌊x⌋ * 2 ^ d : Int) : ℚ) := by
          rw [hk]
          positivity
        have hk1 : ((K - ⌊x⌋ * 2 ^ d : Int) : ℚ) < 2 ^ 23 := by
          rw [hk]
          calc (x - ⌊x⌋) * 2 ^ d < 1 * 2 ^ d := mul_lt_mul_of_pos_right hfr1 hpd
            _ ≤ 2 ^ 23 := by linarith
        have hk0i : 0 ≤ K - ⌊x⌋ * 2 ^ d := by exact_mod_cast hk0
        have hk1i : K - ⌊x⌋ * 2 ^ d < 2 ^ 23 := by exact_mod_cast hk1
        unfold is_f32
        rw [e]
        apply f32_grid
        · rw [abs_of_nonneg hk0i]
          omega
        · omega

theorem is_f32_of_f32 (y : ℚ) (h : |f32 y| < 2 ^ (128 : Int)) : is_f32 (f32 y) :=
  f32_idem_of_lt y h

theorem f32_one : f32 1 = 1 := by decide!

theorem f32_neg_one : f32 (-1) = -1 := by decide!

theorem f32_two : f32 2 = 2 := by decide!


/-! ### Multiples of a float spacing -/

theorem on_grid_sub {g : Int} {x y : ℚ} (hx : on_grid g x) (hy : on_grid g y) :
    on_grid g (x - y) := by
  obtain ⟨k, rfl⟩ := hx
  obtain ⟨j, rfl⟩ := hy
  exact ⟨k - j, by push_cast; ring⟩

theorem on_grid_intCast {g : Int} (hg : g ≤ 0) (n : Int) : on_grid g (n : ℚ) := by
  obtain ⟨d, hd⟩ : ∃ d : Nat, g = -(d : Int) := ⟨(-g).toNat, by omega⟩
  refine ⟨n * 2 ^ d, ?_⟩
  rw [hd, zpow_neg, zpow_natCast]
  push_cast
  have : (0 : ℚ) < 2 ^ d := by positivity
  field_simp

/-- A multiple of `2^g` below `2^(g + 24)` in magnitude is a float. -/
theorem f32_of_on_grid {g : Int} {x : ℚ} (hx : on_grid g x) (hg : -149 ≤ g)
    (hb : |x| < 2 ^ (g + 24)) : f32 x = x := by
  obtain ⟨k, rfl⟩ := hx
  have hp := two_zpow_pos g
  apply f32_grid k g _ hg
  rw [abs_mul, abs_of_pos hp, zpow_add₀ (by norm_num : (2 : ℚ) ≠ 0), mul_comm] at hb
  have hk : |(k : ℚ)| < 2 ^ (24 : Int) := lt_of_mul_lt_mul_left hb hp.le
  have hk2 : ((|k| : Int) : ℚ) < ((2 ^ 24 : Int) : ℚ) := by
    push_cast
    norm_num at hk ⊢
    exact hk
  exact_mod_cast hk2

/-- A float `m` with `2 ≤ m < 2^24` lies in a binade `1 .. 23`, is a multiple
of the spacing of that binade and is below its upper end. -/
theorem step_ratio_grid (m : ℚ) (hm : is_f32 m) (h2 : 2 ≤ m) (h24 : m < 16777216) :
    -22 ≤ f32_exp m - 23 ∧ f32_exp m - 23 ≤ 0 ∧ on_grid (f32_exp m - 23) m ∧
    m < 2 ^ (f32_exp m - 23 + 24) := by
  have he1 : 1 ≤ f32_exp m := f32_exp_max m 1 (by norm_num) (by norm_num) (by simpa using h2)
  have he2 : f32_exp m ≤ 23 := by
    by_contra hc
    push_neg at hc
    rcases f32_exp_le m with h | h
    · omega
    · have h3 : (2 : ℚ) ^ (24 : Int) ≤ 2 ^ f32_exp m := two_zpow_le (by omega)
      have h4 : (2 : ℚ) ^ (24 : Int) = 16777216 := by norm_num
      linarith
  obtain ⟨K, _, hK⟩ := is_f32_repr m hm (by linarith)
  refine ⟨by omega, by omega, ⟨K, hK⟩, ?_⟩
  have := f32_exp_lt m (by omega)
  rw [show f32_exp m - 23 + 24 = f32_exp m + 1 by ring]
  exact this


/-- Rounding changes a value by at most the fraction `2^-24` of its
magnitude plus half the subnormal spacing. -/
theorem f32_abs_err (x : ℚ) : |f32 x - x| ≤ |x| / 16777216 + 2 ^ (-150 : Int) := by
  have key : ∀ a : ℚ, 0 ≤ a → |f32_mag a - a| ≤ a / 16777216 + 2 ^ (-150 : Int) := by
    intro a ha
    have hn := f32_mag_near a
    have hu : (2 : ℚ) ^ (f32_exp a - 24) ≤ a / 16777216 + 2 ^ (-150 : Int) := by
      rcases f32_exp_le a with he | he
      · rw [he]
        have : (0 : ℚ) ≤ a / 16777216 := by positivity
        norm_num at this ⊢
        linarith
      · have e : (2 : ℚ) ^ (f32_exp a - 24) = 2 ^ f32_exp a / 16777216 := by
          rw [zpow_sub₀ (by norm_num : (2 : ℚ) ≠ 0)]
          norm_num
        rw [e]
        have h1 : (2 : ℚ) ^ f32_exp a / 16777216 ≤ a / 16777216 :=
          div_le_div_of_nonneg_right he (by norm_num)
        have h2 := two_zpow_pos (-150)
        linarith
    rw [abs_le]
    constructor <;> linarith [hn.1, hn.2]
  rcases le_or_lt 0 x with h0 | h0
  · rw [abs_of_nonneg h0, f32_of_nonneg h0]
    exact key x h0
  · have e : f32 x = -f32_mag (-x) := by simp [f32, not_le.mpr h0]
    rw [abs_of_neg h0, e, show -f32_mag (-x) - x = -(f32_mag (-x) - -x) by ring, abs_neg]
    exact key (-x) (by linarith)

/-- Rounding a value of magnitude at most 2 changes it by at most
`1/8000000`. -/
theorem f32_near_two (x : ℚ) (h : |x| ≤ 2) :
    x - 1 / 8000000 ≤ f32 x ∧ f32 x ≤ x + 1 / 8000000 := by
  have he := f32_abs_err x
  have h1 : |x| / 16777216 ≤ 2 / 16777216 := div_le_div_of_nonneg_right h (by norm_num)
  have h2 : (2 : ℚ) ^ (-150 : Int) ≤ 1 / 1000000000 := by
    have : (2 : ℚ) ^ (-150 : Int) ≤ 2 ^ (-30 : Int) := two_zpow_le (by norm_num)
    have e : (2 : ℚ) ^ (-30 : Int) = 1 / 1073741824 := by norm_num
    rw [e] at this
    linarith
  rw [abs_le] at he
  constructor <;> linarith [he.1, he.2]

/-- Rounding a value of magnitude at most 65536 changes it by at most
`1/250`. -/
theorem f32_near_65536 (x : ℚ) (h : |x| ≤ 65536) :
    x - 1 / 250 ≤ f32 x ∧ f32 x ≤ x + 1 / 250 := by
  have he := f32_abs_err x
  have h1 : |x| / 16777216 ≤ 65536 / 16777216 := div_le_div_of_nonneg_right h (by norm_num)
  have h2 : (2 : ℚ) ^ (-150 : Int) ≤ 1 / 1000000000 := by
    have : (2 : ℚ) ^ (-150 : Int) ≤ 2 ^ (-30 : Int) := two_zpow_le (by norm_num)
    have e : (2 : ℚ) ^ (-30 : Int) = 1 / 1073741824 := by norm_num
    rw [e] at this
    linarith
  rw [abs_le] at he
  constructor <;> linarith [he.1, he.2]

/-! ## Lemmas: ring buffer -/

/-! ### Cursor arithmetic -/

theorem write_loop_play (xs : List Int) (b : s_buffer) :
    (write_loop b xs).play = b.play := by
  induction xs generalizing b with
  | nil => rfl
  | cons x xs ih => simp [write_loop, ih]

theorem write_loop_write (xs : List Int) (b : s_buffer)
    (h0 : 0 ≤ b.write) (h1 : b.write < BUF_LEN) :
    (write_loop b xs).write = (b.write + xs.length) % BUF_LEN := by
  induction xs generalizing b with
  | nil =>
    simp only [write_loop, List.length_nil, BUF_LEN] at *
    omega
  | cons x xs ih =>
    simp only [write_loop, List.length_cons]
    rw [ih]
    · simp only [BUF_LEN] at *
      push_cast
      omega
    · simp only [BUF_LEN] at *
      omega
    · simp only [BUF_LEN] at *
      omega

theorem ring_inv_init : ring_inv ring_init := by
  simp only [ring_inv, ring_init, init_sound, BUF_LEN]
  omega

theorem get_writeable_of_inv (s : ring_state) (h : ring_inv s) :
    (0 < s.unread → get_writeable s.buffer + 2 * s.unread = 2 * BUF_LEN) ∧
    (s.unread = 0 → get_writeable s.buffer = 0) := by
  obtain ⟨h1, h2, h3, h4, h5, h6, h7⟩ := h
  simp only [get_writeable, BUF_LEN] at *
  constructor
  · intro hu
    split <;> omega
  · intro hu
    split <;> omega

theorem ring_step_inv (s t : ring_state) (op : ring_op) (h : ring_inv s)
    (hst : ring_step s op = some t) : ring_inv t := by
  have hw := get_writeable_of_inv s h
  obtain ⟨h1, h2, h3, h4, h5, h6, h7⟩ := h
  cases op with
  | produce samples =>
    simp only [ring_step] at hst
    split at hst
    · rename_i hg
      simp only [Option.some.injEq] at hst
      subst hst
      simp only [ring_inv, write_loop_play, write_loop_write samples s.buffer h3 h4]
      simp only [BUF_LEN] at *
      rcases lt_or_eq_of_le h5 with hu | hu
      · have := hw.1 hu
        omega
      · have := hw.2 hu.symm
        omega
    · simp at hst
  | drain len =>
    simp only [ring_step] at hst
    split at hst
    · rename_i hg
      simp only [Option.some.injEq] at hst
      subst hst
      simp only [ring_inv, callback]
      simp only [BUF_LEN] at *
      omega
    · simp at hst

theorem ring_run_inv (ops : List ring_op) (s t : ring_state) (h : ring_inv s)
    (hst : ring_run s ops = some t) : ring_inv t := by
  induction ops generalizing s with
  | nil =>
    simp only [ring_run, Option.some.injEq] at hst
    exact hst ▸ h
  | cons op ops ih =>
    simp only [ring_run] at hst
    cases hs : ring_step s op with
    | none => simp [hs] at hst
    | some s1 =>
      rw [hs] at hst
      exact ih s1 (ring_step_inv s s1 op h hs) hst

/-! ## Lemmas: rate controller -/

theorem MIN_RATE_eq : MIN_RATE = 47040 := by norm_num [MIN_RATE, SAMPLE_RATE]

theorem MAX_RATE_eq : MAX_RATE = 48960 := by norm_num [MAX_RATE, SAMPLE_RATE]

/-- The direction computed by `(diff > 0) - (diff < 0)` is the sign of `diff`. -/
theorem dir_eq_sign (d : Int) :
    ((if d > 0 then 1 else 0) - (if d < 0 then 1 else 0) : Int) = Int.sign d := by
  rcases lt_trichotomy d 0 with h | h | h
  · rw [if_neg (by omega), if_pos h, Int.sign_eq_neg_one_of_neg h]
    rfl
  · subst h
    rfl
  · rw [if_pos h, if_neg (by omega), Int.sign_eq_one_of_pos h]
    rfl

/-- In the dead band no branch fires and `new_adj` stays 0. -/
theorem rate_adjustment_dead_band (w : Int) (slope : ℚ) (hw : w ≠ 0)
    (h1 : -1 ≤ ((Int.sign (w - TARGET) : Int) : ℚ) * slope)
    (h2 : ((Int.sign (w - TARGET) : Int) : ℚ) * slope ≤ 0) :
    rate_adjustment w slope = 0 := by
  simp only [rate_adjustment, dir_eq_sign]
  rw [if_neg (by linarith), if_neg (by
    intro h
    rcases h with h | h
    · linarith
    · exact hw h)]
  simp


/-! ## Lemmas: rate controller in single precision -/

theorem MIN_RATE_f32_eq : MIN_RATE_f32 = 47040 := by decide!

theorem MAX_RATE_f32_eq : MAX_RATE_f32 = 48960 := by decide!

/-- The skew is at least the skew of a distance of 1 from the target. -/
theorem skew_f32_ge (diff : Int) (h : diff ≠ 0) : 3355443 / 536870912 ≤ skew_f32 diff := by
  have h1 : (1 : ℚ) ≤ ((|diff| : Int) : ℚ) := by
    have : 1 ≤ |diff| := Int.one_le_abs h
    exact_mod_cast this
  have e : f32 (f32 (f32 1 / 1600) * 10) = 3355443 / 536870912 := by decide!
  rw [← e]
  unfold skew_f32
  apply f32_mono
  have := f32_mono (div_le_div_of_nonneg_right (f32_mono h1) (by norm_num : (0 : ℚ) ≤ 1600))
  linarith

/-- The adjustment when the reading is above the target and rising: the
second branch with `dir = 1`. -/
theorem rate_adjustment_f32_above_rising (w : Int) (slope : ℚ) (hw : TARGET < w)
    (hs : 0 < slope) (hsf : is_f32 slope) :
    rate_adjustment_f32 w slope
      = -(min 2 (f32 (f32 (|slope| + skew_f32 (w - TARGET)) / 2))) ∧
    3355443 / 1073741824 ≤ min 2 (f32 (f32 (|slope| + skew_f32 (w - TARGET)) / 2)) := by
  have hd : w - TARGET > 0 := by omega
  have hsk := skew_f32_ge (w - TARGET) (by omega)
  have habs : |slope| = slope := abs_of_pos hs
  have hx : 3355443 / 1073741824 ≤ f32 (f32 (|slope| + skew_f32 (w - TARGET)) / 2) := by
    have e : f32 (f32 (3355443 / 536870912) / 2) = 3355443 / 1073741824 := by decide!
    rw [← e]
    apply f32_mono
    have := f32_mono (show (3355443 / 536870912 : ℚ) ≤ |slope| + skew_f32 (w - TARGET) by
      rw [habs]
      linarith)
    linarith
  refine ⟨?_, le_min (by norm_num) hx⟩
  unfold rate_adjustment_f32
  simp only [hd, if_true, if_neg (show ¬ (w - TARGET < 0) by omega)]
  have e1 : f32 (f32 (((1 - 0 : Int)) : ℚ) * slope) = slope := by
    have : f32 (((1 - 0 : Int)) : ℚ) = 1 := by
      norm_num
      exact f32_one
    rw [this, one_mul]
    exact hsf
  have e2 : f32 (((1 - 0 : Int)) : ℚ) = 1 := by
    norm_num
    exact f32_one
  rw [e1, e2, if_neg (by linarith), if_pos (Or.inl hs), mul_one]
  have hidem : f32 (f32 (|slope| + skew_f32 (w - TARGET)) / 2) ≤ 2 →
      f32 (f32 (f32 (|slope| + skew_f32 (w - TARGET)) / 2))
        = f32 (f32 (|slope| + skew_f32 (w - TARGET)) / 2) := by
    intro hle
    apply f32_idem_of_lt
    rw [abs_of_nonneg (by linarith)]
    have : (2 : ℚ) < 2 ^ (128 : Int) := by norm_num
    linarith
  generalize f32 (f32 (|slope| + skew_f32 (w - TARGET)) / 2) = X at hx hidem ⊢
  by_cases hX : -X < -2
  · rw [if_pos hX, min_eq_left (by linarith)]
    have : f32 (-2) = -2 := by decide!
    exact this
  · rw [if_neg hX, min_eq_right (by linarith), f32_neg, hidem (by linarith)]

/-- The adjustment with `w = 0` and a slope of at most 1: the second branch
with `dir = -1`, where the skew alone exceeds the cap of 2. -/
theorem rate_adjustment_f32_starved_low (slope : ℚ) (hs : slope ≤ 1) (hsf : is_f32 slope) :
    rate_adjustment_f32 0 slope = 2 := by
  have e0 : f32 (((0 - 1 : Int)) : ℚ) = -1 := by
    norm_num
    exact f32_neg_one
  have e1 : f32 (f32 (((0 - 1 : Int)) : ℚ) * slope) = -slope := by
    rw [e0, neg_one_mul, f32_neg, hsf]
  have hsk : skew_f32 (0 - TARGET) = 125 / 4 := by decide!
  have hx : 125 / 8 ≤ f32 (f32 (|slope| + 125 / 4) / 2) := by
    have e : f32 (f32 (125 / 4) / 2) = 125 / 8 := by decide!
    rw [← e]
    apply f32_mono
    have := f32_mono (show (125 / 4 : ℚ) ≤ |slope| + 125 / 4 by
      have := abs_nonneg slope
      linarith)
    linarith
  unfold rate_adjustment_f32
  simp only [show ¬ ((0 : Int) - TARGET > 0) by decide, show (0 : Int) - TARGET < 0 by decide,
    if_true, if_false]
  rw [e1, e0, hsk, if_neg (by linarith), if_pos (Or.inr trivial), if_pos (by linarith)]
  decide!

/-- The adjustment with `w = 0` and a slope above 1: the first branch with
`dir = -1`. -/
theorem rate_adjustment_f32_starved_high (slope : ℚ) (hs : 1 < slope) (hsf : is_f32 slope) :
    rate_adjustment_f32 0 slope = -(min 1 (f32 (slope / 4))) ∧
    1 / 4 ≤ min 1 (f32 (slope / 4)) := by
  have e0 : f32 (((0 - 1 : Int)) : ℚ) = -1 := by
    norm_num
    exact f32_neg_one
  have e1 : f32 (f32 (((0 - 1 : Int)) : ℚ) * slope) = -slope := by
    rw [e0, neg_one_mul, f32_neg, hsf]
  have hx : 1 / 4 ≤ f32 (slope / 4) := by
    have e : f32 (1 / 4) = 1 / 4 := by decide!
    rw [← e]
    exact f32_mono (by linarith)
  refine ⟨?_, le_min (by norm_num) hx⟩
  have hidem : f32 (slope / 4) ≤ 1 → f32 (f32 (slope / 4)) = f32 (slope / 4) := by
    intro hle
    apply f32_idem_of_lt
    rw [abs_of_nonneg (by linarith)]
    have : (1 : ℚ) < 2 ^ (128 : Int) := by norm_num
    linarith
  unfold rate_adjustment_f32
  simp only [show ¬ ((0 : Int) - TARGET > 0) by decide, show (0 : Int) - TARGET < 0 by decide,
    if_true, if_false]
  rw [e1, e0, if_pos (by linarith), abs_of_pos (by linarith)]
  generalize f32 (slope / 4) = X at hx hidem ⊢
  by_cases hX : X > 1
  · rw [if_pos hX, min_eq_left (by linarith)]
    decide!
  · rw [if_neg hX, min_eq_right (by linarith)]
    rw [mul_neg, mul_one, f32_neg, hidem (by linarith)]

/-! ## Lemmas: fill-level tracker -/

theorem wrap32_of_bounds (x : Int) (h0 : -2147483648 ≤ x) (h1 : x < 2147483648) :
    wrap32 x = x := by
  unfold wrap32
  omega

/-- The loop visits the slots in circular order from the start index. -/
theorem slope_loop_eq_foldl (w_values : Nat → Int) (n i : Nat) (a : slope_sums)
    (hi : i < NUM_W_VALUES) :
    slope_loop w_values n i a
      = ((List.range n).map (fun j => w_values ((i + j) % NUM_W_VALUES))).foldl
          (fun a v => slope_body v a) a := by
  induction n generalizing i a with
  | zero => rfl
  | succ n ih =>
    rw [slope_loop, ih _ _ (Nat.mod_lt _ (by decide)), List.range_succ_eq_map]
    simp only [List.map_cons, List.map_map, List.foldl_cons, Nat.add_zero,
      Nat.mod_eq_of_lt hi]
    congr 2
    funext j
    simp only [Function.comp, NUM_W_VALUES] at *
    congr 1
    omega

/-- Sentinel slots leave the accumulators alone. -/
theorem foldl_slope_body_filter (l : List Int) (a : slope_sums) :
    l.foldl (fun a v => slope_body v a) a
      = (l.filter (fun v => v ≠ -1)).foldl (fun a v => slope_body v a) a := by
  induction l generalizing a with
  | nil => rfl
  | cons v l ih =>
    rw [List.foldl_cons, ih]
    by_cases hv : v = -1
    · have hb : slope_body v a = a := by simp [slope_body, hv]
      rw [hb, List.filter_cons_of_neg (by simp [hv])]
    · rw [List.filter_cons_of_pos (by simp [hv]), List.foldl_cons]

theorem ols_sx_succ (n : Nat) : ols_sx (n + 1) = ols_sx n + n := by
  simp [ols_sx, Finset.sum_range_succ]

theorem ols_sxx_succ (n : Nat) : ols_sxx (n + 1) = ols_sxx n + (n : Int) * n := by
  simp [ols_sxx, Finset.sum_range_succ]

theorem ols_sy_snoc (ys : List Int) (v : Int) : ols_sy (ys ++ [v]) = ols_sy ys + v := by
  simp only [ols_sy, List.length_append, List.length_singleton, Finset.sum_range_succ]
  congr 1
  · apply Finset.sum_congr rfl
    intro k hk
    exact List.getD_append _ _ _ _ (Finset.mem_range.mp hk)
  · rw [List.getD_append_right _ _ _ _ (le_refl _)]
    simp

theorem ols_sxy_snoc (ys : List Int) (v : Int) :
    ols_sxy (ys ++ [v]) = ols_sxy ys + (ys.length : Int) * v := by
  simp only [ols_sxy, List.length_append, List.length_singleton, Finset.sum_range_succ]
  congr 1
  · apply Finset.sum_congr rfl
    intro k hk
    rw [List.getD_append _ _ _ _ (Finset.mem_range.mp hk)]
  · rw [List.getD_append_right _ _ _ _ (le_refl _)]
    simp

theorem ols_sx_bounds (n : Nat) (hn : n ≤ 60) : 0 ≤ ols_sx n ∧ ols_sx n ≤ 60 * n := by
  induction n with
  | zero => simp [ols_sx]
  | succ n ih =>
    have := ih (by omega)
    rw [ols_sx_succ]
    push_cast
    omega

theorem ols_sxx_bounds (n : Nat) (hn : n ≤ 60) : 0 ≤ ols_sxx n ∧ ols_sxx n ≤ 3600 * n := by
  induction n with
  | zero => simp [ols_sxx]
  | succ n ih =>
    have := ih (by omega)
    have h1 : (n : Int) * n ≤ 3600 := by
      have : n * n ≤ 60 * 60 := Nat.mul_le_mul (by omega) (by omega)
      exact_mod_cast this
    have h2 : 0 ≤ (n : Int) * n := by positivity
    rw [ols_sxx_succ]
    push_cast
    omega

theorem ols_sy_bounds (ys : List Int) (h : readings_ok ys) :
    0 ≤ ols_sy ys ∧ ols_sy ys ≤ 8192 * ys.length := by
  induction ys using List.reverseRecOn with
  | nil => simp [ols_sy]
  | append_singleton ys v ih =>
    have hv := h v (by simp)
    simp only [W_MAX, BUF_LEN] at hv
    have := ih (fun u hu => h u (by simp [hu]))
    rw [ols_sy_snoc]
    simp only [List.length_append, List.length_singleton]
    push_cast
    omega

theorem ols_sxy_bounds (ys : List Int) (h : readings_ok ys) (hn : ys.length ≤ 60) :
    0 ≤ ols_sxy ys ∧ ols_sxy ys ≤ 491520 * ys.length := by
  induction ys using List.reverseRecOn with
  | nil => simp [ols_sxy]
  | append_singleton ys v ih =>
    have hv := h v (by simp)
    simp only [W_MAX, BUF_LEN] at hv
    simp only [List.length_append, List.length_singleton] at hn
    have := ih (fun u hu => h u (by simp [hu])) (by omega)
    have h1 : (ys.length : Int) * v ≤ 60 * 8192 :=
      mul_le_mul (by exact_mod_cast (by omega : ys.length ≤ 60)) hv.2 hv.1 (by norm_num)
    have h2 : 0 ≤ (ys.length : Int) * v := mul_nonneg (by positivity) hv.1
    rw [ols_sxy_snoc]
    simp only [List.length_append, List.length_singleton]
    push_cast
    omega

theorem slope_fold_spec (ys : List Int) (h : readings_ok ys) (hn : ys.length ≤ 60) :
    ys.foldl (fun a v => slope_body v a) ⟨0, 0, 0, 0, 0⟩
      = ⟨ys.length, ols_sx ys.length, ols_sy ys, ols_sxx ys.length, ols_sxy ys⟩ := by
  induction ys using List.reverseRecOn with
  | nil => simp [ols_sx, ols_sy, ols_sxx, ols_sxy]
  | append_singleton ys v ih =>
    have hv := h v (by simp)
    simp only [W_MAX, BUF_LEN] at hv
    have hys : readings_ok ys := fun u hu => h u (by simp [hu])
    simp only [List.length_append, List.length_singleton] at hn
    have hlen : ys.length ≤ 59 := by omega
    have hx := ols_sx_bounds (ys.length + 1) hn
    have hxx := ols_sxx_bounds (ys.length + 1) hn
    have hy := ols_sy_bounds (ys ++ [v]) h
    have hxy := ols_sxy_bounds (ys ++ [v]) h (by simpa using hn)
    have hkk : 0 ≤ (ys.length : Int) * ys.length ∧ (ys.length : Int) * ys.length ≤ 3600 := by
      constructor
      · positivity
      · have : ys.length * ys.length ≤ 60 * 60 := Nat.mul_le_mul (by omega) (by omega)
        exact_mod_cast this
    have hkv : 0 ≤ (ys.length : Int) * v ∧ (ys.length : Int) * v ≤ 60 * 8192 :=
      ⟨mul_nonneg (by positivity) hv.1,
        mul_le_mul (by exact_mod_cast (by omega : ys.length ≤ 60)) hv.2 hv.1 (by norm_num)⟩
    rw [ols_sx_succ] at hx
    rw [ols_sxx_succ] at hxx
    rw [ols_sy_snoc] at hy
    rw [ols_sxy_snoc] at hxy
    simp only [List.length_append, List.length_singleton] at hy hxy
    push_cast at hx hxx hy hxy
    rw [List.foldl_append, ih hys (by omega)]
    have hne : v ≠ -1 := by omega
    simp only [List.foldl_cons, List.foldl_nil, slope_body, if_pos hne, ne_eq,
      List.length_append, List.length_singleton, ols_sx_succ, ols_sxx_succ, ols_sy_snoc,
      ols_sxy_snoc, slope_sums.mk.injEq]
    rw [wrap32_of_bounds ((ys.length : Int) * ys.length) (by omega) (by omega),
      wrap32_of_bounds ((ys.length : Int) * v) (by omega) (by omega)]
    refine ⟨?_, ?_, ?_, ?_, ?_⟩
    · rw [wrap32_of_bounds _ (by omega) (by omega)]
      push_cast
      rfl
    · exact wrap32_of_bounds _ (by omega) (by omega)
    · exact wrap32_of_bounds _ (by omega) (by omega)
    · exact wrap32_of_bounds _ (by omega) (by omega)
    · exact wrap32_of_bounds _ (by omega) (by omega)

theorem valid_entries_length_le (w_values : Nat → Int) (w_value_index : Nat) :
    (valid_entries w_values w_value_index).length ≤ 60 := by
  unfold valid_entries history_entries
  refine le_trans (List.length_filter_le _ _) ?_
  simp [NUM_W_VALUES]

theorem valid_entries_readings_ok (w_values : Nat → Int) (w_value_index : Nat)
    (h : history_ok w_values) : readings_ok (valid_entries w_values w_value_index) := by
  intro v hv
  simp only [valid_entries, history_entries, List.mem_filter, List.mem_map, List.mem_range,
    decide_eq_true_eq] at hv
  obtain ⟨⟨j, _, rfl⟩, hne⟩ := hv
  rcases h ((w_value_index + j) % NUM_W_VALUES) (Nat.mod_lt _ (by decide)) with h1 | h1
  · exact absurd h1 hne
  · exact h1

/-- The accumulators at the end of the loop are the least-squares sums of the
valid entries: no 32-bit operation wraps on a history of smoothed readings. -/
theorem slope_loop_spec (w_values : Nat → Int) (w_value_index : Nat)
    (h : history_ok w_values) (hi : w_value_index < NUM_W_VALUES) :
    slope_loop w_values NUM_W_VALUES w_value_index ⟨0, 0, 0, 0, 0⟩
      = ⟨(valid_entries w_values w_value_index).length,
         ols_sx (valid_entries w_values w_value_index).length,
         ols_sy (valid_entries w_values w_value_index),
         ols_sxx (valid_entries w_values w_value_index).length,
         ols_sxy (valid_entries w_values w_value_index)⟩ := by
  rw [slope_loop_eq_foldl w_values NUM_W_VALUES w_value_index _ hi, foldl_slope_body_filter]
  exact slope_fold_spec _ (valid_entries_readings_ok w_values w_value_index h)
    (valid_entries_length_le w_values w_value_index)

theorem two_mul_ols_sx (n : Nat) : 2 * ols_sx n = (n : Int) * (n - 1) := by
  induction n with
  | zero => simp [ols_sx]
  | succ n ih =>
    rw [ols_sx_succ]
    push_cast
    linarith

theorem six_mul_ols_sxx (n : Nat) : 6 * ols_sxx n = (n - 1 : Int) * n * (2 * n - 1) := by
  induction n with
  | zero => simp [ols_sxx]
  | succ n ih =>
    rw [ols_sxx_succ]
    push_cast
    linarith

/-- The denominator in closed form: `12 * (n*Sxx - Sx^2) = n^2 (n-1) (n+1)`. -/
theorem twelve_mul_ols_den (n : Nat) :
    12 * ols_den n = (n : Int) * n * (n - 1) * (n + 1) := by
  unfold ols_den
  linear_combination (2 * (n : Int)) * six_mul_ols_sxx n
    - 3 * (2 * ols_sx n + (n : Int) * (n - 1)) * two_mul_ols_sx n

theorem ols_den_pos (n : Nat) (hn : 2 ≤ n) : 0 < ols_den n := by
  have h := twelve_mul_ols_den n
  have h2 : (2 : Int) ≤ n := by exact_mod_cast hn
  have : 0 < (n : Int) * n * (n - 1) * (n + 1) := by
    have h3 : (0 : Int) < n := by linarith
    have h4 : (0 : Int) < n - 1 := by linarith
    have h5 : (0 : Int) < n + 1 := by linarith
    positivity
  omega

theorem ols_den_small (n : Nat) (hn : n < 2) : ols_den n = 0 := by
  have h := twelve_mul_ols_den n
  have : n = 0 ∨ n = 1 := by omega
  rcases this with rfl | rfl <;> simp at h <;> omega

theorem ols_den_bounds (n : Nat) (hn : n ≤ 60) : 0 ≤ ols_den n ∧ ols_den n ≤ 12960000 := by
  have hx := ols_sx_bounds n hn
  have hxx := ols_sxx_bounds n hn
  have hn0 : (0 : Int) ≤ n := by positivity
  have hn1 : (n : Int) ≤ 60 := by exact_mod_cast hn
  have h1 : 0 ≤ ols_sx n * ols_sx n := mul_nonneg hx.1 hx.1
  have h2 : (n : Int) * ols_sxx n ≤ 60 * 216000 :=
    mul_le_mul hn1 (by omega) hxx.1 (by norm_num)
  constructor
  · rcases Nat.lt_or_ge n 2 with h | h
    · rw [ols_den_small n h]
    · exact (ols_den_pos n h).le
  · unfold ols_den
    omega

/-- On a history of smoothed readings the two `int` results of `calc_slope`
are the least-squares numerator and denominator of the valid entries: no
32-bit operation wraps. -/
theorem slope_num_den_spec (ys : List Int) (hok : readings_ok ys) (hlen : ys.length ≤ 60) :
    wrap32 (wrap32 ((ys.length : Int) * ols_sxy ys) - wrap32 (ols_sx ys.length * ols_sy ys))
      = ols_num ys ∧
    wrap32 (wrap32 ((ys.length : Int) * ols_sxx ys.length)
        - wrap32 (ols_sx ys.length * ols_sx ys.length))
      = ols_den ys.length ∧
    |ols_num ys| < 2147483648 := by
  have hx := ols_sx_bounds ys.length hlen
  have hxx := ols_sxx_bounds ys.length hlen
  have hy := ols_sy_bounds ys hok
  have hxy := ols_sxy_bounds ys hok hlen
  have hn0 : (0 : Int) ≤ ys.length := by positivity
  have hn1 : (ys.length : Int) ≤ 60 := by exact_mod_cast hlen
  have hy' : ols_sy ys ≤ 491520 := by omega
  have hxy' : ols_sxy ys ≤ 29491200 := by omega
  have p1 : 0 ≤ (ys.length : Int) * ols_sxy ys := mul_nonneg hn0 hxy.1
  have p2 : (ys.length : Int) * ols_sxy ys ≤ 60 * 29491200 :=
    mul_le_mul hn1 hxy' hxy.1 (by norm_num)
  have p3 : 0 ≤ ols_sx ys.length * ols_sy ys := mul_nonneg hx.1 hy.1
  have p4 : ols_sx ys.length * ols_sy ys ≤ 3600 * 491520 :=
    mul_le_mul (by omega) hy' hy.1 (by norm_num)
  have p5 : 0 ≤ (ys.length : Int) * ols_sxx ys.length := mul_nonneg hn0 hxx.1
  have p6 : (ys.length : Int) * ols_sxx ys.length ≤ 60 * 216000 :=
    mul_le_mul hn1 (by omega) hxx.1 (by norm_num)
  have p7 : 0 ≤ ols_sx ys.length * ols_sx ys.length := mul_nonneg hx.1 hx.1
  have p8 : ols_sx ys.length * ols_sx ys.length ≤ 3600 * 3600 :=
    mul_le_mul (by omega) (by omega) hx.1 (by norm_num)
  rw [wrap32_of_bounds ((ys.length : Int) * ols_sxy ys) (by omega) (by omega),
    wrap32_of_bounds (ols_sx ys.length * ols_sy ys) (by omega) (by omega),
    wrap32_of_bounds ((ys.length : Int) * ols_sxx ys.length) (by omega) (by omega),
    wrap32_of_bounds (ols_sx ys.length * ols_sx ys.length) (by omega) (by omega),
    wrap32_of_bounds _ (by omega) (by omega), wrap32_of_bounds _ (by omega) (by omega)]
  refine ⟨rfl, rfl, ?_⟩
  unfold ols_num
  rw [abs_lt]
  constructor <;> omega

/-- On a history of smoothed readings `calc_slope` is the quotient of the
least-squares numerator and denominator of the valid entries, or 0 when the
denominator vanishes. -/
theorem calc_slope_eq (w_values : Nat → Int) (w_value_index : Nat)
    (h : history_ok w_values) (hi : w_value_index < NUM_W_VALUES) :
    calc_slope w_values w_value_index
      = if ((ols_den (valid_entries w_values w_value_index).length : Int) : ℚ) = 0 then 0
        else ((ols_num (valid_entries w_values w_value_index) : Int) : ℚ)
          / ((ols_den (valid_entries w_values w_value_index).length : Int) : ℚ) := by
  have hlen := valid_entries_length_le w_values w_value_index
  have hok := valid_entries_readings_ok w_values w_value_index h
  obtain ⟨e1, e2, _⟩ := slope_num_den_spec _ hok hlen
  simp only [calc_slope, slope_loop_spec w_values w_value_index h hi, e1, e2]

/-- On a history of smoothed readings `calc_slope` in single precision
divides the rounded least-squares numerator by the denominator, which is
below `2^24` and converts exactly, and rounds the quotient. -/
theorem calc_slope_f32_eq (w_values : Nat → Int) (w_value_index : Nat)
    (h : history_ok w_values) (hi : w_value_index < NUM_W_VALUES) :
    calc_slope_f32 w_values w_value_index
      = if ((ols_den (valid_entries w_values w_value_index).length : Int) : ℚ) = 0 then 0
        else f32 (f32 ((ols_num (valid_entries w_values w_value_index) : Int) : ℚ)
          / ((ols_den (valid_entries w_values w_value_index).length : Int) : ℚ)) := by
  have hlen := valid_entries_length_le w_values w_value_index
  have hok := valid_entries_readings_ok w_values w_value_index h
  obtain ⟨e1, e2, _⟩ := slope_num_den_spec _ hok hlen
  have hd := ols_den_bounds _ hlen
  have e3 : f32 ((ols_den (valid_entries w_values w_value_index).length : Int) : ℚ)
      = ((ols_den (valid_entries w_values w_value_index).length : Int) : ℚ) := by
    apply f32_intCast
    rw [abs_of_nonneg hd.1]
    omega
  simp only [calc_slope_f32, slope_loop_spec w_values w_value_index h hi, e1, e2, e3]

/-- With fewer than two valid entries `calc_slope` returns 0 in single
precision, whatever the values in the history are. -/
theorem calc_slope_f32_short (w_values : Nat → Int) (w_value_index : Nat)
    (hi : w_value_index < NUM_W_VALUES)
    (h2 : (valid_entries w_values w_value_index).length < 2) :
    calc_slope_f32 w_values w_value_index = 0 := by
  have e : slope_loop w_values NUM_W_VALUES w_value_index ⟨0, 0, 0, 0, 0⟩
      = (valid_entries w_values w_value_index).foldl (fun a v => slope_body v a)
          ⟨0, 0, 0, 0, 0⟩ := by
    rw [slope_loop_eq_foldl w_values NUM_W_VALUES w_value_index _ hi, foldl_slope_body_filter]
    rfl
  have w0 : wrap32 0 = 0 := by decide
  have w1 : wrap32 1 = 1 := by decide
  unfold calc_slope_f32
  rw [e]
  generalize valid_entries w_values w_value_index = ys at h2 ⊢
  match ys, h2 with
  | [], _ => simp [w0, f32_zero]
  | [v], _ =>
    by_cases hv : v = -1
    · simp [slope_body, hv, w0, f32_zero]
    · simp [slope_body, hv, w0, w1, f32_zero]
  | _ :: _ :: _, h =>
    simp only [List.length_cons] at h
    omega

/-- The single-precision slope differs from the exact least-squares slope by
at most the fraction `2^-22` of the latter. -/
theorem rounded_quotient_near (N D : Int) (hD : 0 < D) (hD2 : D ≤ 12960000) :
    |f32 (f32 (N : ℚ) / (D : ℚ)) - (N : ℚ) / (D : ℚ)| ≤ |(N : ℚ) / (D : ℚ)| / 4194304 := by
  have hDq : (0 : ℚ) < D := by exact_mod_cast hD
  have hDq2 : (D : ℚ) ≤ 12960000 := by exact_mod_cast hD2
  by_cases hN : N = 0
  · subst hN
    simp [f32_zero]
  · have hN1 : (1 : ℚ) ≤ |(N : ℚ)| := by
      have : 1 ≤ |N| := Int.one_le_abs hN
      exact_mod_cast this
    have hsmall : (2 : ℚ) ^ (-126 : Int) ≤ 1 / 16777216 := by
      rw [show (1 : ℚ) / 16777216 = 2 ^ (-24 : Int) by norm_num]
      exact two_zpow_le (by norm_num)
    have hsmall1 : (2 : ℚ) ^ (-126 : Int) ≤ 1 := le_trans hsmall (by norm_num)
    have h1 := f32_rel_err (N : ℚ) (le_trans hsmall1 hN1)
    have hx1 : (1 : ℚ) ≤ |f32 (N : ℚ)| := by
      rcases le_or_lt 0 (N : ℚ) with h0 | h0
      · rw [abs_of_nonneg h0] at hN1
        have := f32_mono hN1
        rw [f32_one] at this
        rw [abs_of_nonneg (f32_nonneg h0)]
        exact this
      · rw [abs_of_neg h0] at hN1
        have := f32_mono (show (N : ℚ) ≤ -1 by linarith)
        rw [f32_neg_one] at this
        rw [abs_of_nonpos (f32_nonpos h0.le)]
        linarith
    have hq : (2 : ℚ) ^ (-126 : Int) ≤ |f32 (N : ℚ) / (D : ℚ)| := by
      rw [abs_div, abs_of_pos hDq]
      have : (1 : ℚ) / 16777216 ≤ |f32 (N : ℚ)| / D := by
        rw [div_le_div_iff₀ (by norm_num) hDq]
        nlinarith
      exact le_trans hsmall this
    have h2 := f32_rel_err (f32 (N : ℚ) / (D : ℚ)) hq
    have h3 : |f32 (N : ℚ) / (D : ℚ) - (N : ℚ) / (D : ℚ)|
        ≤ |(N : ℚ) / (D : ℚ)| / 16777216 := by
      rw [← sub_div, abs_div, abs_div, abs_of_pos hDq, div_div, mul_comm (D : ℚ), ← div_div]
      exact div_le_div_of_nonneg_right h1 hDq.le
    have h4 : |f32 (N : ℚ) / (D : ℚ)| ≤ |(N : ℚ) / (D : ℚ)| + |(N : ℚ) / (D : ℚ)| / 16777216 := by
      have := abs_sub_abs_le_abs_sub (f32 (N : ℚ) / (D : ℚ)) ((N : ℚ) / (D : ℚ))
      linarith
    have h5 := abs_sub_le (f32 (f32 (N : ℚ) / (D : ℚ))) (f32 (N : ℚ) / (D : ℚ))
      ((N : ℚ) / (D : ℚ))
    have h6 := abs_nonneg ((N : ℚ) / (D : ℚ))
    have h7 : |f32 (N : ℚ) / (D : ℚ)| / 16777216
        ≤ (|(N : ℚ) / (D : ℚ)| + |(N : ℚ) / (D : ℚ)| / 16777216) / 16777216 :=
      div_le_div_of_nonneg_right h4 (by norm_num)
    linarith

/-- Appending a value `v` after `n` values changes the numerator by
`Σ (n - k) (v - y_k)`. -/
theorem ols_num_snoc (ys : List Int) (v : Int) :
    ols_num (ys ++ [v]) = ols_num ys
      + ∑ k in Finset.range ys.length, ((ys.length : Int) - k) * (v - ys.getD k 0) := by
  have hT : ∑ k in Finset.range ys.length, ((ys.length : Int) - k) * (v - ys.getD k 0)
      = (ys.length : Int) * ys.length * v - ols_sx ys.length * v
        - (ys.length : Int) * ols_sy ys + ols_sxy ys := by
    simp only [ols_sx, ols_sy, ols_sxy, sub_mul, mul_sub, Finset.sum_sub_distrib,
      ← Finset.mul_sum, ← Finset.sum_mul, Finset.sum_const, Finset.card_range,
      smul_eq_mul, nsmul_eq_mul]
    ring
  rw [hT]
  simp only [ols_num, List.length_append, List.length_singleton, ols_sx_succ, ols_sy_snoc,
    ols_sxy_snoc]
  push_cast
  ring

theorem getD_mem_of_lt (ys : List Int) (k : Nat) (hk : k < ys.length) : ys.getD k 0 ∈ ys := by
  rw [List.getD_eq_getElem _ _ hk]
  exact List.getElem_mem hk

theorem ols_num_increasing (ys : List Int) (h : ys.Pairwise (fun a b => a < b)) :
    0 ≤ ols_num ys ∧ (2 ≤ ys.length → 0 < ols_num ys) := by
  induction ys using List.reverseRecOn with
  | nil => simp [ols_num, ols_sx, ols_sy, ols_sxy]
  | append_singleton ys v ih =>
    rw [List.pairwise_append] at h
    obtain ⟨h1, _, h3⟩ := h
    have ih1 := ih h1
    have hterm : ∀ k ∈ Finset.range ys.length,
        0 < ((ys.length : Int) - k) * (v - ys.getD k 0) := by
      intro k hk
      have hk1 := Finset.mem_range.mp hk
      have := h3 _ (getD_mem_of_lt ys k hk1) v (by simp)
      have hk2 : (k : Int) < ys.length := by exact_mod_cast hk1
      exact mul_pos (by linarith) (by linarith)
    rw [ols_num_snoc]
    constructor
    · exact add_nonneg ih1.1 (Finset.sum_nonneg (fun k hk => (hterm k hk).le))
    · intro hlen
      simp only [List.length_append, List.length_singleton] at hlen
      have hne : (Finset.range ys.length).Nonempty :=
        Finset.nonempty_range_iff.mpr (by omega)
      have := Finset.sum_pos hterm hne
      linarith

theorem ols_num_decreasing (ys : List Int) (h : ys.Pairwise (fun a b => a > b)) :
    ols_num ys ≤ 0 ∧ (2 ≤ ys.length → ols_num ys < 0) := by
  induction ys using List.reverseRecOn with
  | nil => simp [ols_num, ols_sx, ols_sy, ols_sxy]
  | append_singleton ys v ih =>
    rw [List.pairwise_append] at h
    obtain ⟨h1, _, h3⟩ := h
    have ih1 := ih h1
    have hterm : ∀ k ∈ Finset.range ys.length,
        ((ys.length : Int) - k) * (v - ys.getD k 0) < 0 := by
      intro k hk
      have hk1 := Finset.mem_range.mp hk
      have := h3 _ (getD_mem_of_lt ys k hk1) v (by simp)
      have hk2 : (k : Int) < ys.length := by exact_mod_cast hk1
      exact mul_neg_of_pos_of_neg (by linarith) (by linarith)
    rw [ols_num_snoc]
    constructor
    · exact add_nonpos ih1.1 (Finset.sum_nonpos (fun k hk => (hterm k hk).le))
    · intro hlen
      simp only [List.length_append, List.length_singleton] at hlen
      have hne : (Finset.range ys.length).Nonempty :=
        Finset.nonempty_range_iff.mpr (by omega)
      have := Finset.sum_neg hterm hne
      linarith

theorem ols_num_constant (ys : List Int) (h : ys.Pairwise (fun a b => a = b)) :
    ols_num ys = 0 := by
  induction ys using List.reverseRecOn with
  | nil => simp [ols_num, ols_sx, ols_sy, ols_sxy]
  | append_singleton ys v ih =>
    rw [List.pairwise_append] at h
    obtain ⟨h1, _, h3⟩ := h
    have hterm : ∀ k ∈ Finset.range ys.length,
        ((ys.length : Int) - k) * (v - ys.getD k 0) = 0 := by
      intro k hk
      have hk1 := Finset.mem_range.mp hk
      have := h3 _ (getD_mem_of_lt ys k hk1) v (by simp)
      rw [this]
      simp
    rw [ols_num_snoc, ih h1, Finset.sum_eq_zero hterm]
    rfl

theorem slope_loop_exact_eq_foldl (w_values : Nat → Int) (n i : Nat) (a : slope_sums)
    (hi : i < NUM_W_VALUES) :
    slope_loop_exact w_values n i a
      = ((List.range n).map (fun j => w_values ((i + j) % NUM_W_VALUES))).foldl
          (fun a v => slope_body_exact v a) a := by
  induction n generalizing i a with
  | zero => rfl
  | succ n ih =>
    rw [slope_loop_exact, ih _ _ (Nat.mod_lt _ (by decide)), List.range_succ_eq_map]
    simp only [List.map_cons, List.map_map, List.foldl_cons, Nat.add_zero,
      Nat.mod_eq_of_lt hi]
    congr 2
    funext j
    simp only [Function.comp, NUM_W_VALUES] at *
    congr 1
    omega

theorem foldl_slope_body_exact_filter (l : List Int) (a : slope_sums) :
    l.foldl (fun a v => slope_body_exact v a) a
      = (l.filter (fun v => v ≠ -1)).foldl (fun a v => slope_body_exact v a) a := by
  induction l generalizing a with
  | nil => rfl
  | cons v l ih =>
    rw [List.foldl_cons, ih]
    by_cases hv : v = -1
    · have hb : slope_body_exact v a = a := by simp [slope_body_exact, hv]
      rw [hb, List.filter_cons_of_neg (by simp [hv])]
    · rw [List.filter_cons_of_pos (by simp [hv]), List.foldl_cons]

/-- Without wrap the accumulators are the least-squares sums, whatever the
values. -/
theorem slope_fold_exact_spec (ys : List Int) (h : ∀ v ∈ ys, v ≠ -1) :
    ys.foldl (fun a v => slope_body_exact v a) ⟨0, 0, 0, 0, 0⟩
      = ⟨ys.length, ols_sx ys.length, ols_sy ys, ols_sxx ys.length, ols_sxy ys⟩ := by
  induction ys using List.reverseRecOn with
  | nil => simp [ols_sx, ols_sy, ols_sxx, ols_sxy]
  | append_singleton ys v ih =>
    have hne : v ≠ -1 := h v (by simp)
    rw [List.foldl_append, ih (fun u hu => h u (by simp [hu]))]
    simp only [List.foldl_cons, List.foldl_nil, slope_body_exact, if_pos hne, ne_eq,
      List.length_append, List.length_singleton, ols_sx_succ, ols_sxx_succ, ols_sy_snoc,
      ols_sxy_snoc, slope_sums.mk.injEq]
    refine ⟨?_, trivial, trivial, trivial, trivial⟩
    push_cast
    rfl

theorem visited_entries_length_le (w_values : Nat → Int) (w_value_index n : Nat) :
    (visited_entries w_values w_value_index n).length ≤ n := by
  unfold visited_entries
  refine le_trans (List.length_filter_le _ _) ?_
  simp

theorem visited_entries_readings_ok (w_values : Nat → Int) (w_value_index n : Nat)
    (h : history_ok w_values) : readings_ok (visited_entries w_values w_value_index n) := by
  intro v hv
  simp only [visited_entries, List.mem_filter, List.mem_map, List.mem_range,
    decide_eq_true_eq] at hv
  obtain ⟨⟨j, _, rfl⟩, hne⟩ := hv
  rcases h ((w_value_index + j) % NUM_W_VALUES) (Nat.mod_lt _ (by decide)) with h1 | h1
  · exact absurd h1 hne
  · exact h1

/-- After `n ≤ 60` iterations the exact accumulators and the wrapping ones are
both the least-squares sums of the valid entries visited so far. -/
theorem slope_loop_prefix_spec (w_values : Nat → Int) (w_value_index n : Nat)
    (h : history_ok w_values) (hi : w_value_index < NUM_W_VALUES) (hn : n ≤ 60) :
    slope_loop_exact w_values n w_value_index ⟨0, 0, 0, 0, 0⟩
      = ⟨(visited_entries w_values w_value_index n).length,
         ols_sx (visited_entries w_values w_value_index n).length,
         ols_sy (visited_entries w_values w_value_index n),
         ols_sxx (visited_entries w_values w_value_index n).length,
         ols_sxy (visited_entries w_values w_value_index n)⟩ ∧
    slope_loop w_values n w_value_index ⟨0, 0, 0, 0, 0⟩
      = slope_loop_exact w_values n w_value_index ⟨0, 0, 0, 0, 0⟩ := by
  have hok := visited_entries_readings_ok w_values w_value_index n h
  have hlen := visited_entries_length_le w_values w_value_index n
  have e1 : slope_loop_exact w_values n w_value_index ⟨0, 0, 0, 0, 0⟩
      = ⟨(visited_entries w_values w_value_index n).length,
         ols_sx (visited_entries w_values w_value_index n).length,
         ols_sy (visited_entries w_values w_value_index n),
         ols_sxx (visited_entries w_values w_value_index n).length,
         ols_sxy (visited_entries w_values w_value_index n)⟩ := by
    rw [slope_loop_exact_eq_foldl w_values n w_value_index _ hi, foldl_slope_body_exact_filter]
    exact slope_fold_exact_spec _ (fun v hv => by
      have := hok v hv
      omega)
  refine ⟨e1, ?_⟩
  rw [e1, slope_loop_eq_foldl w_values n w_value_index _ hi, foldl_slope_body_filter]
  exact slope_fold_spec _ hok (le_trans hlen hn)

/-- The filter keeps the smoothed value in the range of the raw readings. -/
theorem smooth_range (prev_y : ℚ) (w : Int) (hp0 : 0 ≤ prev_y) (hp1 : prev_y ≤ 8192)
    (hw0 : 0 ≤ w) (hw1 : w ≤ 8192) :
    0 ≤ smooth prev_y w ∧ smooth prev_y w ≤ 8192 := by
  have h0 : (0 : ℚ) ≤ w := by exact_mod_cast hw0
  have h1 : (w : ℚ) ≤ 8192 := by exact_mod_cast hw1
  have ea : f32 (5 / 100) = 13421773 / 268435456 := by decide!
  have eb : f32 (1 - 13421773 / 268435456) = 15938355 / 16777216 := by decide!
  have e8 : f32 8192 = 8192 := by decide!
  have ec : f32 (8192 * (15938355 / 16777216)) = 15938355 / 2048 := by decide!
  have ed : f32 (8192 * (13421773 / 268435456)) = 13421773 / 32768 := by decide!
  have ee : f32 (15938355 / 2048 + 13421773 / 32768) = 8192 := by decide!
  unfold smooth
  rw [ea, eb]
  have hw := f32_nonneg h0
  have hw2 : f32 (w : ℚ) ≤ 8192 := by
    have := f32_mono h1
    rwa [e8] at this
  have p1 : 0 ≤ f32 (prev_y * (15938355 / 16777216)) := f32_nonneg (by positivity)
  have p2 : 0 ≤ f32 (f32 (w : ℚ) * (13421773 / 268435456)) := f32_nonneg (by positivity)
  have q1 : f32 (prev_y * (15938355 / 16777216)) ≤ 15938355 / 2048 := by
    rw [← ec]
    exact f32_mono (by linarith)
  have q2 : f32 (f32 (w : ℚ) * (13421773 / 268435456)) ≤ 13421773 / 32768 := by
    rw [← ed]
    exact f32_mono (by linarith)
  constructor
  · exact f32_nonneg (by linarith)
  · rw [← ee]
    exact f32_mono (by linarith)

/-- Recording a smoothed value keeps every slot the sentinel or a reading in
`[0, W_MAX]`: the histories the driver builds satisfy `history_ok`. -/
theorem record_reading_history_ok (w_values : Nat → Int) (w_value_index : Nat) (y : ℚ)
    (h : history_ok w_values) (hy0 : 0 ≤ y) (hy1 : y ≤ 8192) :
    history_ok (record_reading w_values w_value_index y) := by
  intro i hi
  unfold record_reading
  by_cases e : i = w_value_index
  · subst e
    rw [Function.update_same, if_pos hy0]
    right
    have h1 : 0 ≤ ⌊y⌋ := Int.floor_nonneg.mpr hy0
    have h2 : ⌊y⌋ ≤ 8192 := by
      have : (⌊y⌋ : ℚ) ≤ 8192 := le_trans (Int.floor_le y) hy1
      exact_mod_cast this
    simp only [W_MAX, BUF_LEN]
    omega
  · rw [Function.update_noteq e]
    exact h i hi

theorem init_w_values_history_ok : history_ok init_w_values :=
  fun _ _ => Or.inl rfl

/-! ## Lemmas: resampler -/

theorem float_to_int_of_nonneg (x : ℚ) (h : 0 ≤ x) : float_to_int x = ⌊x⌋ := by
  unfold float_to_int
  rw [if_pos h]

theorem process_input_buf (r : c_resampler) (sample : ℚ) :
    (r.process sample).input_buf =
      Function.update (Function.update r.input_buf (r.input_buf_index + 4) sample)
        r.input_buf_index sample := by
  simp only [c_resampler.process, INPUT_BUF_LEN]
  split <;> rfl

theorem process_input_buf_index (r : c_resampler) (sample : ℚ) :
    (r.process sample).input_buf_index = (r.input_buf_index - 1) % 4 := by
  simp only [c_resampler.process]
  split <;> rfl

theorem process_m (r : c_resampler) (sample : ℚ) : (r.process sample).m = r.m := by
  simp only [c_resampler.process]
  split <;> rfl

theorem process_input_rate (r : c_resampler) (sample : ℚ) :
    (r.process sample).input_rate = r.input_rate := by
  simp only [c_resampler.process]
  split <;> rfl

/-- The fields a `process` call changes when it emits an output sample. -/
theorem process_emit (r : c_resampler) (sample : ℚ) (h : r.samples_required = 1) :
    (r.process sample).mf
        = r.m - (2 - r.mf) - float_to_int (r.m - (2 - r.mf)) ∧
    (r.process sample).samples_required = float_to_int (r.m - (2 - r.mf)) + 2 ∧
    (r.process sample).output_buf_index = r.output_buf_index + 1 ∧
    (r.process sample).output_buf
        = Function.update r.output_buf r.output_buf_index
            (scale_sample (bspline
              ((r.process sample).input_buf (r.input_buf_index + 3))
              ((r.process sample).input_buf (r.input_buf_index + 2))
              ((r.process sample).input_buf (r.input_buf_index + 1))
              ((r.process sample).input_buf r.input_buf_index) r.mf)) := by
  have h0 : r.samples_required - 1 = 0 := by omega
  rw [process_input_buf]
  simp [c_resampler.process, if_pos h0, INPUT_BUF_LEN]

/-- The fields a `process` call leaves alone when it emits nothing. -/
theorem process_idle_fields (r : c_resampler) (sample : ℚ) (h : r.samples_required ≠ 1) :
    (r.process sample).mf = r.mf ∧
    (r.process sample).samples_required = r.samples_required - 1 ∧
    (r.process sample).output_buf_index = r.output_buf_index ∧
    (r.process sample).output_buf = r.output_buf := by
  have h0 : r.samples_required - 1 ≠ 0 := by omega
  simp [c_resampler.process, if_neg h0]

theorem c_round_bounds (x : ℚ) (h0 : -32767 ≤ x) (h1 : x ≤ 32767) :
    -32768 ≤ c_round x ∧ c_round x ≤ 32767 := by
  unfold c_round
  split
  · constructor
    · have : 0 ≤ ⌊x + 1 / 2⌋ := Int.floor_nonneg.mpr (by linarith)
      omega
    · have : ⌊x + 1 / 2⌋ < 32768 := Int.floor_lt.mpr (by push_cast; linarith)
      omega
  · constructor
    · have : -32769 < ⌈x - 1 / 2⌉ := Int.lt_ceil.mpr (by push_cast; linarith)
      omega
    · exact Int.ceil_le.mpr (by push_cast; linarith)

/-- Inputs of the nominal range are scaled without saturation. -/
theorem scale_sample_nominal (c : ℚ) (h0 : -1 ≤ c) (h1 : c ≤ 1) :
    scale_sample c = c_round (c * 32767) := by
  have hb := c_round_bounds (c * 32767) (by linarith) (by linarith)
  have e : float_to_int32 (c_round (c * 32767)) = c_round (c * 32767) := by
    unfold float_to_int32
    exact if_pos ⟨by omega, by omega⟩
  simp only [scale_sample, e]
  rw [if_neg (by omega), if_neg (by omega)]

/-- Every rate of the band gives a step ratio of at least 7 (in fact 7.84). -/
theorem band_ratio (rate : ℚ) (h0 : MIN_RATE ≤ rate) (h1 : rate ≤ MAX_RATE) :
    (7 : ℚ) ≤ 8 * 48000 / rate := by
  rw [MIN_RATE_eq] at h0
  rw [MAX_RATE_eq] at h1
  rw [le_div_iff₀ (by linarith)]
  linarith

theorem ctor_drain_inv (rate : ℚ) (h0 : MIN_RATE ≤ rate) (h1 : rate ≤ MAX_RATE) :
    drain_inv (c_resampler.ctor (8 * 48000) rate) := by
  have hm := band_ratio rate h0 h1
  have hm0 : (0 : ℚ) ≤ 8 * 48000 / rate := by linarith
  have hfl : 7 ≤ ⌊(8 * 48000 / rate : ℚ)⌋ := Int.le_floor.mpr (by exact_mod_cast hm)
  simp only [drain_inv, c_resampler.ctor, float_to_int_of_nonneg _ hm0]
  refine ⟨trivial, hm, ?_, by omega⟩
  linarith [Int.floor_le (8 * 48000 / rate : ℚ)]

theorem process_drain_inv (r : c_resampler) (sample : ℚ) (h : drain_inv r) :
    drain_inv (r.process sample) ∧
    (r.samples_required = 1 → 7 ≤ (r.process sample).samples_required) := by
  obtain ⟨hr, hm, hmf, hs⟩ := h
  by_cases h1 : r.samples_required = 1
  · obtain ⟨e1, e2, _, _⟩ := process_emit r sample h1
    have hn : (5 : ℚ) ≤ r.m - (2 - r.mf) := by linarith
    have hn0 : (0 : ℚ) ≤ r.m - (2 - r.mf) := by linarith
    have hfl : 5 ≤ ⌊r.m - (2 - r.mf)⌋ := Int.le_floor.mpr (by exact_mod_cast hn)
    rw [float_to_int_of_nonneg _ hn0] at e1 e2
    refine ⟨⟨by rw [process_input_rate, hr], by rw [process_m]; exact hm, ?_, by omega⟩,
      fun _ => by omega⟩
    rw [e1]
    linarith [Int.floor_le (r.m - (2 - r.mf))]
  · obtain ⟨e1, e2, _, _⟩ := process_idle_fields r sample h1
    exact ⟨⟨by rw [process_input_rate, hr], by rw [process_m]; exact hm, by rw [e1]; exact hmf,
      by omega⟩, fun h => absurd h h1⟩

theorem step_drain_inv (r : c_resampler) (op : resampler_op) (h : drain_inv r)
    (hop : ∀ rate, op = resampler_op.set_output_rate rate → MIN_RATE ≤ rate ∧ rate ≤ MAX_RATE) :
    drain_inv (resampler_step r op) := by
  cases op with
  | process sample => exact (process_drain_inv r sample h).1
  | set_output_rate rate =>
    obtain ⟨hr, _, hmf, hs⟩ := h
    obtain ⟨h0, h1⟩ := hop rate rfl
    refine ⟨hr, ?_, hmf, hs⟩
    show (7 : ℚ) ≤ r.input_rate / rate
    rw [hr]
    exact band_ratio rate h0 h1
  | get_output_buf => exact h

theorem run_drain_inv (ops : List resampler_op) (r : c_resampler) (h : drain_inv r)
    (hops : rates_in_band ops) : drain_inv (resampler_run r ops) := by
  induction ops generalizing r with
  | nil => exact h
  | cons op ops ih =>
    simp only [resampler_run, List.foldl_cons]
    exact ih _ (step_drain_inv r op h (fun rate he => hops op (by simp) rate he))
      (fun op1 h1 => hops op1 (by simp [h1]))

theorem process_count_inv (k : Int) (r : c_resampler) (sample : ℚ) (h : count_inv k r) :
    count_inv (k + 1) (r.process sample) := by
  obtain ⟨hd, h0, h1, h2⟩ := h
  obtain ⟨hd1, hs7⟩ := process_drain_inv r sample hd
  by_cases hs : r.samples_required = 1
  · obtain ⟨_, _, e3, _⟩ := process_emit r sample hs
    have := hs7 hs
    exact ⟨hd1, by omega, by omega, by omega⟩
  · obtain ⟨_, e2, e3, _⟩ := process_idle_fields r sample hs
    exact ⟨hd1, by omega, by omega, by omega⟩

theorem process_all_count_inv (samples : List ℚ) (k : Int) (r : c_resampler)
    (h : count_inv k r) : count_inv (k + samples.length) (r.process_all samples) := by
  induction samples generalizing k r with
  | nil => simpa [c_resampler.process_all] using h
  | cons x xs ih =>
    have := ih (k + 1) (r.process x) (process_count_inv k r x h)
    simp only [c_resampler.process_all, List.foldl_cons, List.length_cons] at *
    push_cast
    have e : k + ((xs.length : Int) + 1) = k + 1 + xs.length := by ring
    rw [e]
    exact this

/-- Whatever the interpolated value, the stored sample is a 16-bit value. -/
theorem scale_sample_range (j : ℚ) : -32768 ≤ scale_sample j ∧ scale_sample j ≤ 32767 := by
  simp only [scale_sample]
  split
  · omega
  · split <;> omega

/-- When the rounded product fits a 32-bit int the stored sample is its
saturation to 16 bits. -/
theorem scale_sample_saturates (j : ℚ)
    (h0 : -2147483648 ≤ c_round (j * 32767)) (h1 : c_round (j * 32767) ≤ 2147483647) :
    scale_sample j = max (-32768) (min 32767 (c_round (j * 32767))) := by
  simp only [scale_sample, float_to_int32, if_pos (And.intro h0 h1)]
  split
  · omega
  · split <;> omega

/-- The interpolation written as a weighted sum of the taps. -/
theorem bspline_weights (ym y0 y1 y2 mf : ℚ) :
    bspline ym y0 y1 y2 mf
      = (1 - mf) ^ 3 / 6 * ym + (3 * mf ^ 3 - 6 * mf ^ 2 + 4) / 6 * y0
        + (-3 * mf ^ 3 + 3 * mf ^ 2 + 3 * mf + 1) / 6 * y1 + mf ^ 3 / 6 * y2 := by
  simp only [bspline]
  ring

/-- On `[0, 1]` the four weights are not negative; they add up to 1. -/
theorem bspline_weights_nonneg (mf : ℚ) (h0 : 0 ≤ mf) (h1 : mf ≤ 1) :
    0 ≤ (1 - mf) ^ 3 / 6 ∧ 0 ≤ (3 * mf ^ 3 - 6 * mf ^ 2 + 4) / 6 ∧
    0 ≤ (-3 * mf ^ 3 + 3 * mf ^ 2 + 3 * mf + 1) / 6 ∧ 0 ≤ mf ^ 3 / 6 := by
  have h2 : 0 ≤ 1 - mf := by linarith
  refine ⟨by positivity, ?_, ?_, by positivity⟩
  · have h3 : 0 ≤ 3 * mf ^ 3 - 6 * mf ^ 2 + 4 := by
      nlinarith [mul_nonneg h0 h0, mul_nonneg h2 h2, mul_nonneg (mul_nonneg h0 h0) h0,
        mul_nonneg h0 h2]
    exact div_nonneg h3 (by norm_num)
  · have h3 : 0 ≤ -3 * mf ^ 3 + 3 * mf ^ 2 + 3 * mf + 1 := by
      nlinarith [mul_nonneg h0 h0, mul_nonneg h2 h2, mul_nonneg (mul_nonneg h0 h0) h2,
        mul_nonneg h0 h2]
    exact div_nonneg h3 (by norm_num)

/-- A lower bound of the taps is a lower bound of the interpolated value. -/
theorem bspline_ge (ym y0 y1 y2 mf lo : ℚ) (h0 : 0 ≤ mf) (h1 : mf ≤ 1)
    (hm : lo ≤ ym) (ha : lo ≤ y0) (hb : lo ≤ y1) (hc : lo ≤ y2) :
    lo ≤ bspline ym y0 y1 y2 mf := by
  obtain ⟨w0, w1, w2, w3⟩ := bspline_weights_nonneg mf h0 h1
  rw [bspline_weights]
  have e : lo = (1 - mf) ^ 3 / 6 * lo + (3 * mf ^ 3 - 6 * mf ^ 2 + 4) / 6 * lo
        + (-3 * mf ^ 3 + 3 * mf ^ 2 + 3 * mf + 1) / 6 * lo + mf ^ 3 / 6 * lo := by ring
  rw [e]
  have a1 := mul_le_mul_of_nonneg_left hm w0
  have a2 := mul_le_mul_of_nonneg_left ha w1
  have a3 := mul_le_mul_of_nonneg_left hb w2
  have a4 := mul_le_mul_of_nonneg_left hc w3
  linarith

/-- An upper bound of the taps is an upper bound of the interpolated value. -/
theorem bspline_le (ym y0 y1 y2 mf hi : ℚ) (h0 : 0 ≤ mf) (h1 : mf ≤ 1)
    (hm : ym ≤ hi) (ha : y0 ≤ hi) (hb : y1 ≤ hi) (hc : y2 ≤ hi) :
    bspline ym y0 y1 y2 mf ≤ hi := by
  obtain ⟨w0, w1, w2, w3⟩ := bspline_weights_nonneg mf h0 h1
  rw [bspline_weights]
  have e : hi = (1 - mf) ^ 3 / 6 * hi + (3 * mf ^ 3 - 6 * mf ^ 2 + 4) / 6 * hi
        + (-3 * mf ^ 3 + 3 * mf ^ 2 + 3 * mf + 1) / 6 * hi + mf ^ 3 / 6 * hi := by ring
  rw [e]
  have a1 := mul_le_mul_of_nonneg_left hm w0
  have a2 := mul_le_mul_of_nonneg_left ha w1
  have a3 := mul_le_mul_of_nonneg_left hb w2
  have a4 := mul_le_mul_of_nonneg_left hc w3
  linarith

theorem process_output_buf_index (r : c_resampler) (sample : ℚ) :
    (r.process sample).output_buf_index
      = if r.samples_required - 1 = 0 then r.output_buf_index + 1 else r.output_buf_index := by
  simp only [c_resampler.process]
  split <;> rfl

/-- The cursor counts the outputs emitted since it was last reset. -/
theorem run_output_buf_index (ops : List resampler_op) (r : c_resampler) :
    (resampler_run r ops).output_buf_index = count_outputs r ops r.output_buf_index := by
  induction ops generalizing r with
  | nil => rfl
  | cons op ops ih =>
    cases op with
    | process sample =>
      simp only [resampler_run, List.foldl_cons, resampler_step, count_outputs] at *
      rw [ih, process_output_buf_index]
    | set_output_rate output_rate =>
      simp only [resampler_run, List.foldl_cons, resampler_step, count_outputs] at *
      rw [ih]
      rfl
    | get_output_buf =>
      simp only [resampler_run, List.foldl_cons, resampler_step, count_outputs] at *
      rw [ih]
      rfl

theorem ratio_ge_two (input_rate rate : ℚ) (h0 : 0 < rate) (h1 : 2 * rate ≤ input_rate) :
    2 ≤ input_rate / rate := by
  rw [le_div_iff₀ h0]
  exact h1

theorem fract_bounds (x : ℚ) : 0 ≤ x - (⌊x⌋ : ℚ) ∧ x - (⌊x⌋ : ℚ) < 1 := by
  have h1 := Int.floor_le x
  have h2 := Int.lt_floor_add_one x
  constructor <;> linarith

theorem process_seq_eq_process_all (r : c_resampler) (x : Nat → ℚ) (t : Nat) :
    r.process_seq x t = r.process_all ((List.range t).map (fun k => x (k + 1))) := by
  induction t with
  | zero => rfl
  | succ t ih =>
    simp only [c_resampler.process_seq, ih, c_resampler.process_all, List.range_succ,
      List.map_append, List.foldl_append, List.map_cons, List.map_nil, List.foldl_cons,
      List.foldl_nil]

theorem window_inv_step (x : Nat → ℚ) (t : Nat) (r : c_resampler) (h : window_inv x t r) :
    window_inv x (t + 1) (r.process (x (t + 1))) := by
  obtain ⟨h0, h3, hw⟩ := h
  refine ⟨?_, ?_, ?_⟩
  · rw [process_input_buf_index]
    omega
  · rw [process_input_buf_index]
    omega
  · intro j hj1 hj4 hjt
    rw [process_input_buf, process_input_buf_index]
    have hs : ((r.input_buf_index - 1) % 4 + (j : Int)) % 4
        = (r.input_buf_index + ((j - 1 : Nat) : Int)) % 4 := by omega
    rw [hs]
    rcases Nat.eq_or_lt_of_le hj1 with hj | hj
    · subst hj
      have e : (r.input_buf_index + ((1 - 1 : Nat) : Int)) % 4 = r.input_buf_index := by omega
      rw [e]
      constructor
      · rw [Function.update_same]
        rfl
      · rw [Function.update_noteq (by omega), Function.update_same]
        rfl
    · obtain ⟨a, b⟩ := hw (j - 1) (by omega) (by omega) (by omega)
      have e : t + 1 - (j - 1) = t + 1 + 1 - j := by omega
      rw [e] at a b
      constructor
      · rw [Function.update_noteq (by omega), Function.update_noteq (by omega)]
        exact a
      · rw [Function.update_noteq (by omega), Function.update_noteq (by omega)]
        exact b

theorem window_inv_seq (x : Nat → ℚ) (t : Nat) (r : c_resampler)
    (h0 : 0 ≤ r.input_buf_index) (h3 : r.input_buf_index ≤ 3) :
    window_inv x t (r.process_seq x t) := by
  induction t with
  | zero => exact ⟨h0, h3, fun j h1 _ h2 => by omega⟩
  | succ t ih => exact window_inv_step x t _ ih

/-- The slot read as tap number `j` by the call after `s` earlier calls holds
the input of `j` calls before. -/
theorem tap_value (x : Nat → ℚ) (s : Nat) (r : c_resampler) (h : window_inv x s r)
    (j : Nat) (hj3 : j ≤ 3) (hjs : j ≤ s) :
    (r.process (x (s + 1))).input_buf (r.input_buf_index + j) = x (s + 1 - j) := by
  obtain ⟨_, _, hw⟩ := window_inv_step x s r h
  obtain ⟨h0, h3, _⟩ := h
  obtain ⟨a, b⟩ := hw (j + 1) (by omega) (by omega) (by omega)
  rw [process_input_buf_index] at a b
  have e : s + 1 + 1 - (j + 1) = s + 1 - j := by omega
  rw [e] at a b
  have hs : ((r.input_buf_index - 1) % 4 + ((j + 1 : Nat) : Int)) % 4
      = (r.input_buf_index + j) % 4 := by omega
  rw [hs] at a b
  rcases lt_or_le (r.input_buf_index + (j : Int)) 4 with hlt | hge
  · have e2 : (r.input_buf_index + (j : Int)) % 4 = r.input_buf_index + j := by omega
    rw [e2] at a
    exact a
  · have e2 : (r.input_buf_index + (j : Int)) % 4 + 4 = r.input_buf_index + j := by omega
    rw [e2] at b
    exact b

theorem emit_call_cast (m : ℚ) (hm : 2 ≤ m) (k : Nat) :
    (emit_call m k : Int) = ⌊(k : ℚ) * m⌋ + 2 := by
  have h0 : 0 ≤ ⌊(k : ℚ) * m⌋ := Int.floor_nonneg.mpr (by positivity)
  unfold emit_call
  omega

/-- Consecutive outputs are at least two calls apart. -/
theorem floor_step (m : ℚ) (hm : 2 ≤ m) (k : Nat) :
    ⌊(k : ℚ) * m⌋ + 2 ≤ ⌊((k + 1 : Nat) : ℚ) * m⌋ := by
  apply Int.le_floor.mpr
  have := Int.floor_le ((k : ℚ) * m)
  push_cast
  linarith

theorem emit_time_lt_succ (m : ℚ) (hm : 2 ≤ m) (k : Nat) :
    emit_time m k < emit_time m (k + 1) := by
  have h1 := emit_call_cast m hm (k + 1)
  have h2 := emit_call_cast m hm k
  have h3 := floor_step m hm k
  have h0 : 0 ≤ ⌊(k : ℚ) * m⌋ := Int.floor_nonneg.mpr (by positivity)
  unfold emit_time
  rw [if_neg (Nat.succ_ne_zero k)]
  split <;> omega

theorem emit_time_strictMono (m : ℚ) (hm : 2 ≤ m) : StrictMono (emit_time m) :=
  strictMono_nat_of_lt_succ (emit_time_lt_succ m hm)

theorem ctor_countdown_inv (input_rate output_rate : ℚ) (h0 : 0 < output_rate)
    (h1 : 2 * output_rate ≤ input_rate) :
    countdown_inv (input_rate / output_rate) 0 (c_resampler.ctor input_rate output_rate) := by
  have hm := ratio_ge_two input_rate output_rate h0 h1
  have hc := emit_call_cast (input_rate / output_rate) hm 1
  have hf : 0 ≤ ⌊input_rate / output_rate⌋ := Int.floor_nonneg.mpr (by linarith)
  refine ⟨0, rfl, rfl, ?_, ?_, by simp [emit_time], ?_⟩
  · simp only [c_resampler.ctor, float_to_int_of_nonneg _ (by linarith : (0 : ℚ) ≤ _),
      Int.fract]
    norm_num
  · simp only [c_resampler.ctor, float_to_int_of_nonneg _ (by linarith : (0 : ℚ) ≤ _),
      emit_time]
    norm_num at hc ⊢
    omega
  · simp only [emit_time]
    norm_num at hc ⊢
    omega

theorem process_countdown_inv (m : ℚ) (hm : 2 ≤ m) (t : Nat) (r : c_resampler) (sample : ℚ)
    (h : countdown_inv m t r) : countdown_inv m (t + 1) (r.process sample) := by
  obtain ⟨k, e_m, e_i, e_f, e_s, hlo, hhi⟩ := h
  by_cases h1 : r.samples_required = 1
  · -- the call emits output `k + 1`
    obtain ⟨p1, p2, p3, _⟩ := process_emit r sample h1
    have hfr := Int.fract_nonneg (((k + 1 : Nat) : ℚ) * m)
    have hn0 : (0 : ℚ) ≤ r.m - (2 - r.mf) := by rw [e_m, e_f]; linarith
    have hn : r.m - (2 - r.mf)
        = ((k + 2 : Nat) : ℚ) * m - ((⌊((k + 1 : Nat) : ℚ) * m⌋ + 2 : Int) : ℚ) := by
      rw [e_m, e_f, Int.fract]
      push_cast
      ring
    have hfl : ⌊r.m - (2 - r.mf)⌋
        = ⌊((k + 2 : Nat) : ℚ) * m⌋ - (⌊((k + 1 : Nat) : ℚ) * m⌋ + 2) := by
      rw [hn, Int.floor_sub_int]
    have c1 := emit_call_cast m hm (k + 1)
    have c2 := emit_call_cast m hm (k + 2)
    have hst : ⌊((k + 1 : Nat) : ℚ) * m⌋ + 2 ≤ ⌊((k + 2 : Nat) : ℚ) * m⌋ :=
      floor_step m hm (k + 1)
    rw [float_to_int_of_nonneg _ hn0, hfl] at p1 p2
    have et1 : emit_time m (k + 1) = emit_call m (k + 1) := by simp [emit_time]
    have et2 : emit_time m (k + 1 + 1) = emit_call m (k + 2) := by simp [emit_time]
    refine ⟨k + 1, by rw [process_m, e_m], by rw [p3, e_i]; push_cast; ring, ?_, ?_, ?_, ?_⟩
    · show (r.process sample).mf = Int.fract (((k + 2 : Nat) : ℚ) * m)
      rw [p1, hn, Int.fract]
      push_cast
      ring
    · rw [p2, et2, c2]
      rw [h1, et1, c1] at e_s
      omega
    · rw [h1, et1] at e_s
      rw [et1]
      omega
    · rw [h1, et1, c1] at e_s
      rw [et2]
      have : (emit_call m (k + 2) : Int) > (t : Int) + 1 := by
        rw [c2]
        omega
      omega
  · obtain ⟨p1, p2, p3, _⟩ := process_idle_fields r sample h1
    refine ⟨k, by rw [process_m, e_m], by rw [p3, e_i], by rw [p1, e_f], ?_, by omega, ?_⟩
    · rw [p2, e_s]
      push_cast
      ring
    · omega

theorem process_seq_countdown_inv (input_rate output_rate : ℚ) (x : Nat → ℚ) (t : Nat)
    (h0 : 0 < output_rate) (h1 : 2 * output_rate ≤ input_rate) :
    countdown_inv (input_rate / output_rate) t
      ((c_resampler.ctor input_rate output_rate).process_seq x t) := by
  induction t with
  | zero => exact ctor_countdown_inv input_rate output_rate h0 h1
  | succ t ih =>
    exact process_countdown_inv _ (ratio_ge_two input_rate output_rate h0 h1) t _ _ ih

/-- The state after `t` calls, for `t` between the calls that emit outputs
`j` and `j + 1`. -/
theorem state_between_outputs (input_rate output_rate : ℚ) (x : Nat → ℚ) (t j : Nat)
    (h0 : 0 < output_rate) (h1 : 2 * output_rate ≤ input_rate)
    (hlo : emit_time (input_rate / output_rate) j ≤ t)
    (hhi : t < emit_time (input_rate / output_rate) (j + 1)) :
    ((c_resampler.ctor input_rate output_rate).process_seq x t).output_buf_index = j ∧
    ((c_resampler.ctor input_rate output_rate).process_seq x t).mf
      = Int.fract (((j + 1 : Nat) : ℚ) * (input_rate / output_rate)) ∧
    ((c_resampler.ctor input_rate output_rate).process_seq x t).samples_required
      = (emit_time (input_rate / output_rate) (j + 1) : Int) - t := by
  have hm := ratio_ge_two input_rate output_rate h0 h1
  have hmono := emit_time_strictMono (input_rate / output_rate) hm
  obtain ⟨k, _, e_i, e_f, e_s, klo, khi⟩ :=
    process_seq_countdown_inv input_rate output_rate x t h0 h1
  have hkj : k = j := by
    rcases lt_trichotomy k j with h | h | h
    · have := hmono.monotone (show k + 1 ≤ j by omega)
      omega
    · exact h
    · have := hmono.monotone (show j + 1 ≤ k by omega)
      omega
  subst hkj
  exact ⟨e_i, e_f, e_s⟩

/-- In exact arithmetic at a constant step ratio `m = input_rate / output_rate ≥ 2`,
output sample `k ≥ 1` is produced during call number `floor(k*m) + 2`, with
the phase `frac(k*m)`, and the phase left after it is `frac((k+1)*m)`. -/
theorem exact_output_times (input_rate output_rate : ℚ) (x : Nat → ℚ) (k : Nat)
    (h0 : 0 < output_rate) (h1 : 2 * output_rate ≤ input_rate) (hk : 1 ≤ k) :
    (emit_call (input_rate / output_rate) k : Int)
      = ⌊(k : ℚ) * (input_rate / output_rate)⌋ + 2 ∧
    ((c_resampler.ctor input_rate output_rate).process_seq x
        (emit_call (input_rate / output_rate) k - 1)).output_buf_index = (k : Int) - 1 ∧
    ((c_resampler.ctor input_rate output_rate).process_seq x
        (emit_call (input_rate / output_rate) k - 1)).samples_required = 1 ∧
    ((c_resampler.ctor input_rate output_rate).process_seq x
        (emit_call (input_rate / output_rate) k - 1)).mf
      = Int.fract ((k : ℚ) * (input_rate / output_rate)) ∧
    ((c_resampler.ctor input_rate output_rate).process_seq x
        (emit_call (input_rate / output_rate) k)).output_buf_index = k ∧
    ((c_resampler.ctor input_rate output_rate).process_seq x
        (emit_call (input_rate / output_rate) k)).mf
      = Int.fract (((k + 1 : Nat) : ℚ) * (input_rate / output_rate)) ∧
    ∀ t : Nat,
      (k : Int) ≤ ((c_resampler.ctor input_rate output_rate).process_seq x t).output_buf_index
        ↔ emit_call (input_rate / output_rate) k ≤ t := by
  have hm := ratio_ge_two input_rate output_rate h0 h1
  have hmono := emit_time_strictMono (input_rate / output_rate) hm
  have hcast := emit_call_cast (input_rate / output_rate) hm k
  obtain ⟨j, rfl⟩ : ∃ j, k = j + 1 := ⟨k - 1, by omega⟩
  have ek : emit_time (input_rate / output_rate) (j + 1)
      = emit_call (input_rate / output_rate) (j + 1) := by simp [emit_time]
  have hlt := emit_time_lt_succ (input_rate / output_rate) hm j
  have hlt2 := emit_time_lt_succ (input_rate / output_rate) hm (j + 1)
  rw [ek] at hlt hlt2
  obtain ⟨a1, a2, a3⟩ := state_between_outputs input_rate output_rate x
    (emit_call (input_rate / output_rate) (j + 1) - 1) j h0 h1 (by omega)
    (by rw [ek]; omega)
  obtain ⟨b1, b2, _⟩ := state_between_outputs input_rate output_rate x
    (emit_call (input_rate / output_rate) (j + 1)) (j + 1) h0 h1 (by rw [ek]) hlt2
  refine ⟨hcast, by rw [a1]; push_cast; ring, by rw [a3, ek]; omega, a2, b1, b2, ?_⟩
  intro t
  obtain ⟨k', _, e_i, _, _, klo, khi⟩ :=
    process_seq_countdown_inv input_rate output_rate x t h0 h1
  rw [e_i, ← ek]
  constructor
  · intro h
    have hle : j + 1 ≤ k' := by exact_mod_cast h
    exact le_trans (hmono.monotone hle) klo
  · intro h
    have hlt3 : emit_time (input_rate / output_rate) (j + 1)
        < emit_time (input_rate / output_rate) (k' + 1) := lt_of_le_of_lt h khi
    have := hmono.lt_iff_lt.mp hlt3
    exact_mod_cast Nat.lt_succ_iff.mp this

/-! ## Lemmas: resampler in single precision -/

theorem cast_int_of_nonneg (x : ℚ) (h0 : 0 ≤ x) (h1 : x < 2147483648) : cast_int x = ⌊x⌋ := by
  unfold cast_int float_to_int float_to_int32
  rw [if_pos h0]
  have h2 : 0 ≤ ⌊x⌋ := Int.floor_nonneg.mpr h0
  have h3 : ⌊x⌋ < 2147483648 := Int.floor_lt.mpr (by push_cast; exact h1)
  rw [if_pos ⟨by omega, by omega⟩]

theorem process_f32_input_rate (r : c_resampler) (sample : ℚ) :
    (r.process_f32 sample).input_rate = r.input_rate := by
  simp only [c_resampler.process_f32]
  split <;> rfl

theorem process_f32_m (r : c_resampler) (sample : ℚ) : (r.process_f32 sample).m = r.m := by
  simp only [c_resampler.process_f32]
  split <;> rfl

theorem process_f32_mf (r : c_resampler) (sample : ℚ) :
    (r.process_f32 sample).mf
      = if wrap32 (r.samples_required - 1) = 0 then
          f32 (f32 (r.m - f32 (2 - r.mf)) - f32 (cast_int (f32 (r.m - f32 (2 - r.mf)))))
        else r.mf := by
  simp only [c_resampler.process_f32]
  split <;> rfl

theorem process_f32_samples_required (r : c_resampler) (sample : ℚ) :
    (r.process_f32 sample).samples_required
      = if wrap32 (r.samples_required - 1) = 0 then
          wrap32 (cast_int (f32 (r.m - f32 (2 - r.mf))) + 2)
        else wrap32 (r.samples_required - 1) := by
  simp only [c_resampler.process_f32]
  split <;> rfl

theorem process_f32_output_buf_index (r : c_resampler) (sample : ℚ) :
    (r.process_f32 sample).output_buf_index
      = if wrap32 (r.samples_required - 1) = 0 then r.output_buf_index + 1
        else r.output_buf_index := by
  simp only [c_resampler.process_f32]
  split <;> rfl

theorem process_f32_input_buf (r : c_resampler) (sample : ℚ) :
    (r.process_f32 sample).input_buf =
      Function.update (Function.update r.input_buf (r.input_buf_index + 4) sample)
        r.input_buf_index sample := by
  simp only [c_resampler.process_f32, INPUT_BUF_LEN]
  split <;> rfl

theorem process_f32_input_buf_index (r : c_resampler) (sample : ℚ) :
    (r.process_f32 sample).input_buf_index = (r.input_buf_index - 1) % 4 := by
  simp only [c_resampler.process_f32]
  split <;> rfl

theorem process_f32_output_buf (r : c_resampler) (sample : ℚ) :
    (r.process_f32 sample).output_buf
      = if wrap32 (r.samples_required - 1) = 0 then
          Function.update r.output_buf r.output_buf_index
            (scale_sample_f32 (bspline_f32
              ((r.process_f32 sample).input_buf (r.input_buf_index + 3))
              ((r.process_f32 sample).input_buf (r.input_buf_index + 2))
              ((r.process_f32 sample).input_buf (r.input_buf_index + 1))
              ((r.process_f32 sample).input_buf r.input_buf_index) r.mf))
        else r.output_buf := by
  rw [process_f32_input_buf]
  simp only [c_resampler.process_f32, INPUT_BUF_LEN]
  split <;> rfl

/-- The phase computed from a non-negative float `n` that fits an `int` is
the fractional part of `n`, without rounding. -/
theorem phase_of_float (n : ℚ) (hn : is_f32 n) (h0 : 0 ≤ n) (h1 : n < 2147483648) :
    f32 (n - f32 (cast_int n)) = n - ⌊n⌋ ∧ cast_int n = ⌊n⌋ := by
  obtain ⟨f1, f2⟩ := is_f32_floor_fract n hn h0
  rw [cast_int_of_nonneg n h0 h1, f1, f2]
  exact ⟨rfl, rfl⟩

theorem ctor_phase_inv_f32 (input_rate output_rate : ℚ)
    (h1 : 2 ≤ f32 (input_rate / output_rate))
    (h2 : f32 (input_rate / output_rate) < 2147483648) :
    phase_inv_f32 input_rate (c_resampler.ctor_f32 input_rate output_rate) := by
  have hf : is_f32 (f32 (input_rate / output_rate)) := by
    apply is_f32_of_f32
    rw [abs_of_nonneg (by linarith)]
    have : (2147483648 : ℚ) < 2 ^ (128 : Int) := by norm_num
    linarith
  obtain ⟨e, _⟩ := phase_of_float _ hf (by linarith) h2
  have hb := fract_bounds (f32 (input_rate / output_rate))
  refine ⟨rfl, hf, h1, h2, ?_, ?_⟩
  · show 0 ≤ f32 (f32 (input_rate / output_rate)
      - f32 (cast_int (f32 (input_rate / output_rate))))
    rw [e]
    exact hb.1
  · show f32 (f32 (input_rate / output_rate)
      - f32 (cast_int (f32 (input_rate / output_rate)))) < 1
    rw [e]
    exact hb.2

theorem process_phase_inv_f32 (input_rate : ℚ) (r : c_resampler) (sample : ℚ)
    (h : phase_inv_f32 input_rate r) : phase_inv_f32 input_rate (r.process_f32 sample) := by
  obtain ⟨hr, hmf, hm, hm2, hf0, hf1⟩ := h
  refine ⟨by rw [process_f32_input_rate, hr], by rw [process_f32_m]; exact hmf,
    by rw [process_f32_m]; exact hm, by rw [process_f32_m]; exact hm2, ?_⟩
  rw [process_f32_mf]
  by_cases h1 : wrap32 (r.samples_required - 1) = 0
  · rw [if_pos h1]
    have he1 : 1 ≤ f32 (2 - r.mf) := by
      have := f32_mono (show (1 : ℚ) ≤ 2 - r.mf by linarith)
      rwa [f32_one] at this
    have he2 : f32 (2 - r.mf) ≤ 2 := by
      have := f32_mono (show 2 - r.mf ≤ (2 : ℚ) by linarith)
      rwa [f32_two] at this
    have hn0 : 0 ≤ f32 (r.m - f32 (2 - r.mf)) := f32_nonneg (by linarith)
    have hn1 : f32 (r.m - f32 (2 - r.mf)) ≤ r.m := by
      have := f32_mono (show r.m - f32 (2 - r.mf) ≤ r.m by linarith)
      rwa [hmf] at this
    have hnf : is_f32 (f32 (r.m - f32 (2 - r.mf))) := by
      apply is_f32_of_f32
      rw [abs_of_nonneg hn0]
      have : (2147483648 : ℚ) < 2 ^ (128 : Int) := by norm_num
      linarith
    obtain ⟨e, _⟩ := phase_of_float _ hnf hn0 (by linarith)
    have hb := fract_bounds (f32 (r.m - f32 (2 - r.mf)))
    rw [e]
    exact hb
  · rw [if_neg h1]
    exact ⟨hf0, hf1⟩

theorem run_phase_inv_f32 (input_rate : ℚ) (ops : List resampler_op) (r : c_resampler)
    (h : phase_inv_f32 input_rate r) (hops : ratios_in_range input_rate ops) :
    phase_inv_f32 input_rate (resampler_run_f32 r ops) := by
  induction ops generalizing r with
  | nil => exact h
  | cons op ops ih =>
    simp only [resampler_run_f32, List.foldl_cons]
    refine ih _ ?_ (fun op1 h1 => hops op1 (by simp [h1]))
    cases op with
    | process sample => exact process_phase_inv_f32 input_rate r sample h
    | set_output_rate rate =>
      obtain ⟨hr, _, _, _, hf0, hf1⟩ := h
      obtain ⟨p0, p1⟩ := hops _ (by simp) rate rfl
      have hf : is_f32 (f32 (input_rate / rate)) := by
        apply is_f32_of_f32
        rw [abs_of_nonneg (by linarith)]
        have : (2147483648 : ℚ) < 2 ^ (128 : Int) := by norm_num
        linarith
      refine ⟨hr, ?_, ?_, ?_, hf0, hf1⟩
      · show is_f32 (f32 (r.input_rate / rate))
        rw [hr]
        exact hf
      · show 2 ≤ f32 (r.input_rate / rate)
        rw [hr]
        exact p0
      · show f32 (r.input_rate / rate) < 2147483648
        rw [hr]
        exact p1
    | get_output_buf => exact h


/-- With a float step ratio `m`, `2 ≤ m < 2^24`, and a phase in `[0, 1)` that
is a multiple of the float spacing at `m`, every float operation of the phase
update of `process` is exact. -/
theorem phase_update_exact (m mf : ℚ) (hm : is_f32 m) (h2 : 2 ≤ m) (h24 : m < 16777216)
    (hg : on_grid (f32_exp m - 23) mf) (hf0 : 0 ≤ mf) (hf1 : mf < 1) :
    f32 (2 - mf) = 2 - mf ∧
    f32 (m - (2 - mf)) = m - (2 - mf) ∧
    cast_int (m - (2 - mf)) = ⌊m - (2 - mf)⌋ ∧
    f32 ((⌊m - (2 - mf)⌋ : Int) : ℚ) = ((⌊m - (2 - mf)⌋ : Int) : ℚ) ∧
    f32 (m - (2 - mf) - ((⌊m - (2 - mf)⌋ : Int) : ℚ))
      = m - (2 - mf) - ((⌊m - (2 - mf)⌋ : Int) : ℚ) ∧
    on_grid (f32_exp m - 23) (m - (2 - mf) - ((⌊m - (2 - mf)⌋ : Int) : ℚ)) ∧
    0 ≤ ⌊m - (2 - mf)⌋ ∧ ⌊m - (2 - mf)⌋ < 16777216 := by
  obtain ⟨g1, g2, gm, gb⟩ := step_ratio_grid m hm h2 h24
  have gtwo : on_grid (f32_exp m - 23) 2 := by
    simpa using on_grid_intCast g2 2
  have ge : on_grid (f32_exp m - 23) (2 - mf) := on_grid_sub gtwo hg
  have e1 : f32 (2 - mf) = 2 - mf :=
    f32_of_on_grid ge (by omega) (by rw [abs_of_nonneg (by linarith)]; linarith)
  have gn : on_grid (f32_exp m - 23) (m - (2 - mf)) := on_grid_sub gm ge
  have hn0 : 0 ≤ m - (2 - mf) := by linarith
  have hn1 : m - (2 - mf) < m := by linarith
  have e2 : f32 (m - (2 - mf)) = m - (2 - mf) :=
    f32_of_on_grid gn (by omega) (by rw [abs_of_nonneg hn0]; linarith)
  have e3 := cast_int_of_nonneg (m - (2 - mf)) hn0 (by linarith)
  have hfl0 : 0 ≤ ⌊m - (2 - mf)⌋ := Int.floor_nonneg.mpr hn0
  have hfl1 : ⌊m - (2 - mf)⌋ < 16777216 := Int.floor_lt.mpr (by push_cast; linarith)
  have e4 : f32 ((⌊m - (2 - mf)⌋ : Int) : ℚ) = ((⌊m - (2 - mf)⌋ : Int) : ℚ) := by
    apply f32_intCast
    rw [abs_of_nonneg hfl0]
    omega
  have gfr : on_grid (f32_exp m - 23) (m - (2 - mf) - ((⌊m - (2 - mf)⌋ : Int) : ℚ)) :=
    on_grid_sub gn (on_grid_intCast g2 _)
  have hb := fract_bounds (m - (2 - mf))
  have e5 : f32 (m - (2 - mf) - ((⌊m - (2 - mf)⌋ : Int) : ℚ))
      = m - (2 - mf) - ((⌊m - (2 - mf)⌋ : Int) : ℚ) :=
    f32_of_on_grid gfr (by omega) (by rw [abs_of_nonneg hb.1]; linarith [hb.2])
  exact ⟨e1, e2, e3, e4, e5, gfr, hfl0, hfl1⟩

/-- The constructor in single precision and the exact constructor at the
stored step ratio start in matching states. -/
theorem ctor_exact_phase_inv (input_rate output_rate : ℚ)
    (h2 : 2 ≤ f32 (input_rate / output_rate))
    (h24 : f32 (input_rate / output_rate) < 16777216) :
    exact_phase_inv (f32 (input_rate / output_rate))
      (c_resampler.ctor_f32 input_rate output_rate)
      (c_resampler.ctor (f32 (input_rate / output_rate)) 1) := by
  have hf : is_f32 (f32 (input_rate / output_rate)) := by
    apply is_f32_of_f32
    rw [abs_of_nonneg (by linarith)]
    have : (16777216 : ℚ) < 2 ^ (128 : Int) := by norm_num
    linarith
  obtain ⟨_, g2, gm, _⟩ := step_ratio_grid _ hf h2 h24
  obtain ⟨e, ec⟩ := phase_of_float _ hf (by linarith) (by linarith)
  have hb := fract_bounds (f32 (input_rate / output_rate))
  have hfl0 : 0 ≤ ⌊f32 (input_rate / output_rate)⌋ := Int.floor_nonneg.mpr (by linarith)
  have hfl2 : 2 ≤ ⌊f32 (input_rate / output_rate)⌋ := Int.le_floor.mpr (by push_cast; exact h2)
  have hfl1 : ⌊f32 (input_rate / output_rate)⌋ < 16777216 :=
    Int.floor_lt.mpr (by push_cast; exact h24)
  have hfi : float_to_int (f32 (input_rate / output_rate))
      = ⌊f32 (input_rate / output_rate)⌋ := float_to_int_of_nonneg _ (by linarith)
  refine ⟨rfl, ?_, ?_, ?_, rfl, ?_, ?_, ?_, ?_, ?_, hf⟩
  · show f32 (input_rate / output_rate) / 1 = f32 (input_rate / output_rate)
    exact div_one _
  · show f32 (f32 (input_rate / output_rate) - f32 (cast_int (f32 (input_rate / output_rate))))
      = f32 (input_rate / output_rate) / 1 - float_to_int (f32 (input_rate / output_rate) / 1)
    rw [e, div_one, hfi]
  · show wrap32 (cast_int (f32 (input_rate / output_rate)) + 2)
      = float_to_int (f32 (input_rate / output_rate) / 1) + 2
    rw [ec, div_one, hfi]
    exact wrap32_of_bounds _ (by omega) (by omega)
  · show on_grid _ (f32 (input_rate / output_rate) / 1
      - float_to_int (f32 (input_rate / output_rate) / 1))
    rw [div_one, hfi]
    exact on_grid_sub gm (on_grid_intCast g2 _)
  · show 0 ≤ f32 (input_rate / output_rate) / 1
      - float_to_int (f32 (input_rate / output_rate) / 1)
    rw [div_one, hfi]
    exact hb.1
  · show f32 (input_rate / output_rate) / 1
      - float_to_int (f32 (input_rate / output_rate) / 1) < 1
    rw [div_one, hfi]
    exact hb.2
  · show 1 ≤ float_to_int (f32 (input_rate / output_rate) / 1) + 2
    rw [div_one, hfi]
    omega
  · show float_to_int (f32 (input_rate / output_rate) / 1) + 2 ≤ 16777218
    rw [div_one, hfi]
    omega

/-- One `process` call keeps the single-precision object and the exact one
in matching states. -/
theorem process_exact_phase_inv (m : ℚ) (h2 : 2 ≤ m) (h24 : m < 16777216)
    (a b : c_resampler) (sample : ℚ) (h : exact_phase_inv m a b) :
    exact_phase_inv m (a.process_f32 sample) (b.process sample) := by
  obtain ⟨ha, hb, hmf, hsr, hidx, hg, hf0, hf1, hs1, hs2, hm⟩ := h
  have hw : wrap32 (a.samples_required - 1) = b.samples_required - 1 := by
    rw [hsr]
    exact wrap32_of_bounds _ (by omega) (by omega)
  by_cases h1 : b.samples_required = 1
  · obtain ⟨p1, p2, p3, _⟩ := process_emit b sample h1
    obtain ⟨e1, e2, e3, e4, e5, gfr, hfl0, hfl1⟩ := phase_update_exact m b.mf hm h2 h24 hg hf0 hf1
    have hb2 := fract_bounds (m - (2 - b.mf))
    have hfi : float_to_int (m - (2 - b.mf)) = ⌊m - (2 - b.mf)⌋ :=
      float_to_int_of_nonneg _ (by linarith)
    have hw0 : wrap32 (a.samples_required - 1) = 0 := by
      rw [hw, h1]
      norm_num
    rw [hb, hfi] at p1 p2
    refine ⟨by rw [process_f32_m, ha], by rw [process_m, hb], ?_, ?_, ?_, ?_, ?_, ?_, ?_, ?_, hm⟩
    · rw [process_f32_mf, if_pos hw0, ha, hmf, e1, e2, e3, e4, e5, p1]
    · rw [process_f32_samples_required, if_pos hw0, ha, hmf, e1, e2, e3, p2]
      exact wrap32_of_bounds _ (by omega) (by omega)
    · rw [process_f32_output_buf_index, if_pos hw0, p3, hidx]
    · rw [p1]
      exact gfr
    · rw [p1]
      exact hb2.1
    · rw [p1]
      exact hb2.2
    · rw [p2]
      omega
    · rw [p2]
      omega
  · obtain ⟨p1, p2, p3, _⟩ := process_idle_fields b sample h1
    have hw0 : wrap32 (a.samples_required - 1) ≠ 0 := by
      rw [hw]
      omega
    refine ⟨by rw [process_f32_m, ha], by rw [process_m, hb], ?_, ?_, ?_, ?_, ?_, ?_, ?_, ?_, hm⟩
    · rw [process_f32_mf, if_neg hw0, p1, hmf]
    · rw [process_f32_samples_required, if_neg hw0, p2, hw]
    · rw [process_f32_output_buf_index, if_neg hw0, p3, hidx]
    · rw [p1]
      exact hg
    · rw [p1]
      exact hf0
    · rw [p1]
      exact hf1
    · rw [p2]
      omega
    · rw [p2]
      omega

theorem process_seq_exact_phase_inv (input_rate output_rate : ℚ) (x : Nat → ℚ) (t : Nat)
    (h2 : 2 ≤ f32 (input_rate / output_rate))
    (h24 : f32 (input_rate / output_rate) < 16777216) :
    exact_phase_inv (f32 (input_rate / output_rate))
      ((c_resampler.ctor_f32 input_rate output_rate).process_seq_f32 x t)
      ((c_resampler.ctor (f32 (input_rate / output_rate)) 1).process_seq x t) := by
  induction t with
  | zero => exact ctor_exact_phase_inv input_rate output_rate h2 h24
  | succ t ih => exact process_exact_phase_inv _ h2 h24 _ _ _ ih


/-! ### Equal rates in single precision -/

theorem ctor_unit_f32 (rate : ℚ) (hr : rate ≠ 0) :
    c_resampler.ctor_f32 rate rate =
      { input_rate := rate, output_rate := rate, m := 1, mf := 0, samples_required := 3,
        output_buf_index := 0, input_buf_index := 3,
        output_buf := fun _ => 0, input_buf := fun _ => 0 } := by
  have h1 : cast_int 1 = 1 := by decide!
  have h2 : f32 (1 - f32 ((1 : Int) : ℚ)) = 0 := by decide!
  have h3 : wrap32 (1 + 2) = 3 := by decide
  simp only [c_resampler.ctor_f32, div_self hr, f32_one, h1, h2, h3, INPUT_BUF_LEN]
  norm_num

/-- The fields a `process` call changes when it emits an output sample. -/
theorem process_f32_emit (r : c_resampler) (sample : ℚ) (h : r.samples_required = 1) :
    (r.process_f32 sample).mf
        = f32 (f32 (r.m - f32 (2 - r.mf)) - f32 (cast_int (f32 (r.m - f32 (2 - r.mf))))) ∧
    (r.process_f32 sample).samples_required
        = wrap32 (cast_int (f32 (r.m - f32 (2 - r.mf))) + 2) ∧
    (r.process_f32 sample).output_buf_index = r.output_buf_index + 1 ∧
    (r.process_f32 sample).output_buf
        = Function.update r.output_buf r.output_buf_index
            (scale_sample_f32 (bspline_f32
              ((r.process_f32 sample).input_buf (r.input_buf_index + 3))
              ((r.process_f32 sample).input_buf (r.input_buf_index + 2))
              ((r.process_f32 sample).input_buf (r.input_buf_index + 1))
              ((r.process_f32 sample).input_buf r.input_buf_index) r.mf)) := by
  have h0 : wrap32 (r.samples_required - 1) = 0 := by
    rw [h]
    decide
  rw [process_f32_mf, process_f32_samples_required, process_f32_output_buf_index,
    process_f32_output_buf, if_pos h0, if_pos h0, if_pos h0, if_pos h0]
  exact ⟨rfl, rfl, rfl, rfl⟩

/-- The fields a `process` call leaves alone when it emits nothing. -/
theorem process_f32_idle_fields (r : c_resampler) (sample : ℚ)
    (h1 : 1 < r.samples_required) (h2 : r.samples_required ≤ 2147483648) :
    (r.process_f32 sample).mf = r.mf ∧
    (r.process_f32 sample).samples_required = r.samples_required - 1 ∧
    (r.process_f32 sample).output_buf_index = r.output_buf_index ∧
    (r.process_f32 sample).output_buf = r.output_buf := by
  have hw : wrap32 (r.samples_required - 1) = r.samples_required - 1 :=
    wrap32_of_bounds _ (by omega) (by omega)
  have h0 : wrap32 (r.samples_required - 1) ≠ 0 := by
    rw [hw]
    omega
  rw [process_f32_mf, process_f32_samples_required, process_f32_output_buf_index,
    process_f32_output_buf, if_neg h0, if_neg h0, if_neg h0, if_neg h0]
  exact ⟨rfl, hw, rfl, rfl⟩

/-- At the step ratio 1 and phase 0 the phase update gives phase 0 and
countdown 1 again. -/
theorem unit_phase_update :
    f32 (f32 (1 - f32 (2 - 0)) - f32 (cast_int (f32 (1 - f32 (2 - 0))))) = 0 ∧
    wrap32 (cast_int (f32 (1 - f32 (2 - 0))) + 2) = 1 := by
  decide!

theorem unit_steady_step_f32 (c : ℚ) (r : c_resampler) (h : unit_steady c r) :
    unit_steady c (r.process_f32 c) ∧
    (r.process_f32 c).output_buf_index = r.output_buf_index + 1 ∧
    (r.process_f32 c).output_buf
      = Function.update r.output_buf r.output_buf_index
          (scale_sample_f32 (bspline_f32 c c c c 0)) := by
  obtain ⟨hm, hmf, hsr, hi0, hi3, hbuf⟩ := h
  obtain ⟨e1, e2, e3, e4⟩ := process_f32_emit r c hsr
  have hbuf2 : ∀ i, 0 ≤ i → i < 8 → (r.process_f32 c).input_buf i = c := by
    intro i h0 h8
    rw [process_f32_input_buf]
    simp only [Function.update, eq_rec_constant, dite_eq_ite]
    split
    · rfl
    · split
      · rfl
      · exact hbuf i h0 h8
  rw [hm, hmf] at e1 e2
  rw [unit_phase_update.1] at e1
  rw [unit_phase_update.2] at e2
  rw [hbuf2 _ (by omega) (by omega), hbuf2 _ (by omega) (by omega),
    hbuf2 _ (by omega) (by omega), hbuf2 _ hi0 (by omega), hmf] at e4
  refine ⟨⟨by rw [process_f32_m, hm], e1, e2, ?_, ?_, hbuf2⟩, e3, e4⟩
  · rw [process_f32_input_buf_index]
    omega
  · rw [process_f32_input_buf_index]
    omega

theorem unit_steady_run_f32 (c : ℚ) (k : Nat) (r : c_resampler) (h : unit_steady c r) :
    unit_steady c (r.process_all_f32 (List.replicate k c)) ∧
    (r.process_all_f32 (List.replicate k c)).output_buf_index = r.output_buf_index + k ∧
    ∀ j, ((j < r.output_buf_index →
            (r.process_all_f32 (List.replicate k c)).output_buf j = r.output_buf j) ∧
          (r.output_buf_index ≤ j → j < r.output_buf_index + k →
            (r.process_all_f32 (List.replicate k c)).output_buf j
              = scale_sample_f32 (bspline_f32 c c c c 0))) := by
  induction k generalizing r with
  | zero =>
    simp only [List.replicate, c_resampler.process_all_f32, List.foldl_nil]
    refine ⟨h, by simp, fun j => ⟨fun _ => ?_, fun h1 h2 => ?_⟩⟩
    · trivial
    · simp at h2
      omega
  | succ k ih =>
    obtain ⟨hs, hidx, hbuf⟩ := unit_steady_step_f32 c r h
    obtain ⟨ih1, ih2, ih3⟩ := ih (r.process_f32 c) hs
    simp only [List.replicate, c_resampler.process_all_f32, List.foldl_cons] at *
    refine ⟨ih1, by rw [ih2, hidx]; push_cast; ring, fun j => ⟨fun hj => ?_, fun h1 h2 => ?_⟩⟩
    · rw [(ih3 j).1 (by omega), hbuf, Function.update_noteq (by omega)]
    · rcases eq_or_lt_of_le h1 with he | hl
      · rw [(ih3 j).1 (by omega), hbuf, ← he, Function.update_same]
      · push_cast at h2
        exact (ih3 j).2 (by omega) (by omega)

theorem unit_warm_step_f32 (t : Int) (c : ℚ) (r : c_resampler) (ht1 : 1 ≤ t) (ht4 : t ≤ 4)
    (h : unit_warm t c r) :
    (r.process_f32 c).m = 1 ∧ (r.process_f32 c).input_buf_index = (t - 2) % 4 ∧
    ∀ i, 0 ≤ i → i < 8 → (r.process_f32 c).input_buf i = if t - 1 ≤ i % 4 then c else 0 := by
  obtain ⟨hm, _, hidx, hbuf⟩ := h
  refine ⟨by rw [process_f32_m, hm],
    by rw [process_f32_input_buf_index, hidx]; congr 1; ring, ?_⟩
  intro i h0 h8
  rw [process_f32_input_buf, hidx]
  simp only [Function.update, eq_rec_constant, dite_eq_ite]
  split
  · rw [if_pos (by omega)]
  · split
    · rw [if_pos (by omega)]
    · rw [hbuf i h0 h8]
      by_cases ht : t ≤ i % 4
      · rw [if_pos ht, if_pos (by omega)]
      · rw [if_neg ht, if_neg (by omega)]

theorem ctor_unit_warm_f32 (rate c : ℚ) (hr : rate ≠ 0) :
    unit_warm 4 c (c_resampler.ctor_f32 rate rate) ∧
    (c_resampler.ctor_f32 rate rate).samples_required = 3 ∧
    (c_resampler.ctor_f32 rate rate).output_buf_index = 0 := by
  rw [ctor_unit_f32 rate hr]
  refine ⟨⟨rfl, rfl, rfl, ?_⟩, rfl, rfl⟩
  intro i h0 h8
  rw [if_neg (by omega)]

/-- The first three calls at equal rates: two idle calls, then the first
output, interpolated over the window `0, c, c, c`. -/
theorem unit_first_three_f32 (rate c : ℚ) (hr : rate ≠ 0) :
    ((c_resampler.ctor_f32 rate rate).process_f32 c).output_buf_index = 0 ∧
    (((c_resampler.ctor_f32 rate rate).process_f32 c).process_f32 c).output_buf_index = 0 ∧
    unit_warm 1 c
      ((((c_resampler.ctor_f32 rate rate).process_f32 c).process_f32 c).process_f32 c) ∧
    ((((c_resampler.ctor_f32 rate rate).process_f32 c).process_f32 c).process_f32
      c).samples_required = 1 ∧
    ((((c_resampler.ctor_f32 rate rate).process_f32 c).process_f32 c).process_f32
      c).output_buf_index = 1 ∧
    ((((c_resampler.ctor_f32 rate rate).process_f32 c).process_f32 c).process_f32
      c).output_buf 0 = scale_sample_f32 (bspline_f32 0 c c c 0) := by
  obtain ⟨hw0, hs0, ho0⟩ := ctor_unit_warm_f32 rate c hr
  generalize c_resampler.ctor_f32 rate rate = r0 at *
  -- first call: idle
  obtain ⟨hm1, hi1, hb1⟩ := unit_warm_step_f32 4 c r0 (by norm_num) (by norm_num) hw0
  obtain ⟨hf1, hs1, ho1, _⟩ := process_f32_idle_fields r0 c (by omega) (by omega)
  have hw1 : unit_warm 3 c (r0.process_f32 c) :=
    ⟨hm1, by rw [hf1]; exact hw0.2.1, by rw [hi1]; norm_num, by simpa using hb1⟩
  rw [hs0] at hs1
  rw [ho0] at ho1
  generalize r0.process_f32 c = r1 at *
  -- second call: idle
  obtain ⟨hm2, hi2, hb2⟩ := unit_warm_step_f32 3 c r1 (by norm_num) (by norm_num) hw1
  obtain ⟨hf2, hs2, ho2, _⟩ := process_f32_idle_fields r1 c (by omega) (by omega)
  have hw2 : unit_warm 2 c (r1.process_f32 c) :=
    ⟨hm2, by rw [hf2]; exact hw1.2.1, by rw [hi2]; norm_num, by simpa using hb2⟩
  rw [hs1] at hs2
  rw [ho1] at ho2
  generalize r1.process_f32 c = r2 at *
  -- third call: the first output
  obtain ⟨hm3, hi3, hb3⟩ := unit_warm_step_f32 2 c r2 (by norm_num) (by norm_num) hw2
  obtain ⟨hf3, hs3, ho3, hob3⟩ := process_f32_emit r2 c (by omega)
  obtain ⟨hm, hmf, hidx, _⟩ := hw2
  rw [hm, hmf, unit_phase_update.1] at hf3
  rw [hm, hmf, unit_phase_update.2] at hs3
  refine ⟨ho1, ho2, ⟨hm3, hf3, by rw [hi3]; norm_num, by simpa using hb3⟩,
    hs3, by rw [ho3, ho2]; norm_num, ?_⟩
  rw [hob3, ho2, Function.update_same, hidx, hmf,
    hb3 _ (by norm_num) (by norm_num), hb3 _ (by norm_num) (by norm_num),
    hb3 _ (by norm_num) (by norm_num), hb3 _ (by norm_num) (by norm_num)]
  norm_num

/-- The fourth call at equal rates emits the value interpolated over a
constant window and reaches the steady state. -/
theorem unit_fourth_f32 (c : ℚ) (r : c_resampler) (hw : unit_warm 1 c r)
    (hs : r.samples_required = 1) :
    unit_steady c (r.process_f32 c) ∧
    (r.process_f32 c).output_buf_index = r.output_buf_index + 1 ∧
    (r.process_f32 c).output_buf
      = Function.update r.output_buf r.output_buf_index
          (scale_sample_f32 (bspline_f32 c c c c 0)) := by
  obtain ⟨hm4, hi4, hb4⟩ := unit_warm_step_f32 1 c r (by norm_num) (by norm_num) hw
  obtain ⟨hf4, hs4, ho4, hob4⟩ := process_f32_emit r c hs
  obtain ⟨hm, hmf, hidx, _⟩ := hw
  rw [hm, hmf, unit_phase_update.1] at hf4
  rw [hm, hmf, unit_phase_update.2] at hs4
  have hall : ∀ i, 0 ≤ i → i < 8 → (r.process_f32 c).input_buf i = c := by
    intro i h0 h8
    rw [hb4 i h0 h8, if_pos (by omega)]
  refine ⟨⟨hm4, hf4, hs4, by rw [hi4]; norm_num, by rw [hi4]; norm_num, hall⟩, ho4, ?_⟩
  rw [hob4, hidx, hmf, hall _ (by norm_num) (by norm_num), hall _ (by norm_num) (by norm_num),
    hall _ (by norm_num) (by norm_num), hall _ (by norm_num) (by norm_num)]

/-- Feeding `N` copies of `c` at equal rates: `N - 2` outputs, the first
interpolated over a window that still holds an initial 0, the others over a
constant window. -/
theorem unit_ratio_run_f32 (rate c : ℚ) (hr : rate ≠ 0) (N : Nat) :
    ((c_resampler.ctor_f32 rate rate).process_all_f32 (List.replicate N c)).output_buf_index
      = ((N - 2 : Nat) : Int) ∧
    (3 ≤ N →
      ((c_resampler.ctor_f32 rate rate).process_all_f32 (List.replicate N c)).output_buf 0
        = scale_sample_f32 (bspline_f32 0 c c c 0)) ∧
    ∀ k : Int, 1 ≤ k → k < ((N - 2 : Nat) : Int) →
      ((c_resampler.ctor_f32 rate rate).process_all_f32 (List.replicate N c)).output_buf k
        = scale_sample_f32 (bspline_f32 c c c c 0) := by
  obtain ⟨h1, h2, hw3, hs3, ho3, hb3⟩ := unit_first_three_f32 rate c hr
  obtain ⟨_, _, ho0⟩ := ctor_unit_warm_f32 rate c hr
  match N with
  | 0 =>
    simp only [c_resampler.process_all_f32, List.replicate, List.foldl_nil]
    exact ⟨ho0, fun h => by omega, fun k hk1 hk2 => by simp at hk2; omega⟩
  | 1 =>
    simp only [c_resampler.process_all_f32, List.replicate, List.foldl_cons, List.foldl_nil]
    exact ⟨h1, fun h => by omega, fun k hk1 hk2 => by simp at hk2; omega⟩
  | 2 =>
    simp only [c_resampler.process_all_f32, List.replicate, List.foldl_cons, List.foldl_nil]
    exact ⟨h2, fun h => by omega, fun k hk1 hk2 => by simp at hk2; omega⟩
  | 3 =>
    simp only [c_resampler.process_all_f32, List.replicate, List.foldl_cons, List.foldl_nil]
    exact ⟨ho3, fun _ => hb3, fun k hk1 hk2 => by simp at hk2; omega⟩
  | n + 4 =>
    obtain ⟨hs4, ho4, hb4⟩ := unit_fourth_f32 c _ hw3 hs3
    obtain ⟨_, hidx, hbuf⟩ := unit_steady_run_f32 c n _ hs4
    simp only [c_resampler.process_all_f32, List.replicate, List.foldl_cons] at *
    rw [ho4, ho3] at hidx hbuf
    refine ⟨?_, fun _ => ?_, fun k hk1 hk2 => ?_⟩
    · rw [hidx]
      push_cast
      omega
    · rw [(hbuf 0).1 (by norm_num), hb4, ho3, Function.update_noteq (by norm_num), hb3]
    · rcases eq_or_lt_of_le hk1 with he | hl
      · rw [← he, (hbuf 1).1 (by norm_num), hb4, ho3]
        exact Function.update_same _ _ _
      · have hk3 : k < 1 + 1 + n := by
          have : ((n + 4 - 2 : Nat) : Int) = n + 2 := by omega
          omega
        exact (hbuf k).2 (by omega) hk3


/-- At phase 0 the interpolation in single precision reduces to its constant
coefficient. -/
theorem bspline_f32_phase_zero (ym y0 y1 y2 : ℚ) :
    bspline_f32 ym y0 y1 y2 0
      = f32 (f32 (f32 (f32 (1 / 6) * f32 (ym + y1)) + f32 (f32 (2 / 3) * y0))) := by
  simp only [bspline_f32, mul_zero, f32_zero, zero_add]

theorem c_round_near (x : ℚ) : x - 1 / 2 ≤ (c_round x : ℚ) ∧ (c_round x : ℚ) ≤ x + 1 / 2 := by
  unfold c_round
  split
  · have h1 := Int.floor_le (x + 1 / 2)
    have h2 := Int.lt_floor_add_one (x + 1 / 2)
    constructor <;> linarith
  · have h1 := Int.le_ceil (x - 1 / 2)
    have h2 := Int.ceil_lt_add_one (x - 1 / 2)
    constructor <;> linarith

/-- The output sample computed from a constant window `c` of the nominal
range is within 0.55 of `c * 32767`, and the clamp is not reached. -/
theorem unit_output_near (c : ℚ) (h0 : -1 ≤ c) (h1 : c ≤ 1) :
    |(scale_sample_f32 (bspline_f32 c c c c 0) : ℚ) - c * 32767| ≤ 11 / 20 ∧
    -32767 ≤ scale_sample_f32 (bspline_f32 c c c c 0) ∧
    scale_sample_f32 (bspline_f32 c c c c 0) ≤ 32767 := by
  have e6 : f32 (1 / 6) = 11184811 / 67108864 := by decide!
  have e23 : f32 (2 / 3) = 11184811 / 16777216 := by decide!
  rw [bspline_f32_phase_zero, e6, e23]
  obtain ⟨t1, t2⟩ := f32_near_two (c + c) (by rw [abs_le]; constructor <;> linarith)
  generalize f32 (c + c) = t at t1 t2
  obtain ⟨p1, p2⟩ := f32_near_two (11184811 / 67108864 * t)
    (by rw [abs_le]; constructor <;> linarith)
  generalize f32 (11184811 / 67108864 * t) = p at p1 p2
  obtain ⟨q1, q2⟩ := f32_near_two (11184811 / 16777216 * c)
    (by rw [abs_le]; constructor <;> linarith)
  generalize f32 (11184811 / 16777216 * c) = q at q1 q2
  obtain ⟨a1, a2⟩ := f32_near_two (p + q) (by rw [abs_le]; constructor <;> linarith)
  generalize f32 (p + q) = a at a1 a2
  obtain ⟨j1, j2⟩ := f32_near_two a (by rw [abs_le]; constructor <;> linarith)
  generalize f32 a = j at j1 j2
  obtain ⟨v1, v2⟩ := f32_near_65536 (j * 32767) (by rw [abs_le]; constructor <;> linarith)
  obtain ⟨s1, s2⟩ := c_round_near (f32 (j * 32767))
  have hs1 : -32767 ≤ c_round (f32 (j * 32767)) := by
    have : ((-32768 : Int) : ℚ) < (c_round (f32 (j * 32767)) : ℚ) := by
      push_cast
      linarith
    have := Int.cast_lt.mp this
    omega
  have hs2 : c_round (f32 (j * 32767)) ≤ 32767 := by
    have : (c_round (f32 (j * 32767)) : ℚ) < ((32768 : Int) : ℚ) := by
      push_cast
      linarith
    have := Int.cast_lt.mp this
    omega
  have e : scale_sample_f32 j = c_round (f32 (j * 32767)) := by
    have e32 : float_to_int32 (c_round (f32 (j * 32767))) = c_round (f32 (j * 32767)) := by
      unfold float_to_int32
      exact if_pos ⟨by omega, by omega⟩
    simp only [scale_sample_f32, e32]
    rw [if_neg (by omega), if_neg (by omega)]
  rw [e]
  refine ⟨?_, hs1, hs2⟩
  rw [abs_le]
  constructor <;> linarith

/-! ## Claims: ring buffer -/

/-- C1 (the code breaks the claim): a drain that wraps past the end of the
backing array is split in two segments, and the second segment is copied to
byte offset `first` of the stream instead of `2 * first`.  Starting with the
sample 1 unread in slot 4094, the driver writes 2, 3, 4 (within the reported
space; they land in slots 4095, 0, 1) and the consumer drains 8 bytes, all
four unread samples.  FIFO order asks for 1, 2, 3, 4; the stream receives
1, 3, 4 and its last sample is left untouched. -/
theorem callback_split_drain_overwrites_first_segment :
    (([2, 3, 4] : List Int).length : Int) * 2 ≤ get_writeable wrap_start_buffer ∧
    (write_loop wrap_start_buffer [2, 3, 4]).write = 2 ∧
    (List.range 4).map (fun i : Nat =>
        (write_loop wrap_start_buffer [2, 3, 4]).data ((4094 + i) % BUF_LEN)) = [1, 2, 3, 4] ∧
    stream_samples (callback (write_loop wrap_start_buffer [2, 3, 4]) (fun _ => 0) 8).1 4
      = [1, 3, 4, 0] ∧
    (callback (write_loop wrap_start_buffer [2, 3, 4]) (fun _ => 0) 8).2.play = 2 := by
  decide

/-- C3 (as stated, refuted): after the first write of one sample from the
initial state `get_writeable()` is 4094 and 2049 samples are unread (one when
the initial silence is not counted); neither sum is `BUF_LEN`. -/
theorem writeable_plus_unread_ne_capacity :
    ring_run ring_init [ring_op.produce [7]]
      = some { buffer := write_loop init_sound [7], unread := 2049 } ∧
    get_writeable (write_loop init_sound [7]) = 4094 ∧
    get_writeable (write_loop init_sound [7]) + 2049 ≠ BUF_LEN ∧
    get_writeable (write_loop init_sound [7]) + (2049 - BUF_LEN / 2) ≠ BUF_LEN := by
  refine ⟨rfl, ?_, ?_, ?_⟩ <;> decide

/-- C3 (amended): in every state reachable from the initial state by writes
within the reported space and drains within the unread count,
`get_writeable()` is the free space in bytes: while a sample is unread,
`get_writeable() + 2 * unread = 2 * BUF_LEN`; when nothing is unread the
cursors coincide and `get_writeable()` is 0. -/
theorem writeable_plus_unread_bytes (ops : List ring_op) (s : ring_state)
    (h : ring_run ring_init ops = some s) :
    (0 < s.unread → get_writeable s.buffer + 2 * s.unread = 2 * BUF_LEN) ∧
    (s.unread = 0 → get_writeable s.buffer = 0) :=
  get_writeable_of_inv s (ring_run_inv ops ring_init s ring_inv_init h)

theorem writeable_plus_unread_bytes_witness :
    ring_run ring_init [ring_op.drain 4, ring_op.produce [5, 6, 7]]
      = some { buffer := write_loop (callback init_sound (fun _ => 0) 4).2 [5, 6, 7],
               unread := BUF_LEN / 2 - 4 / 2 + 3 } ∧
    ((0 < BUF_LEN / 2 - 4 / 2 + 3 →
        get_writeable (write_loop (callback init_sound (fun _ => 0) 4).2 [5, 6, 7])
          + 2 * (BUF_LEN / 2 - 4 / 2 + 3) = 2 * BUF_LEN) ∧
     (BUF_LEN / 2 - 4 / 2 + 3 = 0 →
        get_writeable (write_loop (callback init_sound (fun _ => 0) 4).2 [5, 6, 7]) = 0)) :=
  ⟨rfl, writeable_plus_unread_bytes
    [ring_op.drain 4, ring_op.produce [5, 6, 7]]
    { buffer := write_loop (callback init_sound (fun _ => 0) 4).2 [5, 6, 7],
      unread := BUF_LEN / 2 - 4 / 2 + 3 } rfl⟩

/-- C4 (as stated, refuted): with `write = 0` and `play = 1` one sample is
free, and `get_writeable()` returns 2. -/
theorem get_writeable_ne_sample_count :
    get_writeable { write := 0, play := 1, data := fun _ => 0 } = 2 ∧
    get_writeable { write := 0, play := 1, data := fun _ => 0 }
      ≠ (if (0 : Int) ≤ 1 then 1 - 0 else BUF_LEN - 0 + 1) := by
  decide

/-- C4 (amended): for cursors in `[0, BUF_LEN)`, `get_writeable()` returns
twice the number of free samples, that is the free space in bytes:
`2 * (play - write)` when `write <= play`, otherwise
`2 * (BUF_LEN - write + play)`; the result lies in `[0, 2 * BUF_LEN)`. -/
theorem get_writeable_counts_bytes (b : s_buffer)
    (hw0 : 0 ≤ b.write) (hw1 : b.write < BUF_LEN)
    (hp0 : 0 ≤ b.play) (hp1 : b.play < BUF_LEN) :
    get_writeable b
      = 2 * (if b.write ≤ b.play then b.play - b.write else BUF_LEN - b.write + b.play) ∧
    0 ≤ get_writeable b ∧ get_writeable b < 2 * BUF_LEN := by
  simp only [get_writeable, BUF_LEN] at *
  split <;> omega

theorem get_writeable_counts_bytes_witness :
    get_writeable init_sound
      = 2 * (if init_sound.write ≤ init_sound.play then init_sound.play - init_sound.write
             else BUF_LEN - init_sound.write + init_sound.play) ∧
    0 ≤ get_writeable init_sound ∧ get_writeable init_sound < 2 * BUF_LEN :=
  get_writeable_counts_bytes init_sound (by decide) (by decide) (by decide) (by decide)

/-! ## Claims: rate controller -/

/-- C2 (as stated, refuted): with `w = 0`, slope 0 and the nominal rate 48000
(inside the band) one adjustment lowers the output rate to 47998. -/
theorem starved_adjustment_lowers_rate :
    MIN_RATE_f32 ≤ 48000 ∧ (48000 : ℚ) ≤ MAX_RATE_f32 ∧
    adjust_output_rate_f32 0 0 48000 = 47998 ∧
    ¬ ((48000 : ℚ) ≤ adjust_output_rate_f32 0 0 48000) := by
  decide!

/-- C2 (amended): with `w = 0`, a float slope and a float output rate in
`[MIN_RATE, MAX_RATE]`, the direction of one adjustment depends on the slope.
For a slope of at most 1 the new rate is `max MIN_RATE (old - 2)`: not above
the old one, and `MIN_RATE` when the step would pass it.  For a slope above 1
the new rate is the single-precision value
`min(MAX_RATE, fl(old + min(1, fl(slope / 4))))`, which lies between
`min(MAX_RATE, old + 1/4)` and `min(MAX_RATE, old + 1)`: not below the old
rate, and `MAX_RATE` when the step would pass it. -/
theorem starved_adjustment_f32 (slope output_rate : ℚ)
    (hsf : is_f32 slope) (hrf : is_f32 output_rate)
    (hlo : MIN_RATE_f32 ≤ output_rate) (hhi : output_rate ≤ MAX_RATE_f32) :
    (slope ≤ 1 →
      adjust_output_rate_f32 0 slope output_rate = max MIN_RATE_f32 (output_rate - 2) ∧
      adjust_output_rate_f32 0 slope output_rate ≤ output_rate) ∧
    (1 < slope →
      adjust_output_rate_f32 0 slope output_rate
        = min MAX_RATE_f32 (f32 (output_rate + min 1 (f32 (slope / 4)))) ∧
      min MAX_RATE_f32 (output_rate + 1 / 4) ≤ adjust_output_rate_f32 0 slope output_rate ∧
      adjust_output_rate_f32 0 slope output_rate ≤ min MAX_RATE_f32 (output_rate + 1) ∧
      output_rate ≤ adjust_output_rate_f32 0 slope output_rate) := by
  have hlo2 := hlo
  have hhi2 := hhi
  rw [MIN_RATE_f32_eq] at hlo
  rw [MAX_RATE_f32_eq] at hhi
  constructor
  · intro hs
    have e2 : f32 (output_rate + -2) = output_rate - 2 := by
      have h2 := f32_add_grid_256 output_rate (-512) hrf (by linarith) (by linarith)
        (by norm_num; linarith) (by norm_num; linarith)
      have e : ((-512 : Int) : ℚ) / 256 = -2 := by norm_num
      rw [e] at h2
      rw [h2]
      ring
    have key : adjust_output_rate_f32 0 slope output_rate
        = max MIN_RATE_f32 (output_rate - 2) := by
      simp only [adjust_output_rate_f32, rate_adjustment_f32_starved_low slope hs hsf, e2]
      rw [MIN_RATE_f32_eq, MAX_RATE_f32_eq]
      rcases lt_or_le (output_rate - 2) 47040 with h | h
      · rw [if_pos h, max_eq_left (by linarith)]
      · rw [if_neg (not_lt.mpr h), if_neg (by linarith), max_eq_right (by linarith)]
    refine ⟨key, ?_⟩
    rw [key]
    exact max_le hlo2 (by linarith)
  · intro hs
    obtain ⟨ha, hstep⟩ := rate_adjustment_f32_starved_high slope hs hsf
    have hS1 : min 1 (f32 (slope / 4)) ≤ 1 := min_le_left _ _
    have hge : output_rate + 1 / 4 ≤ f32 (output_rate + min 1 (f32 (slope / 4))) := by
      have h2 := f32_add_grid_256 output_rate 64 hrf (by linarith) (by linarith)
        (by norm_num; linarith) (by norm_num; linarith)
      have e : ((64 : Int) : ℚ) / 256 = 1 / 4 := by norm_num
      rw [e] at h2
      rw [← h2]
      exact f32_mono (by linarith)
    have hle : f32 (output_rate + min 1 (f32 (slope / 4))) ≤ output_rate + 1 := by
      have h2 := f32_add_grid_256 output_rate 256 hrf (by linarith) (by linarith)
        (by norm_num; linarith) (by norm_num; linarith)
      have e : ((256 : Int) : ℚ) / 256 = 1 := by norm_num
      rw [e] at h2
      rw [← h2]
      exact f32_mono (by linarith)
    have key : adjust_output_rate_f32 0 slope output_rate
        = min MAX_RATE_f32 (f32 (output_rate + min 1 (f32 (slope / 4)))) := by
      simp only [adjust_output_rate_f32, ha, neg_neg]
      rw [MIN_RATE_f32_eq, MAX_RATE_f32_eq, if_neg (by linarith)]
      rcases lt_or_le (48960 : ℚ) (f32 (output_rate + min 1 (f32 (slope / 4)))) with h | h
      · rw [if_pos h, min_eq_left h.le]
      · rw [if_neg (not_lt.mpr h), min_eq_right h]
    refine ⟨key, ?_, ?_, ?_⟩
    · rw [key]
      exact min_le_min (le_refl _) hge
    · rw [key]
      exact min_le_min (le_refl _) hle
    · rw [key]
      exact le_min hhi2 (by linarith)

theorem starved_adjustment_f32_witness :
    (adjust_output_rate_f32 0 (1 / 2) 48000 = max MIN_RATE_f32 (48000 - 2) ∧
      adjust_output_rate_f32 0 (1 / 2) 48000 ≤ 48000) ∧
    (adjust_output_rate_f32 0 (9227469 / 8388608) 48000
        = min MAX_RATE_f32 (f32 (48000 + min 1 (f32 (9227469 / 8388608 / 4)))) ∧
      min MAX_RATE_f32 (48000 + 1 / 4) ≤ adjust_output_rate_f32 0 (9227469 / 8388608) 48000 ∧
      adjust_output_rate_f32 0 (9227469 / 8388608) 48000 ≤ min MAX_RATE_f32 (48000 + 1) ∧
      (48000 : ℚ) ≤ adjust_output_rate_f32 0 (9227469 / 8388608) 48000) :=
  ⟨(starved_adjustment_f32 (1 / 2) 48000 (by decide!) (by decide!) (by decide!)
      (by decide!)).1 (by norm_num),
   (starved_adjustment_f32 (9227469 / 8388608) 48000 (by decide!) (by decide!) (by decide!)
      (by decide!)).2 (by norm_num)⟩

/-- C5: with `w` equal to `TARGET` and slope 0 the net adjustment is zero, and
every output rate in `[MIN_RATE, MAX_RATE]` is left unchanged. -/
theorem on_target_flat_no_adjustment (output_rate : ℚ)
    (hlo : MIN_RATE ≤ output_rate) (hhi : output_rate ≤ MAX_RATE) :
    rate_adjustment TARGET 0 = 0 ∧
    adjust_output_rate TARGET 0 output_rate = output_rate := by
  have h0 : rate_adjustment TARGET 0 = 0 := by
    simp [rate_adjustment]
  refine ⟨h0, ?_⟩
  simp only [adjust_output_rate, h0, neg_zero, add_zero]
  rw [if_neg (not_lt.mpr hlo), if_neg (not_lt.mpr hhi)]

theorem on_target_flat_no_adjustment_witness :
    rate_adjustment TARGET 0 = 0 ∧ adjust_output_rate TARGET 0 48000 = 48000 :=
  on_target_flat_no_adjustment 48000
    (by norm_num [MIN_RATE, SAMPLE_RATE]) (by norm_num [MAX_RATE, SAMPLE_RATE])

/-- C6: whatever the reading `w`, the slope and the prior output rate, the
rate passed to `set_output_rate` lies in `[MIN_RATE, MAX_RATE]`, and the band
is `[0.98 * 48000, 1.02 * 48000] = [47040, 48960]`. -/
theorem adjusted_rate_in_band (w : Int) (slope output_rate : ℚ) :
    MIN_RATE ≤ adjust_output_rate w slope output_rate ∧
    adjust_output_rate w slope output_rate ≤ MAX_RATE ∧
    MIN_RATE = 98 / 100 * 48000 ∧ MAX_RATE = 102 / 100 * 48000 := by
  have hband : MIN_RATE ≤ MAX_RATE := by rw [MIN_RATE_eq, MAX_RATE_eq]; norm_num
  refine ⟨?_, ?_, by rw [MIN_RATE_eq]; norm_num, by rw [MAX_RATE_eq]; norm_num⟩
  · simp only [adjust_output_rate]
    split
    · exact le_refl _
    · split
      · exact hband
      · linarith
  · simp only [adjust_output_rate]
    split
    · exact hband
    · split
      · exact le_refl _
      · linarith

/-! ## Claims: fill-level tracker -/

/-- C7: on a history of smoothed readings with at least two valid entries,
`calc_slope()` is positive when the valid entries, read oldest first, are
strictly increasing, negative when they are strictly decreasing, and zero
when they are all equal. -/
theorem calc_slope_sign (w_values : Nat → Int) (w_value_index : Nat)
    (h : history_ok w_values) (hi : w_value_index < NUM_W_VALUES)
    (h2 : 2 ≤ (valid_entries w_values w_value_index).length) :
    ((valid_entries w_values w_value_index).Chain' (fun a b => a < b) →
      0 < calc_slope w_values w_value_index) ∧
    ((valid_entries w_values w_value_index).Chain' (fun a b => a > b) →
      calc_slope w_values w_value_index < 0) ∧
    ((valid_entries w_values w_value_index).Chain' (fun a b => a = b) →
      calc_slope w_values w_value_index = 0) := by
  have hden : (0 : ℚ) < ((ols_den (valid_entries w_values w_value_index).length : Int) : ℚ) :=
    Int.cast_pos.mpr (ols_den_pos _ h2)
  rw [calc_slope_eq w_values w_value_index h hi, if_neg hden.ne.symm]
  refine ⟨?_, ?_, ?_⟩
  · intro hc
    have := (ols_num_increasing _ (List.chain'_iff_pairwise.mp hc)).2 h2
    exact div_pos (Int.cast_pos.mpr this) hden
  · intro hc
    have := (ols_num_decreasing _ (List.chain'_iff_pairwise.mp hc)).2 h2
    exact div_neg_of_neg_of_pos (Int.cast_lt_zero.mpr this) hden
  · intro hc
    rw [ols_num_constant _ (List.chain'_iff_pairwise.mp hc)]
    simp

theorem calc_slope_sign_witness :
    (history_ok rising_history ∧ 2 ≤ (valid_entries rising_history 0).length ∧
      0 < calc_slope rising_history 0) ∧
    (history_ok falling_history ∧ 2 ≤ (valid_entries falling_history 2).length ∧
      calc_slope falling_history 2 < 0) ∧
    (history_ok flat_history ∧ 2 ≤ (valid_entries flat_history 17).length ∧
      calc_slope flat_history 17 = 0) :=
  ⟨⟨by decide, by decide,
     (calc_slope_sign rising_history 0 (by decide) (by decide) (by decide)).1
       (List.chain'_iff_pairwise.mpr (by decide))⟩,
   ⟨by decide, by decide,
     (calc_slope_sign falling_history 2 (by decide) (by decide) (by decide)).2.1
       (List.chain'_iff_pairwise.mpr (by decide))⟩,
   ⟨by decide, by decide,
     (calc_slope_sign flat_history 17 (by decide) (by decide) (by decide)).2.2
       (List.chain'_iff_pairwise.mpr (by decide))⟩⟩

/-- C8 (as stated, refuted): on the history with the four valid entries
0, 0, 0, 1 the least-squares slope is 6/20 = 3/10, which is not a float;
`calc_slope()` returns the float nearest to it, 5033165/16777216. -/
theorem calc_slope_not_exact_least_squares :
    history_ok step_history ∧ valid_entries step_history 4 = [0, 0, 0, 1] ∧
    ols_slope (valid_entries step_history 4) = 3 / 10 ∧
    calc_slope_f32 step_history 4 = 5033165 / 16777216 ∧
    calc_slope_f32 step_history 4 ≠ ols_slope (valid_entries step_history 4) := by
  have e : valid_entries step_history 4 = [0, 0, 0, 1] := by decide
  have e2 : ols_slope [0, 0, 0, 1] = 3 / 10 := by
    norm_num [ols_slope, ols_num, ols_den, ols_sx, ols_sxx, ols_sy, ols_sxy,
      Finset.sum_range_succ]
  have e3 : calc_slope_f32 step_history 4 = 5033165 / 16777216 := by decide!
  refine ⟨by decide, e, ?_, e3, ?_⟩
  · rw [e, e2]
  · rw [e, e2, e3]
    norm_num

/-- C8 (amended): for every write index, `calc_slope()` returns 0 when the
history has fewer than two valid entries, whatever its values.  On a history
whose slots hold the sentinel -1 or a smoothed reading in `[0, 8192]`, with
at least two valid entries, it returns the least-squares slope
`(n*Sxy - Sx*Sy) / (n*Sxx - Sx^2)` of the valid entries (circular order from
the write index, time index `0 .. n-1`) computed in single precision: the
numerator is rounded to a float, divided by the denominator (not zero, and
exact as a float), and the quotient is rounded.  The result differs from the
exact slope by at most the fraction `2^-22` of it. -/
theorem calc_slope_f32_is_rounded_least_squares (w_values : Nat → Int) (w_value_index : Nat)
    (hi : w_value_index < NUM_W_VALUES) :
    ((valid_entries w_values w_value_index).length < 2 →
      calc_slope_f32 w_values w_value_index = 0) ∧
    (history_ok w_values → 2 ≤ (valid_entries w_values w_value_index).length →
      ols_den (valid_entries w_values w_value_index).length ≠ 0 ∧
      calc_slope_f32 w_values w_value_index
        = f32 (f32 ((ols_num (valid_entries w_values w_value_index) : Int) : ℚ)
            / ((ols_den (valid_entries w_values w_value_index).length : Int) : ℚ)) ∧
      |calc_slope_f32 w_values w_value_index - ols_slope (valid_entries w_values w_value_index)|
        ≤ |ols_slope (valid_entries w_values w_value_index)| / 4194304) := by
  refine ⟨calc_slope_f32_short w_values w_value_index hi, fun h h2 => ?_⟩
  have hden := ols_den_pos _ h2
  have hq : ((ols_den (valid_entries w_values w_value_index).length : Int) : ℚ) ≠ 0 :=
    Int.cast_ne_zero.mpr hden.ne.symm
  have key := calc_slope_f32_eq w_values w_value_index h hi
  rw [if_neg hq] at key
  refine ⟨hden.ne.symm, key, ?_⟩
  rw [key]
  exact rounded_quotient_near _ _ hden
    (ols_den_bounds _ (valid_entries_length_le w_values w_value_index)).2

theorem calc_slope_f32_is_rounded_least_squares_witness :
    ((valid_entries init_w_values 0).length < 2 ∧ calc_slope_f32 init_w_values 0 = 0) ∧
    (history_ok step_history ∧ 2 ≤ (valid_entries step_history 4).length ∧
      ols_den (valid_entries step_history 4).length ≠ 0 ∧
      calc_slope_f32 step_history 4
        = f32 (f32 ((ols_num (valid_entries step_history 4) : Int) : ℚ)
            / ((ols_den (valid_entries step_history 4).length : Int) : ℚ)) ∧
      |calc_slope_f32 step_history 4 - ols_slope (valid_entries step_history 4)|
        ≤ |ols_slope (valid_entries step_history 4)| / 4194304) :=
  ⟨⟨by decide,
     (calc_slope_f32_is_rounded_least_squares init_w_values 0 (by decide)).1 (by decide)⟩,
   ⟨by decide, by decide,
     (calc_slope_f32_is_rounded_least_squares step_history 4 (by decide)).2 (by decide)
       (by decide)⟩⟩
/-! ## Claims: resampler -/

/-- C9 (as stated, refuted): at equal rates five input samples 0.25 yield
three output samples, not five; for the constant input 2 the second output
sample is the saturated 32767, not `round(2 * 32767) = 65534`; and for the
constant input `32769 / 2^31` of the nominal range the second output sample
is 1, where `round(c * 32767) = 0`. -/
theorem unit_ratio_not_identity :
    ((c_resampler.ctor_f32 48000 48000).process_all_f32
      (List.replicate 5 (1 / 4))).get_output_buf.1 = 3 ∧
    ((c_resampler.ctor_f32 48000 48000).process_all_f32
      (List.replicate 5 (1 / 4))).get_output_buf.1 ≠ 5 ∧
    ((c_resampler.ctor_f32 48000 48000).process_all_f32 (List.replicate 5 2)).output_buf 1
      = 32767 ∧
    ((c_resampler.ctor_f32 48000 48000).process_all_f32 (List.replicate 5 2)).output_buf 1
      ≠ c_round (2 * 32767) ∧
    ((c_resampler.ctor_f32 48000 48000).process_all_f32
      (List.replicate 6 (32769 / 2147483648))).output_buf 1 = 1 ∧
    c_round (32769 / 2147483648 * 32767) = 0 := by
  decide!

/-- C9 (amended): with the input rate equal to the output rate, feeding `N`
identical samples `c` (`N - 2` at most the capacity of the output buffer)
yields `N - 2` output samples (none for `N < 2`) without running past the
output buffer.  Every output sample after the first is the same value: the
16-bit scaling, with saturation, of the interpolation over a constant window
in single precision, `fl(fl(fl(fl(1/6) * fl(c + c)) + fl(fl(2/3) * c)))`.
For `c` in `[-1, 1]` that sample is within 0.55 of `c * 32767` and the clamp
is not reached.  The first output sample is interpolated over a window that
still holds one initial zero. -/
theorem unit_ratio_constant_input_f32 (rate c : ℚ) (N : Nat) (hr : 0 < rate)
    (hN : ((N - 2 : Nat) : Int) ≤ OUTPUT_BUF_LEN) :
    ((c_resampler.ctor_f32 rate rate).process_all_f32 (List.replicate N c)).get_output_buf.1
      = ((N - 2 : Nat) : Int) ∧
    (∀ k : Int, 1 ≤ k → k < ((N - 2 : Nat) : Int) →
      ((c_resampler.ctor_f32 rate rate).process_all_f32 (List.replicate N c)).output_buf k
        = scale_sample_f32 (bspline_f32 c c c c 0)) ∧
    (3 ≤ N →
      ((c_resampler.ctor_f32 rate rate).process_all_f32 (List.replicate N c)).output_buf 0
        = scale_sample_f32 (bspline_f32 0 c c c 0)) ∧
    bspline_f32 c c c c 0
      = f32 (f32 (f32 (f32 (1 / 6) * f32 (c + c)) + f32 (f32 (2 / 3) * c))) ∧
    (-1 ≤ c → c ≤ 1 →
      |(scale_sample_f32 (bspline_f32 c c c c 0) : ℚ) - c * 32767| ≤ 11 / 20 ∧
      -32767 ≤ scale_sample_f32 (bspline_f32 c c c c 0) ∧
      scale_sample_f32 (bspline_f32 c c c c 0) ≤ 32767) ∧
    ((c_resampler.ctor_f32 rate rate).process_all_f32 (List.replicate N c)).output_buf_index
      ≤ OUTPUT_BUF_LEN := by
  obtain ⟨h1, h2, h3⟩ := unit_ratio_run_f32 rate c hr.ne.symm N
  exact ⟨h1, h3, h2, bspline_f32_phase_zero c c c c, unit_output_near c,
    by rw [h1]; exact hN⟩

theorem unit_ratio_constant_input_f32_witness :
    ((c_resampler.ctor_f32 48000 48000).process_all_f32
      (List.replicate 10 (1 / 2))).get_output_buf.1 = ((10 - 2 : Nat) : Int) ∧
    (∀ k : Int, 1 ≤ k → k < ((10 - 2 : Nat) : Int) →
      ((c_resampler.ctor_f32 48000 48000).process_all_f32
        (List.replicate 10 (1 / 2))).output_buf k
        = scale_sample_f32 (bspline_f32 (1 / 2) (1 / 2) (1 / 2) (1 / 2) 0)) ∧
    (3 ≤ 10 →
      ((c_resampler.ctor_f32 48000 48000).process_all_f32
        (List.replicate 10 (1 / 2))).output_buf 0
        = scale_sample_f32 (bspline_f32 0 (1 / 2) (1 / 2) (1 / 2) 0)) ∧
    bspline_f32 (1 / 2) (1 / 2) (1 / 2) (1 / 2) 0
      = f32 (f32 (f32 (f32 (1 / 6) * f32 (1 / 2 + 1 / 2)) + f32 (f32 (2 / 3) * (1 / 2)))) ∧
    ((-1 : ℚ) ≤ 1 / 2 → (1 / 2 : ℚ) ≤ 1 →
      |(scale_sample_f32 (bspline_f32 (1 / 2) (1 / 2) (1 / 2) (1 / 2) 0) : ℚ)
          - 1 / 2 * 32767| ≤ 11 / 20 ∧
      -32767 ≤ scale_sample_f32 (bspline_f32 (1 / 2) (1 / 2) (1 / 2) (1 / 2) 0) ∧
      scale_sample_f32 (bspline_f32 (1 / 2) (1 / 2) (1 / 2) (1 / 2) 0) ≤ 32767) ∧
    ((c_resampler.ctor_f32 48000 48000).process_all_f32
      (List.replicate 10 (1 / 2))).output_buf_index ≤ OUTPUT_BUF_LEN :=
  unit_ratio_constant_input_f32 48000 (1 / 2) 10 (by norm_num) (by decide)

/-- C10: with the input rate `8 * 48000`, an initial output rate and every
later `set_output_rate` argument in `[MIN_RATE, MAX_RATE]`, from every state
the calls can reach in which the output buffer is empty, a driver iteration
of 6400 `process` calls keeps the output cursor within
`OUTPUT_BUF_LEN = 1024` after every call (at most one output per 7 calls, so
at most 915), and `get_output_buf` then returns at most `OUTPUT_BUF_LEN`. -/
theorem driver_iteration_fits_output_buf (rate0 : ℚ) (ops : List resampler_op)
    (samples : List ℚ)
    (h0 : MIN_RATE ≤ rate0) (h1 : rate0 ≤ MAX_RATE) (hops : rates_in_band ops)
    (hempty : (resampler_run (c_resampler.ctor (8 * 48000) rate0) ops).output_buf_index = 0)
    (hlen : samples.length = 6400) :
    (∀ n : Nat,
      0 ≤ ((resampler_run (c_resampler.ctor (8 * 48000) rate0) ops).process_all
            (samples.take n)).output_buf_index ∧
      7 * ((resampler_run (c_resampler.ctor (8 * 48000) rate0) ops).process_all
            (samples.take n)).output_buf_index ≤ (min n 6400 : Nat) + 6 ∧
      ((resampler_run (c_resampler.ctor (8 * 48000) rate0) ops).process_all
            (samples.take n)).output_buf_index ≤ OUTPUT_BUF_LEN) ∧
    ((resampler_run (c_resampler.ctor (8 * 48000) rate0) ops).process_all
        samples).get_output_buf.1 ≤ OUTPUT_BUF_LEN := by
  have hinv := run_drain_inv ops _ (ctor_drain_inv rate0 h0 h1) hops
  have hstart : count_inv 0 (resampler_run (c_resampler.ctor (8 * 48000) rate0) ops) :=
    ⟨hinv, by omega, by have := hinv.2.2.2; omega, by omega⟩
  have hpre : ∀ n : Nat,
      0 ≤ ((resampler_run (c_resampler.ctor (8 * 48000) rate0) ops).process_all
            (samples.take n)).output_buf_index ∧
      7 * ((resampler_run (c_resampler.ctor (8 * 48000) rate0) ops).process_all
            (samples.take n)).output_buf_index ≤ (min n 6400 : Nat) + 6 := by
    intro n
    obtain ⟨_, c0, _, c2⟩ := process_all_count_inv (samples.take n) 0 _ hstart
    rw [List.length_take, hlen] at c2
    exact ⟨c0, by simpa using c2⟩
  constructor
  · intro n
    obtain ⟨a, b⟩ := hpre n
    refine ⟨a, b, ?_⟩
    simp only [OUTPUT_BUF_LEN]
    omega
  · obtain ⟨_, b⟩ := hpre 6400
    have e : samples.take 6400 = samples := List.take_of_length_le (by omega)
    rw [e] at b
    simp only [c_resampler.get_output_buf, OUTPUT_BUF_LEN]
    omega

theorem driver_iteration_fits_output_buf_witness :
    tone.length = 6400 ∧
    (resampler_run (c_resampler.ctor (8 * 48000) 48000)
      [resampler_op.process (1 / 4), resampler_op.set_output_rate 47040,
       resampler_op.get_output_buf]).output_buf_index = 0 ∧
    ((∀ n : Nat,
      0 ≤ ((resampler_run (c_resampler.ctor (8 * 48000) 48000)
            [resampler_op.process (1 / 4), resampler_op.set_output_rate 47040,
             resampler_op.get_output_buf]).process_all (tone.take n)).output_buf_index ∧
      7 * ((resampler_run (c_resampler.ctor (8 * 48000) 48000)
            [resampler_op.process (1 / 4), resampler_op.set_output_rate 47040,
             resampler_op.get_output_buf]).process_all (tone.take n)).output_buf_index
        ≤ (min n 6400 : Nat) + 6 ∧
      ((resampler_run (c_resampler.ctor (8 * 48000) 48000)
            [resampler_op.process (1 / 4), resampler_op.set_output_rate 47040,
             resampler_op.get_output_buf]).process_all (tone.take n)).output_buf_index
        ≤ OUTPUT_BUF_LEN) ∧
    ((resampler_run (c_resampler.ctor (8 * 48000) 48000)
        [resampler_op.process (1 / 4), resampler_op.set_output_rate 47040,
         resampler_op.get_output_buf]).process_all tone).get_output_buf.1 ≤ OUTPUT_BUF_LEN) :=
  ⟨by simp [tone], rfl,
   driver_iteration_fits_output_buf 48000
    [resampler_op.process (1 / 4), resampler_op.set_output_rate 47040,
     resampler_op.get_output_buf] tone
    (by norm_num [MIN_RATE, SAMPLE_RATE]) (by norm_num [MAX_RATE, SAMPLE_RATE])
    (by
      intro op hop rate he
      subst he
      simp only [List.mem_cons, List.mem_singleton, reduceCtorEq, false_or, or_false,
        resampler_op.set_output_rate.injEq, List.not_mem_nil] at hop
      subst hop
      norm_num [MIN_RATE, MAX_RATE, SAMPLE_RATE])
    rfl (by simp [tone])⟩

/-! ## Claims: rate policy -/

/-- C13 (as stated, refuted): with `w = 5001`, the float slope nearest to 0.1
and the rate 48000 the program stores 48000.0546875, a multiple of the float
spacing 1/256 near 48000, where the formula of the claim gives
48000.053125000745. -/
theorem above_target_rising_not_exact :
    TARGET < 5001 ∧ (0 : ℚ) < 13421773 / 134217728 ∧ is_f32 (13421773 / 134217728) ∧
    is_f32 48000 ∧ MIN_RATE_f32 ≤ 48000 ∧ (48000 : ℚ) ≤ MAX_RATE_f32 ∧
    adjust_output_rate_f32 5001 (13421773 / 134217728) 48000 = 48000 + 7 / 128 ∧
    min MAX_RATE_f32 (48000 + min 2 ((|(13421773 / 134217728 : ℚ)|
        + ((|(5001 : Int) - TARGET| : Int) : ℚ) / 1600 * 10) / 2))
      = 48000 + 71303169 / 1342177280 ∧
    adjust_output_rate_f32 5001 (13421773 / 134217728) 48000
      ≠ min MAX_RATE_f32 (48000 + min 2 ((|(13421773 / 134217728 : ℚ)|
          + ((|(5001 : Int) - TARGET| : Int) : ℚ) / 1600 * 10) / 2)) := by
  decide!

/-- C13 (amended): with `w > TARGET`, a float `slope > 0` and a float output
rate in `[MIN_RATE, MAX_RATE]`, one adjustment sets the rate to the formula of
the claim evaluated in single precision, every operation rounded to the
nearest float:
`min(MAX_RATE, fl(old + min(2, fl(fl(|slope| + skew) / 2))))` with
`skew = fl(fl(fl(|w - TARGET|) / 1600) * 10)`.  The new rate is above the old
one whenever the old one is below `MAX_RATE`, and at most
`min(MAX_RATE, old + 2)`. -/
theorem above_target_rising_raises_rate_f32 (w : Int) (slope output_rate : ℚ)
    (hw : TARGET < w) (hs : 0 < slope) (hsf : is_f32 slope) (hrf : is_f32 output_rate)
    (hlo : MIN_RATE_f32 ≤ output_rate) (hhi : output_rate ≤ MAX_RATE_f32) :
    adjust_output_rate_f32 w slope output_rate
      = min MAX_RATE_f32
          (f32 (output_rate + min 2 (f32 (f32 (|slope| + skew_f32 (w - TARGET)) / 2)))) ∧
    skew_f32 (w - TARGET) = f32 (f32 (f32 ((|w - TARGET| : Int) : ℚ) / 1600) * 10) ∧
    (output_rate < MAX_RATE_f32 → output_rate < adjust_output_rate_f32 w slope output_rate) ∧
    adjust_output_rate_f32 w slope output_rate ≤ min MAX_RATE_f32 (output_rate + 2) := by
  obtain ⟨ha, hstep⟩ := rate_adjustment_f32_above_rising w slope hw hs hsf
  rw [MIN_RATE_f32_eq] at hlo
  rw [MAX_RATE_f32_eq] at hhi
  have hS2 : min 2 (f32 (f32 (|slope| + skew_f32 (w - TARGET)) / 2)) ≤ 2 := min_le_left _ _
  have hge := f32_add_ge_step output_rate
    (min 2 (f32 (f32 (|slope| + skew_f32 (w - TARGET)) / 2))) hrf (by linarith)
    (by linarith) (by linarith)
  have hle : f32 (output_rate + min 2 (f32 (f32 (|slope| + skew_f32 (w - TARGET)) / 2)))
      ≤ output_rate + 2 := by
    have h2 := f32_add_grid_256 output_rate 512 hrf (by linarith) (by linarith)
      (by norm_num; linarith) (by norm_num; linarith)
    have e : ((512 : Int) : ℚ) / 256 = 2 := by norm_num
    rw [e] at h2
    rw [← h2]
    exact f32_mono (by linarith)
  have key : adjust_output_rate_f32 w slope output_rate
      = min MAX_RATE_f32
          (f32 (output_rate + min 2 (f32 (f32 (|slope| + skew_f32 (w - TARGET)) / 2)))) := by
    simp only [adjust_output_rate_f32, ha, neg_neg]
    rw [MIN_RATE_f32_eq, MAX_RATE_f32_eq, if_neg (by linarith)]
    rcases lt_or_le (48960 : ℚ)
        (f32 (output_rate + min 2 (f32 (f32 (|slope| + skew_f32 (w - TARGET)) / 2)))) with h | h
    · rw [if_pos h, min_eq_left h.le]
    · rw [if_neg (not_lt.mpr h), min_eq_right h]
  refine ⟨key, rfl, fun hlt => ?_, ?_⟩
  · rw [key, MAX_RATE_f32_eq] at *
    exact lt_min hlt (by linarith)
  · rw [key]
    exact min_le_min (le_refl _) hle

theorem above_target_rising_raises_rate_f32_witness :
    adjust_output_rate_f32 5001 (13421773 / 134217728) 48000
      = min MAX_RATE_f32
          (f32 (48000 + min 2 (f32 (f32 (|(13421773 / 134217728 : ℚ)|
            + skew_f32 (5001 - TARGET)) / 2)))) ∧
    skew_f32 (5001 - TARGET)
      = f32 (f32 (f32 ((|(5001 : Int) - TARGET| : Int) : ℚ) / 1600) * 10) ∧
    ((48000 : ℚ) < MAX_RATE_f32 →
      (48000 : ℚ) < adjust_output_rate_f32 5001 (13421773 / 134217728) 48000) ∧
    adjust_output_rate_f32 5001 (13421773 / 134217728) 48000
      ≤ min MAX_RATE_f32 (48000 + 2) :=
  above_target_rising_raises_rate_f32 5001 (13421773 / 134217728) 48000 (by decide)
    (by norm_num) (by decide!) (by decide!) (by decide!) (by decide!)

/-- C18: dead band.  For every reading `w ≠ 0` and every slope with
`-1 ≤ dir * slope ≤ 0`, where `dir = sign(w - TARGET)`, and every output rate
in `[MIN_RATE, MAX_RATE]`, one adjustment computes `new_adj = 0` and leaves
the output rate unchanged. -/
theorem dead_band_keeps_rate (w : Int) (slope output_rate : ℚ) (hw : w ≠ 0)
    (h1 : -1 ≤ ((Int.sign (w - TARGET) : Int) : ℚ) * slope)
    (h2 : ((Int.sign (w - TARGET) : Int) : ℚ) * slope ≤ 0)
    (hlo : MIN_RATE ≤ output_rate) (hhi : output_rate ≤ MAX_RATE) :
    rate_adjustment w slope = 0 ∧
    adjust_output_rate w slope output_rate = output_rate := by
  have h0 := rate_adjustment_dead_band w slope hw h1 h2
  refine ⟨h0, ?_⟩
  simp only [adjust_output_rate, h0, neg_zero, add_zero]
  rw [if_neg (not_lt.mpr hlo), if_neg (not_lt.mpr hhi)]

theorem dead_band_keeps_rate_witness :
    rate_adjustment 6000 (-1 / 2) = 0 ∧ adjust_output_rate 6000 (-1 / 2) 48500 = 48500 :=
  dead_band_keeps_rate 6000 (-1 / 2) 48500 (by decide)
    (by decide!) (by decide!)
    (by norm_num [MIN_RATE, SAMPLE_RATE]) (by norm_num [MAX_RATE, SAMPLE_RATE])

/-! ## Claims: resampler interface and interpolation -/

/-- C12 (the code breaks the claim): the scaled value is converted to a
32-bit `int` before it is clamped.  With the driver's rates (step ratio 8), ten
input samples 70000 give a first output interpolated to 70000; the rounded
product 2293690000 does not fit an `int`, the conversion yields `INT_MIN` and
the stored sample is -32768, where saturation asks for 32767. -/
theorem process_huge_sample_stores_minimum :
    ((c_resampler.ctor (8 * 48000) 48000).process_all
        (List.replicate 10 70000)).output_buf_index = 1 ∧
    ((c_resampler.ctor (8 * 48000) 48000).process_all
        (List.replicate 10 70000)).output_buf 0 = -32768 ∧
    bspline 70000 70000 70000 70000 0 = 70000 ∧
    c_round (70000 * 32767) = 2293690000 ∧
    max (-32768) (min 32767 (c_round (70000 * 32767))) = 32767 := by
  decide!

/-- C14: `get_output_buf` is a consuming read.  For every state it returns the
output cursor, resets it to zero and changes no other field, so a second call
right after returns 0; and after any sequence of calls since construction the
value returned is the number of output samples emitted since the previous
`get_output_buf` (or since construction). -/
theorem get_output_buf_consuming (r : c_resampler) (input_rate output_rate : ℚ)
    (ops : List resampler_op) :
    r.get_output_buf.1 = r.output_buf_index ∧
    r.get_output_buf.2.output_buf_index = 0 ∧
    r.get_output_buf.2.get_output_buf.1 = 0 ∧
    (r.get_output_buf.2.input_rate = r.input_rate ∧
     r.get_output_buf.2.output_rate = r.output_rate ∧
     r.get_output_buf.2.m = r.m ∧
     r.get_output_buf.2.mf = r.mf ∧
     r.get_output_buf.2.samples_required = r.samples_required ∧
     r.get_output_buf.2.input_buf_index = r.input_buf_index ∧
     r.get_output_buf.2.output_buf = r.output_buf ∧
     r.get_output_buf.2.input_buf = r.input_buf) ∧
    (resampler_run (c_resampler.ctor input_rate output_rate) ops).get_output_buf.1
      = count_outputs (c_resampler.ctor input_rate output_rate) ops 0 := by
  refine ⟨rfl, rfl, rfl, ⟨rfl, rfl, rfl, rfl, rfl, rfl, rfl, rfl⟩, ?_⟩
  exact run_output_buf_index ops (c_resampler.ctor input_rate output_rate)

/-- C19: the B-spline of `process` is a convex combination of its taps.  For
all taps and every phase `mf` in `[0, 1]` the interpolated value lies between
the least and the greatest tap; so taps in `[-1, 1]` give a value in
`[-1, 1]`, which is scaled without reaching the clamp; and a constant window
`c` gives exactly `c` at every phase. -/
theorem bspline_convex (ym y0 y1 y2 mf : ℚ) (h0 : 0 ≤ mf) (h1 : mf ≤ 1) :
    min (min ym y0) (min y1 y2) ≤ bspline ym y0 y1 y2 mf ∧
    bspline ym y0 y1 y2 mf ≤ max (max ym y0) (max y1 y2) ∧
    (-1 ≤ min (min ym y0) (min y1 y2) → max (max ym y0) (max y1 y2) ≤ 1 →
      scale_sample (bspline ym y0 y1 y2 mf) = c_round (bspline ym y0 y1 y2 mf * 32767) ∧
      -32768 < scale_sample (bspline ym y0 y1 y2 mf) ∧
      scale_sample (bspline ym y0 y1 y2 mf) ≤ 32767) ∧
    (∀ c p : ℚ, bspline c c c c p = c) := by
  have hlo : min (min ym y0) (min y1 y2) ≤ bspline ym y0 y1 y2 mf :=
    bspline_ge ym y0 y1 y2 mf _ h0 h1
      (le_trans (min_le_left _ _) (min_le_left _ _))
      (le_trans (min_le_left _ _) (min_le_right _ _))
      (le_trans (min_le_right _ _) (min_le_left _ _))
      (le_trans (min_le_right _ _) (min_le_right _ _))
  have hhi : bspline ym y0 y1 y2 mf ≤ max (max ym y0) (max y1 y2) :=
    bspline_le ym y0 y1 y2 mf _ h0 h1
      (le_trans (le_max_left _ _) (le_max_left _ _))
      (le_trans (le_max_right _ _) (le_max_left _ _))
      (le_trans (le_max_left _ _) (le_max_right _ _))
      (le_trans (le_max_right _ _) (le_max_right _ _))
  refine ⟨hlo, hhi, fun ha hb => ?_, fun c p => ?_⟩
  · have e := scale_sample_nominal (bspline ym y0 y1 y2 mf) (by linarith) (by linarith)
    have hb2 := c_round_bounds (bspline ym y0 y1 y2 mf * 32767) (by linarith) (by linarith)
    have hb3 : -32767 ≤ c_round (bspline ym y0 y1 y2 mf * 32767) := by
      unfold c_round
      split
      · have : 0 ≤ ⌊bspline ym y0 y1 y2 mf * 32767 + 1 / 2⌋ :=
          Int.floor_nonneg.mpr (by linarith)
        omega
      · have : -32768 < ⌈bspline ym y0 y1 y2 mf * 32767 - 1 / 2⌉ :=
          Int.lt_ceil.mpr (by push_cast; linarith)
        omega
    rw [e]
    exact ⟨rfl, by omega, hb2.2⟩
  · simp only [bspline]
    ring

theorem bspline_convex_witness :
    min (min (-1 / 4 : ℚ) (1 / 4)) (min (1 / 4) (1 / 4))
      ≤ bspline (-1 / 4) (1 / 4) (1 / 4) (1 / 4) (1 / 2) ∧
    bspline (-1 / 4) (1 / 4) (1 / 4) (1 / 4) (1 / 2)
      ≤ max (max (-1 / 4 : ℚ) (1 / 4)) (max (1 / 4) (1 / 4)) ∧
    (-1 ≤ min (min (-1 / 4 : ℚ) (1 / 4)) (min (1 / 4) (1 / 4)) →
      max (max (-1 / 4 : ℚ) (1 / 4)) (max (1 / 4) (1 / 4)) ≤ 1 →
      scale_sample (bspline (-1 / 4) (1 / 4) (1 / 4) (1 / 4) (1 / 2))
        = c_round (bspline (-1 / 4) (1 / 4) (1 / 4) (1 / 4) (1 / 2) * 32767) ∧
      -32768 < scale_sample (bspline (-1 / 4) (1 / 4) (1 / 4) (1 / 4) (1 / 2)) ∧
      scale_sample (bspline (-1 / 4) (1 / 4) (1 / 4) (1 / 4) (1 / 2)) ≤ 32767) ∧
    (∀ c p : ℚ, bspline c c c c p = c) :=
  bspline_convex (-1 / 4) (1 / 4) (1 / 4) (1 / 4) (1 / 2) (by norm_num) (by norm_num)

/-! ## Claims: phase and countdown -/

/-- C11 (as stated, refuted): with the positive rates 3 and 2 (step ratio
1.5, exact in single precision) the phase after the fifth `process` call is
-1/2. -/
theorem phase_negative_below_ratio_two :
    (0 : ℚ) < 3 ∧ (0 : ℚ) < 2 ∧
    ((c_resampler.ctor_f32 3 2).process_all_f32 (List.replicate 5 0)).mf = -1 / 2 ∧
    ¬ (0 ≤ ((c_resampler.ctor_f32 3 2).process_all_f32 (List.replicate 5 0)).mf) := by
  decide!

/-- C11 (amended): when the step ratio the program stores, the float quotient
`input_rate / rate`, is at least 2 and below `2^31` for the output rate given
to the constructor and for every rate given to `set_output_rate`, the phase
satisfies `0 ≤ mf < 1` after construction and after every call.  All float
operations are rounded to single precision and `(int)` is the 32-bit
conversion. -/
theorem phase_in_unit_interval_f32 (input_rate output_rate : ℚ) (ops : List resampler_op)
    (h1 : 2 ≤ f32 (input_rate / output_rate))
    (h2 : f32 (input_rate / output_rate) < 2147483648)
    (hops : ratios_in_range input_rate ops) :
    0 ≤ (resampler_run_f32 (c_resampler.ctor_f32 input_rate output_rate) ops).mf ∧
    (resampler_run_f32 (c_resampler.ctor_f32 input_rate output_rate) ops).mf < 1 := by
  obtain ⟨_, _, _, _, hf0, hf1⟩ := run_phase_inv_f32 input_rate ops _
    (ctor_phase_inv_f32 input_rate output_rate h1 h2) hops
  exact ⟨hf0, hf1⟩

theorem phase_in_unit_interval_f32_witness :
    0 ≤ (resampler_run_f32 (c_resampler.ctor_f32 384000 47040)
      [resampler_op.process (1 / 4), resampler_op.set_output_rate 48960,
       resampler_op.process (1 / 4)]).mf ∧
    (resampler_run_f32 (c_resampler.ctor_f32 384000 47040)
      [resampler_op.process (1 / 4), resampler_op.set_output_rate 48960,
       resampler_op.process (1 / 4)]).mf < 1 :=
  phase_in_unit_interval_f32 384000 47040
    [resampler_op.process (1 / 4), resampler_op.set_output_rate 48960,
     resampler_op.process (1 / 4)]
    (by decide!) (by decide!)
    (by
      intro op hop rate he
      subst he
      simp only [List.mem_cons, List.mem_singleton, reduceCtorEq, false_or, or_false,
        resampler_op.set_output_rate.injEq, List.not_mem_nil] at hop
      subst hop
      decide!)

/-- C16 (as stated, refuted): with the input rate 384000 and the output rate
47040 (`MIN_RATE`) the exact ratio is 400/49, so the claim puts output 49 at
call `floor(49 * 400/49) + 2 = 402`.  The program stores the float quotient
2139951/262144, just below 400/49, and emits output 49 during call 401. -/
theorem output_time_differs_from_exact_ratio :
    (2 : ℚ) ≤ 384000 / 47040 ∧
    emit_call (384000 / 47040) 49 = 402 ∧
    (c_resampler.ctor_f32 384000 47040).m = 2139951 / 262144 ∧
    ((c_resampler.ctor_f32 384000 47040).process_seq_f32 (fun _ => 0) 400).output_buf_index
      = 48 ∧
    ((c_resampler.ctor_f32 384000 47040).process_seq_f32 (fun _ => 0) 401).output_buf_index
      = 49 := by
  have e1 : (c_resampler.ctor_f32 384000 47040).m = 2139951 / 262144 := by decide!
  have h2 : (2 : ℚ) ≤ f32 (384000 / 47040) := by decide!
  have h24 : f32 (384000 / 47040) < 16777216 := by decide!
  have em : f32 (384000 / 47040) = 2139951 / 262144 := by decide!
  have c1 : emit_time (2139951 / 262144) 48 = 393 := by decide!
  have c2 : emit_time (2139951 / 262144) 49 = 401 := by decide!
  have c3 : emit_time (2139951 / 262144) 50 = 410 := by decide!
  have s1 := process_seq_exact_phase_inv 384000 47040 (fun _ => 0) 400 h2 h24
  have s2 := process_seq_exact_phase_inv 384000 47040 (fun _ => 0) 401 h2 h24
  obtain ⟨a1, _, _⟩ := state_between_outputs (f32 (384000 / 47040)) 1 (fun _ => 0) 400 48
    (by norm_num) (by linarith) (by rw [div_one, em, c1]; norm_num)
    (by rw [div_one, em, c2]; norm_num)
  obtain ⟨b1, _, _⟩ := state_between_outputs (f32 (384000 / 47040)) 1 (fun _ => 0) 401 49
    (by norm_num) (by linarith) (by rw [div_one, em, c2])
    (by rw [div_one, em, c3]; norm_num)
  refine ⟨by norm_num, by decide!, e1, ?_, ?_⟩
  · rw [s1.2.2.2.2.1, a1]
    rfl
  · rw [s2.2.2.2.2.1, b1]
    rfl

/-- C16 (amended): phase error does not accumulate relative to the step ratio
the program stores.  Let `m` be the float quotient `input_rate / output_rate`
held in the object, with `2 ≤ m < 2^24`.  Then, in single precision and for
every input sequence and every `k ≥ 1`, output sample `k` is produced during
exactly call number `floor(k*m) + 2`: before that call `k - 1` outputs are in
the buffer, the countdown is 1 and the phase used for output `k` is exactly
`frac(k*m)`; after it `k` outputs are in the buffer and the phase left for
the next output is exactly `frac((k+1)*m)`; and after `t` calls at least `k`
outputs have been produced iff `t ≥ floor(k*m) + 2`. -/
theorem output_times_and_phases_f32 (input_rate output_rate : ℚ) (x : Nat → ℚ) (k : Nat)
    (h2 : 2 ≤ f32 (input_rate / output_rate))
    (h24 : f32 (input_rate / output_rate) < 16777216) (hk : 1 ≤ k) :
    (c_resampler.ctor_f32 input_rate output_rate).m = f32 (input_rate / output_rate) ∧
    (emit_call (f32 (input_rate / output_rate)) k : Int)
      = ⌊(k : ℚ) * f32 (input_rate / output_rate)⌋ + 2 ∧
    ((c_resampler.ctor_f32 input_rate output_rate).process_seq_f32 x
        (emit_call (f32 (input_rate / output_rate)) k - 1)).output_buf_index = (k : Int) - 1 ∧
    ((c_resampler.ctor_f32 input_rate output_rate).process_seq_f32 x
        (emit_call (f32 (input_rate / output_rate)) k - 1)).samples_required = 1 ∧
    ((c_resampler.ctor_f32 input_rate output_rate).process_seq_f32 x
        (emit_call (f32 (input_rate / output_rate)) k - 1)).mf
      = Int.fract ((k : ℚ) * f32 (input_rate / output_rate)) ∧
    ((c_resampler.ctor_f32 input_rate output_rate).process_seq_f32 x
        (emit_call (f32 (input_rate / output_rate)) k)).output_buf_index = k ∧
    ((c_resampler.ctor_f32 input_rate output_rate).process_seq_f32 x
        (emit_call (f32 (input_rate / output_rate)) k)).mf
      = Int.fract (((k + 1 : Nat) : ℚ) * f32 (input_rate / output_rate)) ∧
    ∀ t : Nat,
      (k : Int)
          ≤ ((c_resampler.ctor_f32 input_rate output_rate).process_seq_f32 x t).output_buf_index
        ↔ emit_call (f32 (input_rate / output_rate)) k ≤ t := by
  have old := exact_output_times (f32 (input_rate / output_rate)) 1 x k (by norm_num)
    (by linarith) hk
  simp only [div_one] at old
  obtain ⟨o1, o2, o3, o4, o5, o6, o7⟩ := old
  have sim := fun t => process_seq_exact_phase_inv input_rate output_rate x t h2 h24
  refine ⟨rfl, o1, ?_, ?_, ?_, ?_, ?_, fun t => ?_⟩
  · rw [(sim _).2.2.2.2.1, o2]
  · rw [(sim _).2.2.2.1, o3]
  · rw [(sim _).2.2.1, o4]
  · rw [(sim _).2.2.2.2.1, o5]
  · rw [(sim _).2.2.1, o6]
  · rw [(sim t).2.2.2.2.1]
    exact o7 t

theorem output_times_and_phases_f32_witness :
    (c_resampler.ctor_f32 384000 47040).m = f32 (384000 / 47040) ∧
    (emit_call (f32 (384000 / 47040)) 49 : Int)
      = ⌊((49 : Nat) : ℚ) * f32 (384000 / 47040)⌋ + 2 ∧
    ((c_resampler.ctor_f32 384000 47040).process_seq_f32 (fun _ => 1 / 4)
        (emit_call (f32 (384000 / 47040)) 49 - 1)).output_buf_index = ((49 : Nat) : Int) - 1 ∧
    ((c_resampler.ctor_f32 384000 47040).process_seq_f32 (fun _ => 1 / 4)
        (emit_call (f32 (384000 / 47040)) 49 - 1)).samples_required = 1 ∧
    ((c_resampler.ctor_f32 384000 47040).process_seq_f32 (fun _ => 1 / 4)
        (emit_call (f32 (384000 / 47040)) 49 - 1)).mf
      = Int.fract (((49 : Nat) : ℚ) * f32 (384000 / 47040)) ∧
    ((c_resampler.ctor_f32 384000 47040).process_seq_f32 (fun _ => 1 / 4)
        (emit_call (f32 (384000 / 47040)) 49)).output_buf_index = (49 : Nat) ∧
    ((c_resampler.ctor_f32 384000 47040).process_seq_f32 (fun _ => 1 / 4)
        (emit_call (f32 (384000 / 47040)) 49)).mf
      = Int.fract (((49 + 1 : Nat) : ℚ) * f32 (384000 / 47040)) ∧
    ∀ t : Nat,
      ((49 : Nat) : Int)
          ≤ ((c_resampler.ctor_f32 384000 47040).process_seq_f32 (fun _ => 1 / 4)
              t).output_buf_index
        ↔ emit_call (f32 (384000 / 47040)) 49 ≤ t :=
  output_times_and_phases_f32 384000 47040 (fun _ => 1 / 4) 49 (by decide!) (by decide!)
    (by decide)
/-! ## Claims: input window -/

/-- C17: for every input sequence `x 1, x 2, ...` fed to an object whose
read index is in `0 .. 3` (as after construction), and every `t ≥ 4`, the four
taps of the `t`-th call to `process` are the four most recent inputs:
`y2 = x t`, `y1 = x (t-1)`, `y0 = x (t-2)`, `ym = x (t-3)`; the read indices
`input_buf_index + 0 .. 3` lie in `0 .. 6` and the mirror write index
`input_buf_index + 4` in `4 .. 7`, inside the 8 slots; when the call emits,
the stored sample is the scaled B-spline of these four inputs. -/
theorem taps_are_last_four_inputs (r0 : c_resampler) (x : Nat → ℚ) (t : Nat)
    (h0 : 0 ≤ r0.input_buf_index) (h3 : r0.input_buf_index ≤ 3) (ht : 4 ≤ t) :
    (0 ≤ (r0.process_seq x (t - 1)).input_buf_index ∧
     (r0.process_seq x (t - 1)).input_buf_index + 3 < 8 ∧
     (r0.process_seq x (t - 1)).input_buf_index + 4 < 8) ∧
    (r0.process_seq x t).input_buf (r0.process_seq x (t - 1)).input_buf_index = x t ∧
    (r0.process_seq x t).input_buf ((r0.process_seq x (t - 1)).input_buf_index + 1)
      = x (t - 1) ∧
    (r0.process_seq x t).input_buf ((r0.process_seq x (t - 1)).input_buf_index + 2)
      = x (t - 2) ∧
    (r0.process_seq x t).input_buf ((r0.process_seq x (t - 1)).input_buf_index + 3)
      = x (t - 3) ∧
    ((r0.process_seq x (t - 1)).samples_required = 1 →
      (r0.process_seq x t).output_buf (r0.process_seq x (t - 1)).output_buf_index
        = scale_sample (bspline (x (t - 3)) (x (t - 2)) (x (t - 1)) (x t)
            (r0.process_seq x (t - 1)).mf)) := by
  obtain ⟨s, rfl⟩ : ∃ s, t = s + 1 := ⟨t - 1, by omega⟩
  have hw := window_inv_seq x s r0 h0 h3
  have t0 := tap_value x s _ hw 0 (by omega) (by omega)
  have t1 := tap_value x s _ hw 1 (by omega) (by omega)
  have t2 := tap_value x s _ hw 2 (by omega) (by omega)
  have t3 := tap_value x s _ hw 3 (by omega) (by omega)
  simp only [Nat.add_sub_cancel, c_resampler.process_seq, Nat.cast_zero, add_zero,
    Nat.cast_one, Nat.cast_ofNat, Nat.sub_zero] at t0 t1 t2 t3 ⊢
  refine ⟨⟨hw.1, by have := hw.2.1; omega, by have := hw.2.1; omega⟩, t0, t1, t2, t3, ?_⟩
  intro hs
  obtain ⟨_, _, _, e⟩ := process_emit (r0.process_seq x s) (x (s + 1)) hs
  rw [e, Function.update_same, t0, t1, t2, t3]

theorem taps_are_last_four_inputs_witness :
    (0 ≤ ((c_resampler.ctor 384000 48000).process_seq (fun k => k) (10 - 1)).input_buf_index ∧
     ((c_resampler.ctor 384000 48000).process_seq (fun k => k) (10 - 1)).input_buf_index + 3 < 8 ∧
     ((c_resampler.ctor 384000 48000).process_seq (fun k => k) (10 - 1)).input_buf_index + 4
       < 8) ∧
    ((c_resampler.ctor 384000 48000).process_seq (fun k => k) 10).input_buf
        ((c_resampler.ctor 384000 48000).process_seq (fun k => k) (10 - 1)).input_buf_index
      = ((10 : Nat) : ℚ) ∧
    ((c_resampler.ctor 384000 48000).process_seq (fun k => k) 10).input_buf
        (((c_resampler.ctor 384000 48000).process_seq (fun k => k) (10 - 1)).input_buf_index + 1)
      = ((10 - 1 : Nat) : ℚ) ∧
    ((c_resampler.ctor 384000 48000).process_seq (fun k => k) 10).input_buf
        (((c_resampler.ctor 384000 48000).process_seq (fun k => k) (10 - 1)).input_buf_index + 2)
      = ((10 - 2 : Nat) : ℚ) ∧
    ((c_resampler.ctor 384000 48000).process_seq (fun k => k) 10).input_buf
        (((c_resampler.ctor 384000 48000).process_seq (fun k => k) (10 - 1)).input_buf_index + 3)
      = ((10 - 3 : Nat) : ℚ) ∧
    (((c_resampler.ctor 384000 48000).process_seq (fun k => k) (10 - 1)).samples_required = 1 →
      ((c_resampler.ctor 384000 48000).process_seq (fun k => k) 10).output_buf
          ((c_resampler.ctor 384000 48000).process_seq (fun k => k) (10 - 1)).output_buf_index
        = scale_sample (bspline ((10 - 3 : Nat) : ℚ) ((10 - 2 : Nat) : ℚ) ((10 - 1 : Nat) : ℚ)
            ((10 : Nat) : ℚ)
            ((c_resampler.ctor 384000 48000).process_seq (fun k => k) (10 - 1)).mf)) :=
  taps_are_last_four_inputs (c_resampler.ctor 384000 48000) (fun k => k) 10
    (by decide) (by decide) (by decide)

/-! ## Claims: accumulator range -/

/-- C20: on a history whose valid values are smoothed readings in
`[0, 2 * BUF_LEN]`, after any number `n ≤ 60` of loop iterations of
`calc_slope` the accumulators `valid_values, sx, sy, sxx, sxy`, computed on
mathematical integers, and the products `valid_values*sxy`, `sx*sy`,
`valid_values*sxx`, `sx*sx` and the two differences formed from them, all
have absolute value below `2^31`; so the 32-bit accumulators of the code
never wrap and hold these same values. -/
theorem calc_slope_accumulators_fit (w_values : Nat → Int) (w_value_index n : Nat)
    (h : history_ok w_values) (hi : w_value_index < NUM_W_VALUES) (hn : n ≤ 60) :
    fits_int32 (slope_loop_exact w_values n w_value_index ⟨0, 0, 0, 0, 0⟩).valid_values ∧
    fits_int32 (slope_loop_exact w_values n w_value_index ⟨0, 0, 0, 0, 0⟩).sx ∧
    fits_int32 (slope_loop_exact w_values n w_value_index ⟨0, 0, 0, 0, 0⟩).sy ∧
    fits_int32 (slope_loop_exact w_values n w_value_index ⟨0, 0, 0, 0, 0⟩).sxx ∧
    fits_int32 (slope_loop_exact w_values n w_value_index ⟨0, 0, 0, 0, 0⟩).sxy ∧
    fits_int32
      ((slope_loop_exact w_values n w_value_index ⟨0, 0, 0, 0, 0⟩).valid_values
        * (slope_loop_exact w_values n w_value_index ⟨0, 0, 0, 0, 0⟩).sxy) ∧
    fits_int32
      ((slope_loop_exact w_values n w_value_index ⟨0, 0, 0, 0, 0⟩).sx
        * (slope_loop_exact w_values n w_value_index ⟨0, 0, 0, 0, 0⟩).sy) ∧
    fits_int32
      ((slope_loop_exact w_values n w_value_index ⟨0, 0, 0, 0, 0⟩).valid_values
        * (slope_loop_exact w_values n w_value_index ⟨0, 0, 0, 0, 0⟩).sxx) ∧
    fits_int32
      ((slope_loop_exact w_values n w_value_index ⟨0, 0, 0, 0, 0⟩).sx
        * (slope_loop_exact w_values n w_value_index ⟨0, 0, 0, 0, 0⟩).sx) ∧
    fits_int32
      ((slope_loop_exact w_values n w_value_index ⟨0, 0, 0, 0, 0⟩).valid_values
          * (slope_loop_exact w_values n w_value_index ⟨0, 0, 0, 0, 0⟩).sxy
        - (slope_loop_exact w_values n w_value_index ⟨0, 0, 0, 0, 0⟩).sx
          * (slope_loop_exact w_values n w_value_index ⟨0, 0, 0, 0, 0⟩).sy) ∧
    fits_int32
      ((slope_loop_exact w_values n w_value_index ⟨0, 0, 0, 0, 0⟩).valid_values
          * (slope_loop_exact w_values n w_value_index ⟨0, 0, 0, 0, 0⟩).sxx
        - (slope_loop_exact w_values n w_value_index ⟨0, 0, 0, 0, 0⟩).sx
          * (slope_loop_exact w_values n w_value_index ⟨0, 0, 0, 0, 0⟩).sx) ∧
    slope_loop w_values n w_value_index ⟨0, 0, 0, 0, 0⟩
      = slope_loop_exact w_values n w_value_index ⟨0, 0, 0, 0, 0⟩ := by
  obtain ⟨e1, e2⟩ := slope_loop_prefix_spec w_values w_value_index n h hi hn
  have hok := visited_entries_readings_ok w_values w_value_index n h
  have hlen : (visited_entries w_values w_value_index n).length ≤ 60 :=
    le_trans (visited_entries_length_le w_values w_value_index n) hn
  rw [e1]
  generalize visited_entries w_values w_value_index n = ys at *
  have hx := ols_sx_bounds ys.length hlen
  have hxx := ols_sxx_bounds ys.length hlen
  have hy := ols_sy_bounds ys hok
  have hxy := ols_sxy_bounds ys hok hlen
  have hn0 : (0 : Int) ≤ ys.length := by positivity
  have hn1 : (ys.length : Int) ≤ 60 := by exact_mod_cast hlen
  have hy' : ols_sy ys ≤ 491520 := by omega
  have hxy' : ols_sxy ys ≤ 29491200 := by omega
  have p1 : 0 ≤ (ys.length : Int) * ols_sxy ys := mul_nonneg hn0 hxy.1
  have p2 : (ys.length : Int) * ols_sxy ys ≤ 60 * 29491200 :=
    mul_le_mul hn1 hxy' hxy.1 (by norm_num)
  have p3 : 0 ≤ ols_sx ys.length * ols_sy ys := mul_nonneg hx.1 hy.1
  have p4 : ols_sx ys.length * ols_sy ys ≤ 3600 * 491520 :=
    mul_le_mul (by omega) hy' hy.1 (by norm_num)
  have p5 : 0 ≤ (ys.length : Int) * ols_sxx ys.length := mul_nonneg hn0 hxx.1
  have p6 : (ys.length : Int) * ols_sxx ys.length ≤ 60 * 216000 :=
    mul_le_mul hn1 (by omega) hxx.1 (by norm_num)
  have p7 : 0 ≤ ols_sx ys.length * ols_sx ys.length := mul_nonneg hx.1 hx.1
  have p8 : ols_sx ys.length * ols_sx ys.length ≤ 3600 * 3600 :=
    mul_le_mul (by omega) (by omega) hx.1 (by norm_num)
  simp only [fits_int32, abs_lt]
  refine ⟨?_, ?_, ?_, ?_, ?_, ?_, ?_, ?_, ?_, ?_, ?_, e2.trans e1⟩ <;> constructor <;> omega

theorem calc_slope_accumulators_fit_witness :
    history_ok flat_history ∧
    fits_int32 (slope_loop_exact flat_history 60 17 ⟨0, 0, 0, 0, 0⟩).valid_values ∧
    fits_int32 (slope_loop_exact flat_history 60 17 ⟨0, 0, 0, 0, 0⟩).sx ∧
    fits_int32 (slope_loop_exact flat_history 60 17 ⟨0, 0, 0, 0, 0⟩).sy ∧
    fits_int32 (slope_loop_exact flat_history 60 17 ⟨0, 0, 0, 0, 0⟩).sxx ∧
    fits_int32 (slope_loop_exact flat_history 60 17 ⟨0, 0, 0, 0, 0⟩).sxy ∧
    fits_int32
      ((slope_loop_exact flat_history 60 17 ⟨0, 0, 0, 0, 0⟩).valid_values
        * (slope_loop_exact flat_history 60 17 ⟨0, 0, 0, 0, 0⟩).sxy) ∧
    fits_int32
      ((slope_loop_exact flat_history 60 17 ⟨0, 0, 0, 0, 0⟩).sx
        * (slope_loop_exact flat_history 60 17 ⟨0, 0, 0, 0, 0⟩).sy) ∧
    fits_int32
      ((slope_loop_exact flat_history 60 17 ⟨0, 0, 0, 0, 0⟩).valid_values
        * (slope_loop_exact flat_history 60 17 ⟨0, 0, 0, 0, 0⟩).sxx) ∧
    fits_int32
      ((slope_loop_exact flat_history 60 17 ⟨0, 0, 0, 0, 0⟩).sx
        * (slope_loop_exact flat_history 60 17 ⟨0, 0, 0, 0, 0⟩).sx) ∧
    fits_int32
      ((slope_loop_exact flat_history 60 17 ⟨0, 0, 0, 0, 0⟩).valid_values
          * (slope_loop_exact flat_history 60 17 ⟨0, 0, 0, 0, 0⟩).sxy
        - (slope_loop_exact flat_history 60 17 ⟨0, 0, 0, 0, 0⟩).sx
          * (slope_loop_exact flat_history 60 17 ⟨0, 0, 0, 0, 0⟩).sy) ∧
    fits_int32
      ((slope_loop_exact flat_history 60 17 ⟨0, 0, 0, 0, 0⟩).valid_values
          * (slope_loop_exact flat_history 60 17 ⟨0, 0, 0, 0, 0⟩).sxx
        - (slope_loop_exact flat_history 60 17 ⟨0, 0, 0, 0, 0⟩).sx
          * (slope_loop_exact flat_history 60 17 ⟨0, 0, 0, 0, 0⟩).sx) ∧
    slope_loop flat_history 60 17 ⟨0, 0, 0, 0, 0⟩
      = slope_loop_exact flat_history 60 17 ⟨0, 0, 0, 0, 0⟩ :=
  ⟨by decide, calc_slope_accumulators_fit flat_history 17 60 (by decide) (by decide)
    (by decide)⟩

end AudioSync
